import Mathlib

/-!
# GolombRuler3: minimal-span sequences with every difference repeated at most three times

A shallow embedding of the four programs of the repository,

* `solverv2.cpp`: single-threaded search with three layered 128-bit masks,
* `solverv1.cpp`: counter-array search that minimises the span directly,
* `validator.cpp`: the pairwise-difference checker,
* `solverv3.cpp`: the search of solverv2 split into one worker for each second
  element, the workers run one after another,

followed by the properties proved about them.

Conventions of the embedding.

* A C++ `int` is an `Int`.  In the solvers the values that occur stay far
  below `2^31` (the searches are bounded by `alpha ≤ 127`, resp. by
  `MAX_DIFF = 500`).  The validator takes arbitrary `int`s: there a function
  returns `none` as soon as a subtraction, `abs` or `++` would overflow.
* A `__uint128_t` is a `Nat`, reduced modulo `2^128` after a left shift.
* An array or vector is a `List Int`.  Every indexed access is checked: a
  function returns `none` as soon as the C++ code would index outside the
  array or shift by a count outside `0..127` (undefined behaviour).
* Recursion depth and loop counts are supplied as a `Nat` that decreases with
  each nested call or iteration; the theorems show that the supplied bounds are
  never used up on the inputs they speak about.
-/

namespace GolombRuler

/-! ## Arrays and 128-bit masks -/

/-- The read `A[i]` with a C `int` index; `none` outside the array. -/
def rd (A : List Int) (i : Int) : Option Int :=
  if 0 ≤ i then A[i.toNat]? else none

/-- The write `A[i] = v` with a C `int` index; `none` outside the array. -/
def wr (A : List Int) (i : Int) (v : Int) : Option (List Int) :=
  if 0 ≤ i ∧ i < A.length then some (A.set i.toNat v) else none

/-- The test `(m >> d) & 1` on a `__uint128_t`; `none` when the shift count is
not in `0..127`. -/
def bitAt (m : Nat) (d : Int) : Option Bool :=
  if 0 ≤ d ∧ d < 128 then some ((m >>> d.toNat) &&& 1 != 0) else none

/-- The mask `(bitmask)1 << d`; `none` when the shift count is not in `0..127`. -/
def bitOf (d : Int) : Option Nat :=
  if 0 ≤ d ∧ d < 128 then some ((1 <<< d.toNat) % 2 ^ 128) else none

/-! ## Sequences and their differences -/

/-- All differences `s[j] - s[i]` with `i < j`, one entry for each index pair. -/
def pairDiffs : List Int → List Int
  | [] => []
  | a :: t => t.map (fun b => b - a) ++ pairDiffs t

/-- The number of index pairs `i < j` with `s[j] - s[i] = d`. -/
def diffCount (s : List Int) (d : Int) : Nat :=
  (pairDiffs s).count d

/-- A strictly increasing sequence in which every difference occurs at most
`gamma` times. -/
def Valid (gamma : Nat) (s : List Int) : Prop :=
  s.Pairwise (fun a b => a < b) ∧ ∀ d, diffCount s d ≤ gamma

/-- A valid `k`-element sequence (for `gamma = 3`) that starts at `0` and ends
at `alpha`. -/
def IsRuler (k alpha : Int) (s : List Int) : Prop :=
  (s.length : Int) = k ∧ s.head? = some 0 ∧ s.getLast? = some alpha ∧ Valid 3 s

/-- The layered-mask relation between a sequence and the three masks of
solverv2/solverv3: bit `d` of `m_l` is set exactly when the difference `d`
occurs at least `l` times among the pairs of `P`. -/
def MaskInv (P : List Int) (m1 m2 m3 : Nat) : Prop :=
  ∀ d : Nat, (m1.testBit d = true ↔ 1 ≤ diffCount P d) ∧
    (m2.testBit d = true ↔ 2 ≤ diffCount P d) ∧
    (m3.testBit d = true ↔ 3 ≤ diffCount P d)

/-! ## solverv2.cpp -/

namespace SolverV2

/-- The pruning table `g_min_span` of solverv2.cpp (indices 0..16). -/
def g_min_span : List Int :=
  [0, 0, 1, 2, 3, 5, 7, 9, 12, 15, 19, 24, 29, 35, 41, 49, 58]

/-- The closing loop of `backtrack` (`size == k_target - 1`):
`for (i = 0; i < size; ++i) if ((m3 >> (alpha - A[i])) & 1) return false;`.
The first argument counts the iterations left, the second is the loop index
`i`; the result is `true` when the loop runs to its end. -/
def closeLoop (A : List Int) (m3 : Nat) (alpha : Int) : Nat → Nat → Option Bool
  | 0, _ => some true
  | n + 1, i => do
    let a ← A[i]?
    let hit ← bitAt m3 (alpha - a)
    if hit then some false else closeLoop A m3 alpha n (i + 1)

/-- The inner loop of the candidate step: collects `new_diffs` and stops at the
first difference whose `m3` bit is set.  Returns `(conflict, new_diffs)`. -/
def diffLoop (A : List Int) (m3 : Nat) (cand : Int) : Nat → Nat → Nat → Option (Bool × Nat)
  | 0, _, new_diffs => some (false, new_diffs)
  | n + 1, i, new_diffs => do
    let a ← A[i]?
    let d := cand - a
    let hit ← bitAt m3 d
    if hit then some (true, new_diffs)
    else do
      let b ← bitOf d
      diffLoop A m3 cand n (i + 1) (new_diffs ||| b)

/-- The candidate loop `for (cand = last_val + 1; cand <= max_cand; ++cand)`.
`rec` is the nested call `backtrack(A, size + 1, ·, ·, ·, k_target, alpha)`;
the first `Nat` counts the candidates left.  The array is threaded through
because `A[size] = cand` overwrites it in place. -/
def candLoop (rec : List Int → Nat → Nat → Nat → Option (Bool × List Int))
    (size : Int) (m1 m2 m3 : Nat) : Nat → Int → List Int → Option (Bool × List Int)
  | 0, _, A => some (false, A)
  | n + 1, cand, A => do
    let (conflict, new_diffs) ← diffLoop A m3 cand size.toNat 0 0
    if conflict then candLoop rec size m1 m2 m3 n (cand + 1) A
    else do
      let next_m3 := m3 ||| (m2 &&& new_diffs)
      let next_m2 := m2 ||| (m1 &&& new_diffs)
      let next_m1 := m1 ||| new_diffs
      let A1 ← wr A size cand
      let (found, A2) ← rec A1 next_m1 next_m2 next_m3
      if found then some (true, A2)
      else candLoop rec size m1 m2 m3 n (cand + 1) A2

/-- The function `backtrack` of solverv2.cpp with an explicit bound on the
nesting depth (first argument).  Returns the Boolean result together with the
array as the call leaves it. -/
def backtrackAux : Nat → List Int → Int → Nat → Nat → Nat → Int → Int →
    Option (Bool × List Int)
  | 0, _, _, _, _, _, _, _ => none
  | fuel + 1, A, size, m1, m2, m3, k_target, alpha => do
    let last_val ← rd A (size - 1)
    let remaining := k_target - size
    let g1 ← rd g_min_span (remaining + 1)
    if last_val + g1 > alpha then some (false, A)
    else if size = k_target - 1 then do
      let ok ← closeLoop A m3 alpha size.toNat 0
      if ok then do
        let A1 ← wr A size alpha
        some (true, A1)
      else some (false, A)
    else do
      let g0 ← rd g_min_span remaining
      let max_cand := alpha - g0
      let max_cand := if size = 1 then min max_cand (Int.tdiv alpha 2) else max_cand
      candLoop (fun A1 n1 n2 n3 => backtrackAux fuel A1 (size + 1) n1 n2 n3 k_target alpha)
        size m1 m2 m3 (max_cand - last_val).toNat (last_val + 1) A

/-- The function `backtrack` of solverv2.cpp.  A call nests at most
`k_target - size` deep (two levels when `k_target ≤ size`, where the next table
read is already out of range), which the depth bound covers. -/
def backtrack (A : List Int) (size : Int) (m1 m2 m3 : Nat) (k_target alpha : Int) :
    Option (Bool × List Int) :=
  backtrackAux ((k_target - size).toNat + 2) A size m1 m2 m3 k_target alpha

/-- The `while (true)` loop of `solve`: the first argument bounds the number of
values of `alpha` tried.  Reports `(alpha, A[0..k-1])`. -/
def solveLoop : Nat → List Int → Int → Int → Option (Int × List Int)
  | 0, _, _, _ => none
  | fuel + 1, A, k, alpha => do
    let A0 ← wr A 0 0
    let (found, A1) ← backtrack A0 1 0 0 0 k alpha
    if found then some (alpha, A1.take k.toNat)
    else solveLoop fuel A1 k (alpha + 1)

/-- The function `solve` of solverv2.cpp.  `A` is the local `int A[32]`, whose
initial contents are indeterminate. -/
def solve (fuel : Nat) (A : List Int) (k : Int) : Option (Int × List Int) := do
  let alpha ← rd g_min_span k
  solveLoop fuel A k alpha

/-- The table read at index `j` is a lower bound on the last element of every
valid `j`-element sequence that starts at `0`, for every `j` in `1..k`. -/
def TableOK (k : Int) : Prop :=
  ∀ j g, 1 ≤ j → j ≤ k → rd g_min_span j = some g →
    ∀ s x, IsRuler j x s → g ≤ x

/-- The state of a call `backtrack(A, size, m1, m2, m3, k, alpha)` inside a
search for `2 ≤ k ≤ 16`, `alpha ≤ 127`: the array holds a strictly increasing
sequence `A[0..size-1]` that starts at `0`, and the masks describe its
differences, none of which occurs more than three times. -/
structure SearchInv (k alpha : Int) (A : List Int) (size : Int) (m1 m2 m3 : Nat) : Prop where
  hk2 : 2 ≤ k
  hk16 : k ≤ 16
  ha : alpha ≤ 127
  hs1 : 1 ≤ size
  hsk : size ≤ k - 1
  hlen : k ≤ A.length
  hhead : A.head? = some 0
  hsorted : (A.take size.toNat).Pairwise (fun a b => a < b)
  hmask : MaskInv (A.take size.toNat) m1 m2 m3
  hbound : ∀ d, diffCount (A.take size.toNat) d ≤ 3

/-- What a call of `backtrack` started in a state `SearchInv` delivers: a
result, the array unchanged below `size`, a ruler in `A[0..k-1]` on success, and
on failure (with a sound table) no ruler that extends `A[0..size-1]`; at
`size = 1` with `k ≥ 3` only rulers whose second element is at most `alpha / 2`
are excluded. -/
def SearchPost (k alpha : Int) (A : List Int) (size : Int)
    (r : Option (Bool × List Int)) : Prop :=
  ∃ b A', r = some (b, A') ∧ A'.length = A.length ∧
    A'.take size.toNat = A.take size.toNat ∧
    (b = true → IsRuler k alpha (A'.take k.toNat)) ∧
    (b = false → TableOK k → ∀ S, IsRuler k alpha S →
        S.take size.toNat = A.take size.toNat →
        (size = 1 → 3 ≤ k → ∀ x, S[1]? = some x → x ≤ alpha / 2) → False)

/-- The calls made while `backtrack(A0, 1, 0, 0, 0, k, alpha)` runs:
`Reach k alpha A0 fuel A size m1 m2 m3` holds when that run evaluates the call
`backtrack(A, size, m1, m2, m3, k, alpha)` (at depth bound `fuel`).  The root
call is reached; a reached call that passes the pruning test and is not the
closing step makes the nested call for its `j`-th candidate
`cand = last_val + 1 + j` when the loop over the `j` earlier candidates came
back with `false` (leaving the array `B`) and `cand` raises no conflict. -/
inductive Reach (k alpha : Int) (A0 : List Int) :
    Nat → List Int → Int → Nat → Nat → Nat → Prop
  | root : Reach k alpha A0 ((k - 1).toNat + 2) A0 1 0 0 0
  | step {fuel : Nat} {A : List Int} {size : Int} {m1 m2 m3 : Nat}
      {last_val g1 g0 : Int} {j : Nat} {B : List Int} {nd : Nat} {A1 : List Int} :
      Reach k alpha A0 (fuel + 1) A size m1 m2 m3 →
      rd A (size - 1) = some last_val →
      rd g_min_span (k - size + 1) = some g1 →
      ¬ (last_val + g1 > alpha) →
      size ≠ k - 1 →
      rd g_min_span (k - size) = some g0 →
      j < ((if size = 1 then min (alpha - g0) (Int.tdiv alpha 2) else alpha - g0)
            - last_val).toNat →
      candLoop (fun A1 n1 n2 n3 => backtrackAux fuel A1 (size + 1) n1 n2 n3 k alpha)
        size m1 m2 m3 j (last_val + 1) A = some (false, B) →
      diffLoop B m3 (last_val + 1 + j) size.toNat 0 0 = some (false, nd) →
      wr B size (last_val + 1 + j) = some A1 →
      Reach k alpha A0 fuel A1 (size + 1)
        (m1 ||| nd) (m2 ||| (m1 &&& nd)) (m3 ||| (m2 &&& nd))

end SolverV2

/-! ## solverv1.cpp -/

namespace SolverV1

/-- The constant `GAMMA` of solverv1.cpp. -/
def GAMMA : Int := 3

/-- The constant `MAX_DIFF` of solverv1.cpp, the size of every `diff_counts`. -/
def MAX_DIFF : Nat := 500

/-- The struct `Result` of solverv1.cpp. -/
structure Result where
  N : Int
  witness : List Int
  deriving DecidableEq, Repr

/-- The first loop of `try_add`:
`for (int a : A) if (diff_counts[val - a] + 1 > GAMMA) return false;`.
The result is `true` when the loop runs to its end. -/
def checkLoop (val : Int) (diff_counts : List Int) : List Int → Option Bool
  | [] => some true
  | a :: rest => do
    let c ← rd diff_counts (val - a)
    if c + 1 > GAMMA then some false else checkLoop val diff_counts rest

/-- The second loop of `try_add`: `for (int a : A) diff_counts[val - a]++;`. -/
def incrLoop (val : Int) : List Int → List Int → Option (List Int)
  | [], diff_counts => some diff_counts
  | a :: rest, diff_counts => do
    let c ← rd diff_counts (val - a)
    let dc ← wr diff_counts (val - a) (c + 1)
    incrLoop val rest dc

/-- The function `try_add` of solverv1.cpp; returns its Boolean result and
`diff_counts` as the call leaves it. -/
def try_add (val : Int) (A : List Int) (diff_counts : List Int) :
    Option (Bool × List Int) := do
  let ok ← checkLoop val diff_counts A
  if ok then do
    let dc ← incrLoop val A diff_counts
    some (true, dc)
  else some (false, diff_counts)

/-- The loop of `remove_val`: `for (int a : A) diff_counts[val - a]--;`. -/
def decrLoop (val : Int) : List Int → List Int → Option (List Int)
  | [], diff_counts => some diff_counts
  | a :: rest, diff_counts => do
    let c ← rd diff_counts (val - a)
    let dc ← wr diff_counts (val - a) (c - 1)
    decrLoop val rest dc

/-- The function `remove_val` of solverv1.cpp. -/
def remove_val (val : Int) (A : List Int) (diff_counts : List Int) : Option (List Int) :=
  decrLoop val A diff_counts

/-- The mutable state a call of `dfs` works on: `diff_counts`, `best_N` and
`best_witness` (all passed by reference). -/
structure DfsState where
  diff_counts : List Int
  best_N : Int
  best_witness : List Int
  deriving DecidableEq, Repr

/-- The guarded body of the loop of `dfs`:
`if (try_add(val, A, diff_counts)) { A.push_back(val); dfs(...); A.pop_back();
remove_val(val, A, diff_counts); }`.
`rec` is the nested call `dfs(A ++ [val], ...)`. -/
def dfsBody (rec : List Int → DfsState → Option DfsState) (A : List Int) (val : Int)
    (st : DfsState) : Option DfsState := do
  let r ← try_add val A st.diff_counts
  if r.1 then do
    let st1 ← rec (A ++ [val]) { st with diff_counts := r.2 }
    let dc ← remove_val val A st1.diff_counts
    some { st1 with diff_counts := dc }
  else some { st with diff_counts := r.2 }

/-- The loop `for (val = min_val; val <= best_N - g_rem; ++val)` of `dfs`, with
the early return `if (best_N == G_lookup[k - 1] + 1) return;` after the body.
`best_N` is read afresh in every test of the loop condition; it never grows, so
the loop makes at most `best_N - g_rem - min_val + 1` iterations, the count the
first argument starts from (`none` if the count were ever used up). -/
def dfsLoop (rec : List Int → DfsState → Option DfsState) (G_lookup : Int → Int)
    (A : List Int) (k g_rem : Int) : Nat → Int → DfsState → Option DfsState
  | 0, val, st => if val ≤ st.best_N - g_rem then none else some st
  | n + 1, val, st =>
    if val ≤ st.best_N - g_rem then do
      let st2 ← dfsBody rec A val st
      if st2.best_N = G_lookup (k - 1) + 1 then some st2
      else dfsLoop rec G_lookup A k g_rem n (val + 1) st2
    else some st

/-- The function `dfs` of solverv1.cpp.  The first argument bounds the nesting
depth.  `G_lookup` is the global `std::map<int,int>` read through
`operator[]` (an absent key reads as `0`). -/
def dfs (G_lookup : Int → Int) (k : Int) : Nat → List Int → DfsState → Option DfsState
  | 0, _, _ => none
  | fuel + 1, A, st =>
    let current_len : Int := A.length
    if current_len = k then do
      let back ← A.getLast?
      if back < st.best_N then some { st with best_N := back, best_witness := A }
      else some st
    else do
      let remaining := k - current_len
      let g_rem := G_lookup remaining
      let back ← A.getLast?
      let min_val := back + 1
      dfsLoop (dfs G_lookup k fuel) G_lookup A k g_rem
        (st.best_N - g_rem - min_val + 1).toNat min_val st

/-- The `while (true)` loop of `get_greedy`: the smallest `val` from the given
one on that `try_add` accepts.  The first argument bounds the iterations. -/
def greedyNext (A : List Int) : Nat → Int → List Int → Option (Int × List Int)
  | 0, _, _ => none
  | n + 1, val, diff_counts => do
    let r ← try_add val A diff_counts
    if r.1 then some (val, r.2) else greedyNext A n (val + 1) r.2

/-- The loop `for (i = 1; i < k; ++i)` of `get_greedy`.  The inner `while` stops
at the latest when `val` reaches `MAX_DIFF`, where `diff_counts[val - A[0]]` is
outside the vector. -/
def greedyLoop : Nat → List Int → List Int → Option (List Int)
  | 0, A, _ => some A
  | n + 1, A, diff_counts => do
    let back ← A.getLast?
    let r ← greedyNext A ((MAX_DIFF : Int) - back).toNat (back + 1) diff_counts
    greedyLoop n (A ++ [r.1]) r.2

/-- The function `get_greedy` of solverv1.cpp. -/
def get_greedy (k : Int) : Option Result := do
  let A ← greedyLoop (k - 1).toNat [0] (List.replicate MAX_DIFF 0)
  let back ← A.getLast?
  some { N := back, witness := A }

/-- The loop `for (val1 = 1; val1 <= best_N / 2; ++val1)` of `solve_G_minus`
with the partitions run one after another: the task for `val1` is finished
before the loop condition is tested again.  Each task works on its own
`local_A = {0, val1}` and `local_diffs`; `best_N` and `best_witness` are shared. -/
def partLoop (G_lookup : Int → Int) (k : Int) :
    Nat → Int → Int → List Int → Option (Int × List Int)
  | 0, val1, best_N, best_witness =>
    if val1 ≤ Int.tdiv best_N 2 then none else some (best_N, best_witness)
  | n + 1, val1, best_N, best_witness =>
    if val1 ≤ Int.tdiv best_N 2 then do
      let local_diffs ← wr (List.replicate MAX_DIFF 0) val1 1
      let st ← dfs G_lookup k k.toNat [0, val1]
        { diff_counts := local_diffs, best_N := best_N, best_witness := best_witness }
      partLoop G_lookup k n (val1 + 1) st.best_N st.best_witness
    else some (best_N, best_witness)

/-- The function `solve_G_minus` of solverv1.cpp, partitions run one after
another. -/
def solve_G_minus (G_lookup : Int → Int) (k : Int) : Option Result :=
  if k ≤ GAMMA + 1 then some { N := k - 1, witness := [] }
  else do
    let initial ← get_greedy k
    let r ← partLoop G_lookup k (Int.tdiv initial.N 2).toNat 1 initial.N initial.witness
    some { N := r.1, witness := r.2 }

/-- The vector `diff_counts` (of size `MAX_DIFF`) records the exact multiplicity
of every pairwise difference of `A`. -/
def Records (diff_counts : List Int) (A : List Int) : Prop :=
  diff_counts.length = MAX_DIFF ∧
  ∀ d : Nat, d < MAX_DIFF → diff_counts[d]? = some (diffCount A d : Int)

/-- The entries `G_lookup[j]`, `1 ≤ j < k`, as `main` leaves them before
`solve_G_minus(k)`: non-negative, and a lower bound on the last element of every
valid `j`-element sequence that starts at `0`. -/
def LookupOK (G_lookup : Int → Int) (k : Int) : Prop :=
  ∀ j, 1 ≤ j → j < k → 0 ≤ G_lookup j ∧ ∀ s x, IsRuler j x s → G_lookup j ≤ x

/-- The state in which `dfs(A, diff_counts, k, best_N, best_witness)` is called:
`A` is a valid sequence of at most `k` elements from `0`, `diff_counts` records
its differences, and `best_witness` is a `k`-element ruler ending at
`best_N < MAX_DIFF`. -/
structure DfsPre (k : Int) (A : List Int) (st : DfsState) : Prop where
  hlen : (A.length : Int) ≤ k
  hhead : A.head? = some 0
  hvalid : Valid 3 A
  hrec : Records st.diff_counts A
  hbest : IsRuler k st.best_N st.best_witness
  hbound : st.best_N < MAX_DIFF

/-- What a call of `dfs` achieves: `diff_counts` is restored, `best_witness` is
still a ruler ending at `best_N`, `best_N` has not grown, and either the early
exit value `G_lookup[k-1] + 1` is reached or no ruler that extends `A` ends
before `best_N`. -/
def DfsPost (G_lookup : Int → Int) (k : Int) (A : List Int) (st st' : DfsState) : Prop :=
  st'.diff_counts = st.diff_counts ∧ IsRuler k st'.best_N st'.best_witness ∧
  st'.best_N ≤ st.best_N ∧
  (st'.best_N = G_lookup (k - 1) + 1 ∨
    ∀ S x, IsRuler k x S → S.take A.length = A → st'.best_N ≤ x)

end SolverV1

/-! ## validator.cpp -/

namespace Validator

/-- The largest value of the 32-bit type `int`. -/
def INT_MAX : Int := 2147483647

/-- The expression `abs(s[j] - s[i])` on 32-bit `int`s.  The result is defined
when the difference lies in `-INT_MAX..INT_MAX`; otherwise the subtraction
overflows, or the difference is `INT_MIN` and `abs` overflows (`none`). -/
def absDiff (sj si : Int) : Option Int :=
  if -INT_MAX ≤ sj - si ∧ sj - si ≤ INT_MAX then some |sj - si| else none

/-- The statement `diff_counts[diff]++` on the `std::map<int,int>`, kept as a
list of `(key, count)` sorted by key: an absent key is inserted with count 1;
`none` when the `int` count is already `INT_MAX` and `++` overflows. -/
def mapIncr : List (Int × Int) → Int → Option (List (Int × Int))
  | [], diff => some [(diff, 1)]
  | (key, count) :: rest, diff =>
    if diff < key then some ((diff, 1) :: (key, count) :: rest)
    else if diff = key then
      if count < INT_MAX then some ((key, count + 1) :: rest) else none
    else do
      let rest1 ← mapIncr rest diff
      some ((key, count) :: rest1)

/-- The inner loop `for (j = i + 1; j < n; ++j) diff_counts[abs(s[j] - s[i])]++`,
over the elements after position `i`. -/
def tallyFrom (si : Int) : List Int → List (Int × Int) → Option (List (Int × Int))
  | [], diff_counts => some diff_counts
  | sj :: rest, diff_counts => do
    let diff ← absDiff sj si
    let dc ← mapIncr diff_counts diff
    tallyFrom si rest dc

/-- The outer loop `for (i = 0; i < n; ++i)`. -/
def tally : List Int → List (Int × Int) → Option (List (Int × Int))
  | [], diff_counts => some diff_counts
  | si :: rest, diff_counts => do
    let dc ← tallyFrom si rest diff_counts
    tally rest dc

/-- The loop over the map in key order: the `(diff, count)` pairs of the
`VIOLATION` lines, in the order printed, and the final `is_valid`. -/
def checkCounts (gamma : Int) : List (Int × Int) → Bool → List (Int × Int) × Bool
  | [], is_valid => ([], is_valid)
  | (diff, count) :: rest, is_valid =>
    if count > gamma then
      let r := checkCounts gamma rest false
      ((diff, count) :: r.1, r.2)
    else checkCounts gamma rest is_valid

/-- What the line `Max element (alpha): s.back()` shows: nothing when the
verdict is `FAILED`, no defined value when `s` is empty. -/
inductive MaxLine where
  | notPrinted
  | undefinedBack
  | value (v : Int)
  deriving DecidableEq, Repr

/-- The output of `validate_gamma_set`. -/
structure Report where
  violations : List (Int × Int)
  is_valid : Bool
  max_element : MaxLine
  deriving DecidableEq, Repr

/-- The function `validate_gamma_set` of validator.cpp.  The result is `none`
when `int n = s.size()` does not fit an `int`, or when a difference or a count
overflows. -/
def validate_gamma_set (gamma : Int) (s : List Int) : Option Report :=
  if (s.length : Int) ≤ INT_MAX then do
    let diff_counts ← tally s []
    let r := checkCounts gamma diff_counts true
    some
      { violations := r.1
        is_valid := r.2
        max_element :=
          if r.2 then
            match s.getLast? with
            | some v => MaxLine.value v
            | none => MaxLine.undefinedBack
          else MaxLine.notPrinted }
  else none

/-- The number of index pairs `i < j` with `|s[j] - s[i]| = d`. -/
def absDiffCount (s : List Int) (d : Int) : Nat :=
  ((pairDiffs s).map (fun x => |x|)).count d

/-- The count the map holds for the key `d` (`0` when the key is absent). -/
def countOf : List (Int × Int) → Int → Int
  | [], _ => 0
  | (key, count) :: rest, d => if d = key then count else countOf rest d

/-- The run of `validate_gamma_set` on `s` stays inside the type `int`: the size
of `s` fits, every difference `s[j] - s[i]` (`i < j`) lies in
`-INT_MAX..INT_MAX`, and no difference occurs more than `INT_MAX` times. -/
def NoOverflow (s : List Int) : Prop :=
  (s.length : Int) ≤ INT_MAX ∧ (∀ x ∈ pairDiffs s, |x| ≤ INT_MAX) ∧
  ∀ d, (absDiffCount s d : Int) ≤ INT_MAX

end Validator

/-! ## solverv3.cpp -/

namespace SolverV3

/-- The pruning table `g_min_span` of solverv3.cpp (indices 0..19). -/
def g_min_span : List Int :=
  [0, 0, 1, 2, 3, 5, 7, 9, 12, 15, 19, 24, 29, 35, 41, 49, 58, 67, 76, 85]

/-- The function `backtrack` of solverv3.cpp with an explicit bound on the
nesting depth (second argument).  `found_global` is the shared flag as the call
reads it: the workers are run one after another, and only a worker that has
finished its search writes the flag, so every call of one search reads the same
value.  The three loops are, statement for statement, those of solverv2
(`closeLoop`, `diffLoop`, `candLoop`); the differences are the test of the flag,
the table, and the absence of the `size == 1` restriction. -/
def backtrackAux (found_global : Bool) : Nat → List Int → Int → Nat → Nat → Nat → Int → Int →
    Option (Bool × List Int)
  | 0, _, _, _, _, _, _, _ => none
  | fuel + 1, A, size, m1, m2, m3, k_target, alpha =>
    if found_global then some (false, A)
    else do
      let last_val ← rd A (size - 1)
      let remaining := k_target - size
      let g1 ← rd g_min_span (remaining + 1)
      if last_val + g1 > alpha then some (false, A)
      else if size = k_target - 1 then do
        let ok ← SolverV2.closeLoop A m3 alpha size.toNat 0
        if ok then do
          let A1 ← wr A size alpha
          some (true, A1)
        else some (false, A)
      else do
        let g0 ← rd g_min_span remaining
        let max_cand := alpha - g0
        SolverV2.candLoop
          (fun A1 n1 n2 n3 => backtrackAux found_global fuel A1 (size + 1) n1 n2 n3 k_target alpha)
          size m1 m2 m3 (max_cand - last_val).toNat (last_val + 1) A

/-- The function `backtrack` of solverv3.cpp; the depth bound is the one of
solverv2's `backtrack`. -/
def backtrack (found_global : Bool) (A : List Int) (size : Int) (m1 m2 m3 : Nat)
    (k_target alpha : Int) : Option (Bool × List Int) :=
  backtrackAux found_global ((k_target - size).toNat + 2) A size m1 m2 m3 k_target alpha

/-- The shared state of the threads: the flag `found_global` and the array
`final_set`. -/
structure Shared where
  found_global : Bool
  final_set : List Int
  deriving DecidableEq, Repr

/-- The loop `for (i = 0; i < k_target; ++i) final_set[i] = local_set[i];` of
`worker`; the first argument counts the iterations left. -/
def copyLoop (local_set : List Int) : Nat → Nat → List Int → Option (List Int)
  | 0, _, final_set => some final_set
  | n + 1, i, final_set => do
    let v ← local_set[i]?
    let fs ← wr final_set i v
    copyLoop local_set n (i + 1) fs

/-- The search a worker runs: `local_set[0] = 0; local_set[1] = a1_val;` and
`backtrack(local_set, 2, 1 << a1_val, 0, 0, k_target, alpha)`.  `local_set` is
the worker's 64-cell array with its indeterminate initial contents. -/
def workerSearch (found_global : Bool) (local_set : List Int) (a1_val k_target alpha : Int) :
    Option (Bool × List Int) := do
  let l0 ← wr local_set 0 0
  let l1 ← wr l0 1 a1_val
  let m1 ← bitOf a1_val
  backtrack found_global l1 2 m1 0 0 k_target alpha

/-- The function `worker` of solverv3.cpp, run to its end without
interleaving.  `found_global.exchange(true)` sets the flag and yields its old
value; `final_set` is written only when that was `false`. -/
def worker (local_set : List Int) (a1_val k_target alpha : Int) (sh : Shared) :
    Option Shared := do
  let r ← workerSearch sh.found_global local_set a1_val k_target alpha
  if r.1 then
    if !sh.found_global then do
      let fs ← copyLoop r.2 k_target.toNat 0 sh.final_set
      some { found_global := true, final_set := fs }
    else some { sh with found_global := true }
  else some sh

/-- The workers of one round of `solve_parallel`, run one after another in the
given order.  `locals a1` is the initial content of the local array of the
worker for `a1`. -/
def runWorkers (locals : Int → List Int) (k_target alpha : Int) :
    List Int → Shared → Option Shared
  | [], sh => some sh
  | a1 :: rest, sh => do
    let sh1 ← worker (locals a1) a1 k_target alpha sh
    runWorkers locals k_target alpha rest sh1

/-- The values `a1 = 1, ..., max_a1` with `max_a1 = alpha / 2` for which
`solve_parallel` starts a worker, in the order of the loop. -/
def partitions (alpha : Int) : List Int :=
  (List.range (Int.tdiv alpha 2).toNat).map (fun (i : Nat) => (i : Int) + 1)

end SolverV3

/-! ## Notions used to state the later properties -/

/-- The masks `(m1, m2, m3)` of solverv2 stand for the counter array `counts`
of solverv1: for every difference `d` of the mask domain `0..127`, bit `d` of
`m_l` is set exactly when `counts[d] ≥ l`. -/
def SimRel (m1 m2 m3 : Nat) (counts : List Int) : Prop :=
  ∀ (d : Nat) (v : Int), d < 128 → counts[d]? = some v →
    (m1.testBit d = true ↔ 1 ≤ v) ∧ (m2.testBit d = true ↔ 2 ≤ v) ∧
    (m3.testBit d = true ↔ 3 ≤ v)

/-- The reflected sequence `{alpha - x : x ∈ S}`, sorted increasingly. -/
def reflect (alpha : Int) (S : List Int) : List Int :=
  (S.map (fun x => alpha - x)).insertionSort (fun a b => a ≤ b)

namespace SolverV1

/-- The value `v` is the smallest integer greater than `prev` whose addition to
`P` keeps every difference count at most 3. -/
def SmallestNext (P : List Int) (prev v : Int) : Prop :=
  prev < v ∧ (∀ d, diffCount (P ++ [v]) d ≤ 3) ∧
  ∀ u, prev < u → u < v → ¬ ∀ d, diffCount (P ++ [u]) d ≤ 3

/-- The greedy sequence: it starts at `0`, and each further element is the
smallest integer greater than its predecessor that the elements before it
admit. -/
def IsGreedy (A : List Int) : Prop :=
  A.head? = some 0 ∧
  ∀ (i : Nat) (prev v : Int), A[i]? = some prev → A[i + 1]? = some v →
    SmallestNext (A.take (i + 1)) prev v

end SolverV1

/-! ## Counting differences -/

theorem diffCount_cons (a : Int) (s : List Int) (d : Int) :
    diffCount (a :: s) d = (s.map (fun b => b - a)).count d + diffCount s d := by
  simp [diffCount, pairDiffs, List.count_append]

theorem diffCount_nil (d : Int) : diffCount [] d = 0 := by
  simp [diffCount, pairDiffs]

theorem diffCount_concat (s : List Int) (x d : Int) :
    diffCount (s ++ [x]) d = diffCount s d + (s.map (fun a => x - a)).count d := by
  induction s with
  | nil => simp [diffCount, pairDiffs]
  | cons a t ih =>
    rw [List.cons_append, diffCount_cons, diffCount_cons, ih]
    simp only [List.map_append, List.count_append, List.map_cons, List.map_nil, List.count_cons,
      List.count_nil]
    simp only [beq_iff_eq]
    omega

theorem count_map_sub_left (s : List Int) (x d : Int) :
    (s.map (fun a => x - a)).count d = s.count (x - d) := by
  induction s with
  | nil => simp
  | cons a t ih =>
    simp only [List.map_cons, List.count_cons, ih, beq_iff_eq]
    have : (x - a = d) ↔ (a = x - d) := by constructor <;> intro h <;> omega
    simp only [this]

theorem count_map_sub_right (s : List Int) (a d : Int) :
    (s.map (fun b => b - a)).count d = s.count (d + a) := by
  induction s with
  | nil => simp
  | cons b t ih =>
    simp only [List.map_cons, List.count_cons, ih, beq_iff_eq]
    have : (b - a = d) ↔ (b = d + a) := by constructor <;> intro h <;> omega
    simp only [this]

theorem pairwise_lt_nodup {s : List Int} (h : s.Pairwise (fun a b => a < b)) : s.Nodup :=
  h.imp (fun hab => ne_of_lt hab)

/-- Appending a new largest element adds one occurrence to every difference
`x - a`, `a ∈ s`, and nothing else. -/
theorem diffCount_concat_sorted (s : List Int) (x d : Int)
    (hs : s.Pairwise (fun a b => a < b)) :
    diffCount (s ++ [x]) d = diffCount s d + (if x - d ∈ s then 1 else 0) := by
  rw [diffCount_concat, count_map_sub_left, List.count_eq_of_nodup (pairwise_lt_nodup hs)]

theorem pairDiffs_pos {s : List Int} (hs : s.Pairwise (fun a b => a < b)) :
    ∀ d ∈ pairDiffs s, 0 < d := by
  induction s with
  | nil => simp [pairDiffs]
  | cons a t ih =>
    intro d hd
    rw [List.pairwise_cons] at hs
    simp only [pairDiffs, List.mem_append, List.mem_map] at hd
    rcases hd with ⟨b, hb, rfl⟩ | hd
    · have := hs.1 b hb; omega
    · exact ih hs.2 d hd

theorem diffCount_eq_zero_of_nonpos {s : List Int} (hs : s.Pairwise (fun a b => a < b))
    {d : Int} (hd : d ≤ 0) : diffCount s d = 0 := by
  unfold diffCount
  rw [List.count_eq_zero]
  intro h
  have := pairDiffs_pos hs d h
  omega

theorem pairDiffs_sublist {s t : List Int} (h : s.Sublist t) :
    (pairDiffs s).Sublist (pairDiffs t) := by
  induction h with
  | slnil => simp [pairDiffs]
  | cons a _ ih =>
    simp only [pairDiffs]
    exact ih.trans (List.sublist_append_right _ _)
  | cons₂ a h ih =>
    simp only [pairDiffs]
    exact List.Sublist.append (h.map _) ih

theorem diffCount_le_of_sublist {s t : List Int} (h : s.Sublist t) (d : Int) :
    diffCount s d ≤ diffCount t d :=
  (pairDiffs_sublist h).count_le d

theorem Valid.sublist {gamma : Nat} {s t : List Int} (h : s.Sublist t) (ht : Valid gamma t) :
    Valid gamma s :=
  ⟨ht.1.sublist h, fun d => (diffCount_le_of_sublist h d).trans (ht.2 d)⟩

theorem pairDiffs_map_add (s : List Int) (c : Int) :
    pairDiffs (s.map (fun a => a + c)) = pairDiffs s := by
  induction s with
  | nil => rfl
  | cons a t ih =>
    simp only [List.map_cons, pairDiffs, ih, List.map_map]
    congr 1
    apply List.map_congr_left
    intro b _
    simp only [Function.comp]
    omega

theorem diffCount_map_add (s : List Int) (c d : Int) :
    diffCount (s.map (fun a => a + c)) d = diffCount s d := by
  simp [diffCount, pairDiffs_map_add]

theorem diffCount_reflect (s : List Int) (c d : Int) :
    diffCount ((s.map (fun a => c - a)).reverse) d = diffCount s d := by
  induction s with
  | nil => rfl
  | cons a t ih =>
    rw [List.map_cons, List.reverse_cons, diffCount_concat, ih, diffCount_cons,
      count_map_sub_left, count_map_sub_right, List.count_reverse]
    rw [Nat.add_comm]
    congr 1
    rw [count_map_sub_left]
    congr 1
    omega

/-! ## Masks -/

theorem bitAt_eq {m : Nat} {d : Int} (h0 : 0 ≤ d) (h1 : d < 128) :
    bitAt m d = some (m.testBit d.toNat) := by
  unfold bitAt
  rw [if_pos ⟨h0, h1⟩]
  simp [Nat.testBit, Nat.and_comm]

theorem bitOf_eq {d : Int} (h0 : 0 ≤ d) (h1 : d < 128) :
    bitOf d = some (2 ^ d.toNat) := by
  unfold bitOf
  rw [if_pos ⟨h0, h1⟩, Nat.one_shiftLeft]
  have : d.toNat < 128 := by omega
  rw [Nat.mod_eq_of_lt (Nat.pow_lt_pow_right (by norm_num) this)]

theorem bitAt_isSome_iff {m : Nat} {d : Int} : (bitAt m d).isSome ↔ (0 ≤ d ∧ d < 128) := by
  unfold bitAt
  split <;> simp_all

theorem toNat_eq_iff_of_nonneg {x : Int} {j : Nat} (hx : 0 ≤ x) : x.toNat = j ↔ x = j := by
  omega

theorem rd_eq_some {A : List Int} {i v : Int} (h : rd A i = some v) :
    0 ≤ i ∧ i < A.length ∧ A[i.toNat]? = some v := by
  unfold rd at h
  split at h
  · next hc =>
    refine ⟨hc, ?_, h⟩
    have := (List.getElem?_eq_some.mp h).1
    omega
  · exact Option.noConfusion h

theorem rd_of_lt {A : List Int} {i : Int} (h0 : 0 ≤ i) (h1 : i < A.length) :
    ∃ v, rd A i = some v ∧ A[i.toNat]? = some v := by
  have hi : i.toNat < A.length := by omega
  refine ⟨A[i.toNat], ?_, List.getElem?_eq_getElem hi⟩
  unfold rd
  rw [if_pos h0, List.getElem?_eq_getElem hi]

theorem wr_eq {A : List Int} {i : Int} (v : Int) (h0 : 0 ≤ i) (h1 : i < A.length) :
    wr A i v = some (A.set i.toNat v) := by
  unfold wr
  rw [if_pos ⟨h0, h1⟩]

theorem wr_eq_some {A A1 : List Int} {i v : Int} (h : wr A i v = some A1) :
    0 ≤ i ∧ i < A.length ∧ A1 = A.set i.toNat v := by
  unfold wr at h
  split at h
  · next hc =>
    simp only [Option.some.injEq] at h
    exact ⟨hc.1, hc.2, h.symm⟩
  · exact Option.noConfusion h

namespace SolverV2

theorem closeLoop_spec (A : List Int) (m3 : Nat) (alpha : Int) :
    ∀ (n i : Nat), i + n ≤ A.length →
      (∀ a ∈ (A.drop i).take n, 0 ≤ alpha - a ∧ alpha - a < 128) →
      ∃ ok, closeLoop A m3 alpha n i = some ok ∧
        (ok = true ↔ ∀ a ∈ (A.drop i).take n, m3.testBit (alpha - a).toNat = false) := by
  intro n
  induction n with
  | zero => intro i _ _; exact ⟨true, rfl, by simp⟩
  | succ n ih =>
    intro i hlen hr
    have hi : i < A.length := by omega
    have hdrop : (A.drop i).take (n + 1) = A[i] :: (A.drop (i + 1)).take n := by
      rw [List.drop_eq_getElem_cons hi, List.take_succ_cons]
    rw [hdrop] at hr ⊢
    have hr0 := hr A[i] (List.mem_cons_self _ _)
    obtain ⟨ok, hok, hiff⟩ := ih (i + 1) (by omega)
      (fun a ha => hr a (List.mem_cons_of_mem _ ha))
    simp only [closeLoop, List.getElem?_eq_getElem hi, Option.bind_eq_bind, Option.some_bind,
      bitAt_eq hr0.1 hr0.2]
    by_cases hb : m3.testBit (alpha - A[i]).toNat = true
    · refine ⟨false, by simp [hb], ?_⟩
      simp [hb]
    · simp only [Bool.not_eq_true] at hb
      refine ⟨ok, by simp [hb, hok], ?_⟩
      simp [hb, hiff]

theorem diffLoop_spec (A : List Int) (m3 : Nat) (cand : Int) :
    ∀ (n i nd : Nat), i + n ≤ A.length →
      (∀ a ∈ (A.drop i).take n, 0 ≤ cand - a ∧ cand - a < 128) →
      ∃ c nd', diffLoop A m3 cand n i nd = some (c, nd') ∧
        (c = true ↔ ∃ a ∈ (A.drop i).take n, m3.testBit (cand - a).toNat = true) ∧
        (c = false → ∀ j : Nat, nd'.testBit j = true ↔
          (nd.testBit j = true ∨ ∃ a ∈ (A.drop i).take n, cand - a = j)) := by
  intro n
  induction n with
  | zero => intro i nd _ _; exact ⟨false, nd, rfl, by simp, by simp⟩
  | succ n ih =>
    intro i nd hlen hr
    have hi : i < A.length := by omega
    have hdrop : (A.drop i).take (n + 1) = A[i] :: (A.drop (i + 1)).take n := by
      rw [List.drop_eq_getElem_cons hi, List.take_succ_cons]
    rw [hdrop] at hr ⊢
    have hr0 := hr A[i] (List.mem_cons_self _ _)
    obtain ⟨c, nd', hc, hiff, hnd⟩ := ih (i + 1) (nd ||| 2 ^ (cand - A[i]).toNat) (by omega)
      (fun a ha => hr a (List.mem_cons_of_mem _ ha))
    simp only [diffLoop, List.getElem?_eq_getElem hi, Option.bind_eq_bind, Option.some_bind,
      bitAt_eq hr0.1 hr0.2, bitOf_eq hr0.1 hr0.2]
    by_cases hb : m3.testBit (cand - A[i]).toNat = true
    · refine ⟨true, nd, by simp [hb], ?_, by simp⟩
      simp [hb]
    · simp only [Bool.not_eq_true] at hb
      refine ⟨c, nd', by simp [hb, hc], ?_, ?_⟩
      · simp [hb, hiff]
      · intro hcf j
        rw [hnd hcf j, Nat.testBit_or, Nat.testBit_two_pow]
        simp only [Bool.or_eq_true, decide_eq_true_eq, List.mem_cons, exists_eq_or_imp]
        rw [toNat_eq_iff_of_nonneg hr0.1]
        tauto

end SolverV2

/-! ## One step of the layered masks -/

theorem maskInv_nil_zero (a : Int) : MaskInv [a] 0 0 0 := by
  intro d
  simp [diffCount, pairDiffs]

theorem maskInv_step {P : List Int} {m1 m2 m3 nd : Nat} {cand : Int}
    (hP : P.Pairwise (fun a b => a < b)) (hM : MaskInv P m1 m2 m3)
    (hnd : ∀ j : Nat, nd.testBit j = true ↔ ∃ a ∈ P, cand - a = j) :
    MaskInv (P ++ [cand]) (m1 ||| nd) (m2 ||| (m1 &&& nd)) (m3 ||| (m2 &&& nd)) := by
  intro d
  obtain ⟨h1, h2, h3⟩ := hM d
  have hmem : nd.testBit d = true ↔ cand - (d : Int) ∈ P := by
    rw [hnd d]
    constructor
    · rintro ⟨a, ha, hd⟩
      have : cand - (d : Int) = a := by omega
      rw [this]; exact ha
    · intro h
      exact ⟨_, h, by omega⟩
  rw [diffCount_concat_sorted P cand d hP]
  simp only [Nat.testBit_or, Nat.testBit_and, Bool.or_eq_true, Bool.and_eq_true, h1, h2, h3, hmem]
  by_cases hin : cand - (d : Int) ∈ P
  · simp only [hin, if_true, and_true]
    generalize diffCount P (d : Int) = c
    refine ⟨⟨fun _ => by omega, fun _ => Or.inr trivial⟩, by omega, by omega⟩
  · simp only [hin, if_false, and_false, or_false]
    omega

theorem bound_step {P : List Int} {m1 m2 m3 : Nat} {cand : Int}
    (hP : P.Pairwise (fun a b => a < b)) (hM : MaskInv P m1 m2 m3)
    (hb : ∀ d, diffCount P d ≤ 3) (hgt : ∀ a ∈ P, a < cand)
    (hclear : ∀ a ∈ P, m3.testBit (cand - a).toNat = false) :
    ∀ d, diffCount (P ++ [cand]) d ≤ 3 := by
  intro d
  rw [diffCount_concat_sorted P cand d hP]
  by_cases hin : cand - d ∈ P
  · simp only [hin, if_true]
    have h0 := hclear _ hin
    have hlt := hgt _ hin
    have hd : cand - (cand - d) = ((cand - (cand - d)).toNat : Int) := by omega
    have h3 := (hM (cand - (cand - d)).toNat).2.2
    rw [← hd] at h3
    have hdd : cand - (cand - d) = d := by omega
    rw [hdd] at h3 h0
    have : ¬ 3 ≤ diffCount P d := by
      intro h
      rw [h3.mpr h] at h0
      exact Bool.noConfusion h0
    omega
  · simp only [hin, if_false]
    exact hb d

theorem conflict_step {P : List Int} {m1 m2 m3 : Nat} {cand : Int}
    (hP : P.Pairwise (fun a b => a < b)) (hM : MaskInv P m1 m2 m3)
    (hgt : ∀ a ∈ P, a < cand)
    (hset : ∃ a ∈ P, m3.testBit (cand - a).toNat = true) :
    ∃ d, 4 ≤ diffCount (P ++ [cand]) d := by
  obtain ⟨a, ha, hbit⟩ := hset
  refine ⟨cand - a, ?_⟩
  rw [diffCount_concat_sorted P cand _ hP]
  have hlt := hgt a ha
  have hd : cand - a = ((cand - a).toNat : Int) := by omega
  have h3 := ((hM (cand - a).toNat).2.2).mp hbit
  rw [← hd] at h3
  have : cand - (cand - a) = a := by omega
  rw [this, if_pos ha]
  omega

/-! ## Lists as array slices -/

theorem take_set_self (B : List Int) (n : Nat) (v : Int) :
    (B.set n v).take n = B.take n := by
  apply List.ext_getElem?
  intro i
  rw [List.getElem?_take, List.getElem?_take]
  split
  · rw [List.getElem?_set_ne (by omega)]
  · rfl

theorem take_succ_set (B : List Int) (n : Nat) (v : Int) (h : n < B.length) :
    (B.set n v).take (n + 1) = B.take n ++ [v] := by
  rw [List.take_succ, take_set_self]
  simp [List.getElem?_set, h]

theorem take_succ_of_getElem? {S : List Int} {n : Nat} {x : Int} (h : S[n]? = some x) :
    S.take (n + 1) = S.take n ++ [x] := by
  rw [List.take_succ, h]; rfl

theorem take_of_take_succ {A B : List Int} {n : Nat} (h : A.take (n + 1) = B.take (n + 1)) :
    A.take n = B.take n := by
  have := congrArg (List.take n) h
  simpa [List.take_take] using this

theorem head?_set_pos (B : List Int) (n : Nat) (v : Int) (hn : 0 < n) :
    (B.set n v).head? = B.head? := by
  cases B with
  | nil => rfl
  | cons b t =>
    cases n with
    | zero => omega
    | succ n => rfl

theorem head?_take_pos (B : List Int) (n : Nat) (hn : 0 < n) :
    (B.take n).head? = B.head? := by
  cases B with
  | nil => simp
  | cons b t =>
    cases n with
    | zero => omega
    | succ n => rfl

theorem le_getLast_of_sorted {P : List Int} (hP : P.Pairwise (fun a b => a < b)) {l : Int}
    (hl : P.getLast? = some l) : ∀ a ∈ P, a ≤ l := by
  intro a ha
  rw [List.getLast?_eq_some_iff] at hl
  obtain ⟨ys, rfl⟩ := hl
  rw [List.pairwise_append] at hP
  rcases List.mem_append.mp ha with h | h
  · exact le_of_lt (hP.2.2 a h l (List.mem_singleton_self l))
  · rw [List.mem_singleton] at h; omega

theorem head_le_of_sorted {P : List Int} (hP : P.Pairwise (fun a b => a < b)) {h0 : Int}
    (hh : P.head? = some h0) : ∀ a ∈ P, h0 ≤ a := by
  intro a ha
  cases P with
  | nil => simp at ha
  | cons b t =>
    simp only [List.head?_cons, Option.some.injEq] at hh
    subst hh
    rw [List.pairwise_cons] at hP
    rcases List.mem_cons.mp ha with h | h
    · omega
    · exact le_of_lt (hP.1 a h)

theorem sorted_concat {P : List Int} (hP : P.Pairwise (fun a b => a < b)) {x : Int}
    (hx : ∀ a ∈ P, a < x) : (P ++ [x]).Pairwise (fun a b => a < b) := by
  rw [List.pairwise_append]
  refine ⟨hP, List.pairwise_singleton _ _, ?_⟩
  intro a ha b hb
  rw [List.mem_singleton] at hb
  subst hb
  exact hx a ha

/-! ## Rulers: sub-sequences, shifts -/

theorem IsRuler.take_valid {k alpha : Int} {S : List Int} (h : IsRuler k alpha S) (n : Nat) :
    Valid 3 (S.take n) :=
  Valid.sublist (List.take_sublist n S) h.2.2.2

/-- The part of a ruler from index `i` on, moved to start at `0`, is a ruler
with `i` fewer elements. -/
theorem IsRuler.suffix {k alpha : Int} {S : List Int} (h : IsRuler k alpha S) {i : Nat} {x : Int}
    (hx : S[i]? = some x) :
    IsRuler (k - i) (alpha - x) ((S.drop i).map (fun a => a + (-x))) := by
  obtain ⟨hlen, _, hlast, hval⟩ := h
  have hi : i < S.length := by
    by_contra hc
    rw [List.getElem?_eq_none (by omega)] at hx
    exact Option.noConfusion hx
  refine ⟨?_, ?_, ?_, ?_, ?_⟩
  · simp only [List.length_map, List.length_drop]; omega
  · simp [List.head?_drop, hx]
  · rw [List.getLast?_map, List.getLast?_drop, if_neg (by omega), hlast]
    simp; omega
  · have := (hval.1.sublist (List.drop_sublist i S))
    exact List.Pairwise.map _ (fun a b hab => by omega) this
  · intro d
    rw [diffCount_map_add]
    exact (diffCount_le_of_sublist (List.drop_sublist i S) d).trans (hval.2 d)

namespace SolverV2

theorem g_min_span_rd (i : Int) (h0 : 0 ≤ i) (h16 : i ≤ 16) :
    ∃ g, rd g_min_span i = some g ∧ 0 ≤ g ∧ (2 ≤ i → 1 ≤ g) := by
  have h : ∀ n : Nat, n ≤ 16 →
      ∃ g, rd g_min_span (n : Int) = some g ∧ 0 ≤ g ∧ (2 ≤ (n : Int) → 1 ≤ g) := by
    intro n hn
    interval_cases n <;> simp [rd, g_min_span]
  have := h i.toNat (by omega)
  rwa [Int.toNat_of_nonneg h0] at this

end SolverV2

/-! ## The search of solverv2: soundness and exhaustiveness -/

namespace SolverV2

theorem candLoop_spec (k alpha : Int) (fuel : Nat) (size : Int) (m1 m2 m3 : Nat)
    (P : List Int) (L : Nat)
    (IH : ∀ A n1 n2 n3, SearchInv k alpha A (size + 1) n1 n2 n3 →
      SearchPost k alpha A (size + 1) (backtrackAux fuel A (size + 1) n1 n2 n3 k alpha))
    (hk2 : 2 ≤ k) (hk16 : k ≤ 16) (ha : alpha ≤ 127) (hs1 : 1 ≤ size) (hsk : size + 1 ≤ k - 1)
    (hL : k ≤ L)
    (hP : P.Pairwise (fun a b => a < b)) (hhead : P.head? = some 0)
    (hmask : MaskInv P m1 m2 m3) (hbound : ∀ d, diffCount P d ≤ 3) :
    ∀ (n : Nat) (cand : Int) (B : List Int), B.length = L → B.take size.toNat = P →
      (∀ a ∈ P, a < cand) → cand + n ≤ alpha + 1 →
      ∃ b A', candLoop (fun A1 n1 n2 n3 => backtrackAux fuel A1 (size + 1) n1 n2 n3 k alpha)
          size m1 m2 m3 n cand B = some (b, A') ∧ A'.length = L ∧
        A'.take size.toNat = P ∧
        (b = true → IsRuler k alpha (A'.take k.toNat)) ∧
        (b = false → TableOK k → ∀ S, IsRuler k alpha S → S.take size.toNat = P →
          ∀ x, S[size.toNat]? = some x → cand ≤ x → x < cand + n → False) := by
  intro n
  induction n with
  | zero =>
    intro cand B hB hT _ _
    exact ⟨false, B, rfl, hB, hT, by simp, fun _ _ S _ _ x _ h1 h2 => by omega⟩
  | succ n ih =>
    intro cand B hB hT hgt hn
    have hsz : size.toNat < B.length := by omega
    have hrange : ∀ a ∈ P, 0 ≤ cand - a ∧ cand - a < 128 := by
      intro a ha
      have h1 := hgt a ha
      have h2 := head_le_of_sorted hP hhead a ha
      omega
    have hdl := diffLoop_spec B m3 cand size.toNat 0 0 (by omega)
      (by rw [List.drop_zero, hT]; exact hrange)
    rw [List.drop_zero, hT] at hdl
    obtain ⟨c, nd, hc, hciff, hnd⟩ := hdl
    have hstep : ∀ S, IsRuler k alpha S → S.take size.toNat = P →
        S[size.toNat]? = some cand → S.take (size + 1).toNat = P ++ [cand] := by
      intro S _ hSP hSx
      have : (size + 1).toNat = size.toNat + 1 := by omega
      rw [this, take_succ_of_getElem? hSx, hSP]
    cases c with
    | true =>
      obtain ⟨b, A', hr, hlen, htake, htrue, hfalse⟩ := ih (cand + 1) B hB hT
        (fun a ha => by have := hgt a ha; omega) (by push_cast at hn ⊢; omega)
      refine ⟨b, A', ?_, hlen, htake, htrue, ?_⟩
      · rw [candLoop, hc]
        simpa using hr
      · intro hb hTab S hS hSP x hx h1 h2
        by_cases hxc : x = cand
        · subst hxc
          obtain ⟨d, hd⟩ := conflict_step hP hmask hgt (hciff.mp rfl)
          have hv := (hS.take_valid (size + 1).toNat).2 d
          rw [hstep S hS hSP hx] at hv
          omega
        · exact hfalse hb hTab S hS hSP x hx (by omega) (by push_cast at h2; omega)
    | false =>
      have hclear : ∀ a ∈ P, m3.testBit (cand - a).toNat = false := by
        intro a ha
        by_contra hne
        have : (false = true) := hciff.mpr ⟨a, ha, by simpa using hne⟩
        exact Bool.noConfusion this
      have hnd' : ∀ j : Nat, nd.testBit j = true ↔ ∃ a ∈ P, cand - a = j := by
        intro j
        rw [hnd rfl j]
        simp
      have hwr : wr B size cand = some (B.set size.toNat cand) :=
        wr_eq cand (by omega) (by omega)
      have hsz1 : (size + 1).toNat = size.toNat + 1 := by omega
      have htk1 : (B.set size.toNat cand).take (size + 1).toNat = P ++ [cand] := by
        rw [hsz1, take_succ_set _ _ _ hsz, hT]
      have inv1 : SearchInv k alpha (B.set size.toNat cand) (size + 1)
          (m1 ||| nd) (m2 ||| (m1 &&& nd)) (m3 ||| (m2 &&& nd)) := by
        refine ⟨hk2, hk16, ha, by omega, hsk, by rw [List.length_set]; omega, ?_, ?_, ?_, ?_⟩
        · rw [head?_set_pos _ _ _ (by omega), ← head?_take_pos B size.toNat (by omega), hT]
          exact hhead
        · rw [htk1]; exact sorted_concat hP hgt
        · rw [htk1]; exact maskInv_step hP hmask hnd'
        · rw [htk1]; exact bound_step hP hmask hbound hgt hclear
      obtain ⟨b1, A2, hr1, hlen1, htake1, htrue1, hfalse1⟩ := IH _ _ _ _ inv1
      rw [List.length_set] at hlen1
      have hA2P : A2.take size.toNat = P := by
        rw [hsz1] at htake1
        rw [take_of_take_succ htake1, take_set_self, hT]
      cases b1 with
      | true =>
        refine ⟨true, A2, ?_, by omega, hA2P, htrue1, by simp⟩
        rw [candLoop, hc]
        simp [hwr, hr1]
      | false =>
        obtain ⟨b, A', hr, hlen, htake, htrue, hfalse⟩ := ih (cand + 1) A2 (by omega) hA2P
          (fun a ha => by have := hgt a ha; omega) (by push_cast at hn ⊢; omega)
        refine ⟨b, A', ?_, hlen, htake, htrue, ?_⟩
        · rw [candLoop, hc]
          simpa [hwr, hr1] using hr
        · intro hb hTab S hS hSP x hx h1 h2
          by_cases hxc : x = cand
          · subst hxc
            refine hfalse1 rfl hTab S hS ?_ (fun h => by omega)
            rw [hstep S hS hSP hx, htk1]
          · exact hfalse hb hTab S hS hSP x hx (by omega) (by push_cast at h2; omega)

end SolverV2

theorem sorted_getElem?_lt {S : List Int} (hS : S.Pairwise (fun a b => a < b)) {i j : Nat}
    {a b : Int} (hi : S[i]? = some a) (hj : S[j]? = some b) (hij : i < j) : a < b := by
  rw [List.pairwise_iff_getElem] at hS
  obtain ⟨hi', rfl⟩ := List.getElem?_eq_some.mp hi
  obtain ⟨hj', rfl⟩ := List.getElem?_eq_some.mp hj
  exact hS i j hi' hj' hij

theorem getElem?_of_take_eq {S A : List Int} {n i : Nat} (h : S.take n = A.take n) (hi : i < n) :
    S[i]? = A[i]? := by
  rw [← List.getElem?_take_of_lt hi, h, List.getElem?_take_of_lt hi]

namespace SolverV2

theorem backtrackAux_spec (k alpha : Int) :
    ∀ (fuel : Nat) (A : List Int) (size : Int) (m1 m2 m3 : Nat),
      SearchInv k alpha A size m1 m2 m3 → (k - size).toNat ≤ fuel →
      SearchPost k alpha A size (backtrackAux fuel A size m1 m2 m3 k alpha) := by
  intro fuel
  induction fuel with
  | zero =>
    intro A size m1 m2 m3 inv hf
    have := inv.hsk
    omega
  | succ fuel IH =>
    intro A size m1 m2 m3 inv hf
    obtain ⟨hk2, hk16, ha, hs1, hsk, hlen, hhead, hsorted, hmask, hbound⟩ := inv
    -- the last element
    have hidx : (size - 1).toNat < A.length := by omega
    have hrd : rd A (size - 1) = some A[(size - 1).toNat] := by
      unfold rd
      rw [if_pos (by omega), List.getElem?_eq_getElem hidx]
    have hPlast : (A.take size.toNat).getLast? = some A[(size - 1).toNat] := by
      rw [List.getLast?_take, if_neg (by omega)]
      have : size.toNat - 1 = (size - 1).toNat := by omega
      rw [this, List.getElem?_eq_getElem hidx]
      rfl
    have hPhead : (A.take size.toNat).head? = some 0 := by
      rw [head?_take_pos _ _ (by omega)]; exact hhead
    have hle := le_getLast_of_sorted hsorted hPlast
    have hge := head_le_of_sorted hsorted hPhead
    have hl0 : 0 ≤ A[(size - 1).toNat] := by
      apply hge
      exact List.mem_of_getLast?_eq_some hPlast
    obtain ⟨g1, hg1, _, hg1pos⟩ := g_min_span_rd (k - size + 1) (by omega) (by omega)
    have hg1' := hg1pos (by omega)
    -- facts about any ruler that extends the current sequence
    have hSlast : ∀ S, IsRuler k alpha S → S.take size.toNat = A.take size.toNat →
        S[(size - 1).toNat]? = some A[(size - 1).toNat] := by
      intro S _ hSP
      rw [getElem?_of_take_eq hSP (by omega), List.getElem?_eq_getElem hidx]
    rw [backtrackAux]
    simp only [Option.bind_eq_bind, hrd, Option.some_bind, hg1]
    by_cases hprune : A[(size - 1).toNat] + g1 > alpha
    · rw [if_pos hprune]
      refine ⟨false, A, rfl, rfl, rfl, by simp, ?_⟩
      intro _ hTab S hS hSP _
      have hsuf := hS.suffix (hSlast S hS hSP)
      have := hTab (k - (size - 1).toNat) g1 (by omega) (by omega)
        (by rw [← hg1]; congr 1; omega) _ _ hsuf
      omega
    · rw [if_neg hprune]
      by_cases hbase : size = k - 1
      · rw [if_pos hbase]
        have hrange : ∀ a ∈ A.take size.toNat, 0 ≤ alpha - a ∧ alpha - a < 128 := by
          intro a ha
          have h1 := hle a ha
          have h2 := hge a ha
          omega
        obtain ⟨ok, hok, hokiff⟩ := closeLoop_spec A m3 alpha size.toNat 0 (by omega)
          (by rw [List.drop_zero]; exact hrange)
        rw [List.drop_zero] at hokiff
        rw [hok]
        have hgt : ∀ a ∈ A.take size.toNat, a < alpha := by
          intro a ha
          have h1 := hle a ha
          omega
        have hk1 : k.toNat = size.toNat + 1 := by omega
        cases ok with
        | true =>
          have hclear := hokiff.mp rfl
          have hwr : wr A size alpha = some (A.set size.toNat alpha) :=
            wr_eq alpha (by omega) (by omega)
          simp only [Option.some_bind, if_true, hwr]
          have htk : (A.set size.toNat alpha).take k.toNat = A.take size.toNat ++ [alpha] := by
            rw [hk1, take_succ_set _ _ _ (by omega)]
          refine ⟨true, _, rfl, by rw [List.length_set], take_set_self _ _ _, ?_, by simp⟩
          intro _
          rw [htk]
          refine ⟨?_, ?_, ?_, sorted_concat hsorted hgt,
            bound_step hsorted hmask hbound hgt hclear⟩
          · rw [List.length_append, List.length_take, List.length_singleton]
            omega
          · rw [List.head?_append, hPhead]; rfl
          · exact List.getLast?_concat _
        | false =>
          simp only [Option.some_bind]
          refine ⟨false, A, by simp, rfl, rfl, by simp, ?_⟩
          intro _ _ S hS hSP _
          have hset : ∃ a ∈ A.take size.toNat, m3.testBit (alpha - a).toNat = true := by
            by_contra hne
            have : (false = true) := hokiff.mpr (fun a ha => by
              by_contra hb
              exact hne ⟨a, ha, by simpa using hb⟩)
            exact Bool.noConfusion this
          obtain ⟨d, hd⟩ := conflict_step hsorted hmask hgt hset
          have hSx : S[size.toNat]? = some alpha := by
            have h1 := hS.2.2.1
            rw [List.getLast?_eq_getElem?] at h1
            have : S.length - 1 = size.toNat := by have := hS.1; omega
            rw [← this]; exact h1
          have hv := (hS.take_valid (size.toNat + 1)).2 d
          rw [take_succ_of_getElem? hSx, hSP] at hv
          omega
      · rw [if_neg hbase]
        obtain ⟨g0, hg0, hg0nn, _⟩ := g_min_span_rd (k - size) (by omega) (by omega)
        simp only [hg0, Option.some_bind]
        have hloop := candLoop_spec k alpha fuel size m1 m2 m3 (A.take size.toNat) A.length
          (fun B n1 n2 n3 hinv => IH B (size + 1) n1 n2 n3 hinv (by omega))
          hk2 hk16 ha hs1 (by omega) hlen hsorted hPhead hmask hbound
        generalize hmc : (if size = 1 then min (alpha - g0) (alpha.tdiv 2) else alpha - g0)
          = max_cand
        have hmc_le : max_cand ≤ alpha := by
          rw [← hmc]; split <;> omega
        obtain ⟨b, A', hr, hlen', htake', htrue, hfalse⟩ :=
          hloop (max_cand - A[(size - 1).toNat]).toNat (A[(size - 1).toNat] + 1) A rfl rfl
            (fun a ha => by have := hle a ha; omega) (by omega)
        refine ⟨b, A', hr, hlen', htake', htrue, ?_⟩
        intro hb hTab S hS hSP hsym
        have hSlen := hS.1
        have hsz : size.toNat < S.length := by omega
        have hSx : S[size.toNat]? = some S[size.toNat] := List.getElem?_eq_getElem hsz
        have hxgt := sorted_getElem?_lt hS.2.2.2.1 (hSlast S hS hSP) hSx (by omega)
        have hsuf := hS.suffix hSx
        have hxle := hTab (k - size.toNat) g0 (by omega) (by omega)
          (by rw [← hg0]; congr 1; omega) _ _ hsuf
        have hxmc : S[size.toNat] ≤ max_cand := by
          rw [← hmc]
          split
          · next h1 =>
            have h2 := hsym h1 (by omega) S[size.toNat] (by
              have : size.toNat = 1 := by omega
              rw [← this]; exact hSx)
            rw [Int.tdiv_eq_ediv (by omega) (by norm_num)]
            omega
          · omega
        exact hfalse hb hTab S hS hSP _ hSx (by omega) (by omega)

end SolverV2

/-- Reflecting a ruler in its span gives a ruler. -/
theorem IsRuler.reflect {k alpha : Int} {S : List Int} (h : IsRuler k alpha S) :
    IsRuler k alpha ((S.map (fun a => alpha - a)).reverse) := by
  obtain ⟨hlen, hhead, hlast, hsorted, hb⟩ := h
  refine ⟨by simpa using hlen, ?_, ?_, ?_, ?_⟩
  · rw [List.head?_reverse, List.getLast?_map, hlast]; simp
  · rw [List.getLast?_reverse, List.head?_map, hhead]; simp
  · rw [List.pairwise_reverse]
    exact List.Pairwise.map _ (fun a b hab => by omega) hsorted
  · intro d
    rw [diffCount_reflect]; exact hb d

theorem sorted_getElem?_ge {S : List Int} (hS : S.Pairwise (fun a b => a < b)) :
    ∀ (i : Nat) (h0 a : Int), S.head? = some h0 → S[i]? = some a → h0 + i ≤ a := by
  induction S with
  | nil => intro i h0 a hh; simp at hh
  | cons b t ih =>
    intro i h0 a hh hi
    simp only [List.head?_cons, Option.some.injEq] at hh
    subst hh
    cases i with
    | zero =>
      simp only [List.getElem?_cons_zero, Option.some.injEq] at hi
      push_cast; omega
    | succ i =>
      rw [List.getElem?_cons_succ] at hi
      rw [List.pairwise_cons] at hS
      cases t with
      | nil => simp at hi
      | cons c u =>
        have h1 := ih hS.2 i c a rfl hi
        have h2 := hS.1 c (List.mem_cons_self _ _)
        push_cast; omega

/-- A `j`-element ruler ends at `j - 1` or later. -/
theorem IsRuler.span_ge {j x : Int} {s : List Int} (h : IsRuler j x s) : j - 1 ≤ x := by
  obtain ⟨hlen, hhead, hlast, hsorted, _⟩ := h
  rw [List.getLast?_eq_getElem?] at hlast
  have := sorted_getElem?_ge hsorted _ _ _ hhead hlast
  have hpos : 0 < s.length := by
    cases s with
    | nil => simp at hhead
    | cons _ _ => simp
  omega

namespace SolverV2

theorem searchInv_root {k alpha : Int} {A : List Int} (hk2 : 2 ≤ k) (hk16 : k ≤ 16)
    (ha : alpha ≤ 127) (hlen : k ≤ A.length) (hA0 : A[0]? = some 0) :
    SearchInv k alpha A 1 0 0 0 := by
  have hhead : A.head? = some 0 := by rw [List.head?_eq_getElem?]; exact hA0
  have htake : A.take (1 : Int).toNat = [0] := by
    cases A with
    | nil => simp at hA0
    | cons a t =>
      simp only [List.getElem?_cons_zero, Option.some.injEq] at hA0
      subst hA0
      rfl
  refine ⟨hk2, hk16, ha, le_refl _, by omega, hlen, hhead, ?_, ?_, ?_⟩
  · rw [htake]; exact List.pairwise_singleton _ _
  · rw [htake]; exact maskInv_nil_zero 0
  · rw [htake]; intro d; simp [diffCount, pairDiffs]

theorem backtrack_spec {k alpha : Int} {A : List Int} (hk2 : 2 ≤ k) (hk16 : k ≤ 16)
    (ha : alpha ≤ 127) (hlen : k ≤ A.length) (hA0 : A[0]? = some 0) :
    SearchPost k alpha A 1 (backtrack A 1 0 0 0 k alpha) :=
  backtrackAux_spec k alpha _ A 1 0 0 0 (searchInv_root hk2 hk16 ha hlen hA0) (by omega)

/-- C1 (soundness of the solverv2 search).  For `2 ≤ k ≤ 16` and
`0 ≤ alpha ≤ 127`, if `backtrack(A, 1, 0, 0, 0, k, alpha)` with `A[0] = 0`
returns true, then `A[0..k-1]` has exactly `k` entries, is strictly increasing,
starts at `0`, ends at `alpha`, and every positive difference `A[j] - A[i]`
(`i < j`) occurs at most three times. -/
theorem backtrack_sound (k alpha : Int) (A A' : List Int) (hk2 : 2 ≤ k) (hk16 : k ≤ 16)
    (ha0 : 0 ≤ alpha) (ha : alpha ≤ 127) (hlen : k ≤ A.length) (hA0 : A[0]? = some 0)
    (hrun : backtrack A 1 0 0 0 k alpha = some (true, A')) :
    ((A'.take k.toNat).length : Int) = k ∧
    (A'.take k.toNat).Pairwise (fun a b => a < b) ∧
    (A'.take k.toNat)[0]? = some 0 ∧
    (A'.take k.toNat)[k.toNat - 1]? = some alpha ∧
    ∀ d : Int, 0 < d → diffCount (A'.take k.toNat) d ≤ 3 := by
  have _ := ha0
  obtain ⟨b, A2, hr, _, _, htrue, _⟩ := backtrack_spec hk2 hk16 ha hlen hA0
  rw [hrun] at hr
  simp only [Option.some.injEq, Prod.mk.injEq] at hr
  obtain ⟨rfl, rfl⟩ := hr
  obtain ⟨h1, h2, h3, h4, h5⟩ := htrue rfl
  refine ⟨h1, h4, ?_, ?_, fun d _ => h5 d⟩
  · rw [← List.head?_eq_getElem?]; exact h2
  · rw [List.getLast?_eq_getElem?] at h3
    have : (A'.take k.toNat).length - 1 = k.toNat - 1 := by omega
    rw [← this]; exact h3

theorem backtrack_sound_witness :
    (([0, 1, 2, 3] : List Int).length : Int) = 4 ∧
    ([0, 1, 2, 3] : List Int).Pairwise (fun a b => a < b) ∧
    ([0, 1, 2, 3] : List Int)[0]? = some 0 ∧
    ([0, 1, 2, 3] : List Int)[3]? = some 3 ∧
    ∀ d : Int, 0 < d → diffCount [0, 1, 2, 3] d ≤ 3 := by
  have h := backtrack_sound 4 3 (List.replicate 32 0)
    ([0, 1, 2, 3] ++ List.replicate 28 0) (by decide) (by decide) (by decide) (by decide)
    (by decide) (by decide) (by decide)
  exact h

/-- C2 (exhaustiveness of the solverv2 search).  For `2 ≤ k ≤ 16` and
`0 ≤ alpha ≤ 127`, when every table entry `g_min_span[j]`, `1 ≤ j ≤ k`, is at
most the last element of every valid `j`-element sequence starting at `0`
(`TableOK k`), and some strictly increasing `k`-element sequence from `0` to
`alpha` has every difference at most three times, then
`backtrack(A, 1, 0, 0, 0, k, alpha)` with `A[0] = 0` returns true. -/
theorem backtrack_exhaustive (k alpha : Int) (A : List Int) (hk2 : 2 ≤ k) (hk16 : k ≤ 16)
    (ha0 : 0 ≤ alpha) (ha : alpha ≤ 127) (hlen : k ≤ A.length) (hA0 : A[0]? = some 0)
    (hTab : TableOK k) (hex : ∃ S, IsRuler k alpha S) :
    ∃ A', backtrack A 1 0 0 0 k alpha = some (true, A') := by
  have _ := ha0
  obtain ⟨b, A2, hr, _, _, _, hfalse⟩ := backtrack_spec hk2 hk16 ha hlen hA0
  cases b with
  | true => exact ⟨A2, hr⟩
  | false =>
    exfalso
    obtain ⟨S, hS⟩ := hex
    have hA1 : A.take (1 : Int).toNat = [0] := by
      cases A with
      | nil => simp at hA0
      | cons a t =>
        simp only [List.getElem?_cons_zero, Option.some.injEq] at hA0
        subst hA0; rfl
    have htake1 : ∀ T, IsRuler k alpha T → T.take (1 : Int).toNat = A.take (1 : Int).toNat := by
      intro T hT
      rw [hA1]
      obtain ⟨hl, hh, _⟩ := hT
      cases T with
      | nil => simp at hh
      | cons a t =>
        simp only [List.head?_cons, Option.some.injEq] at hh
        subst hh; rfl
    by_cases hsym : ∀ x, S[1]? = some x → x ≤ alpha / 2
    · exact hfalse rfl hTab S hS (htake1 S hS) (fun _ _ => hsym)
    · -- the mirror image has its second element in the lower half
      refine hfalse rfl hTab _ hS.reflect (htake1 _ hS.reflect) ?_
      intro _ hk3 x hx
      push_neg at hsym
      obtain ⟨y, hy, hylt⟩ := hsym
      have hSlen := hS.1
      rw [List.getElem?_reverse (by simp; omega), List.getElem?_map] at hx
      have hidx : (S.map (fun a => alpha - a)).length - 1 - 1 < S.length := by simp; omega
      rw [List.getElem?_eq_getElem hidx] at hx
      simp only [Option.map_some', Option.some.injEq] at hx
      have hle : y ≤ S[(S.map (fun a => alpha - a)).length - 1 - 1] := by
        by_cases h3 : (S.map (fun a => alpha - a)).length - 1 - 1 = 1
        · have h4 : S[1]? = some S[(S.map (fun a => alpha - a)).length - 1 - 1] := by
            rw [List.getElem?_eq_getElem (by omega)]
            simp only [h3]
          rw [hy] at h4
          simp only [Option.some.injEq] at h4
          omega
        · have := sorted_getElem?_lt hS.2.2.2.1 hy (List.getElem?_eq_getElem hidx)
            (by simp at h3 ⊢; omega)
          omega
      omega

theorem tableOK_four : TableOK 4 := by
  intro j g hj1 hj4 hg s x hs
  have hspan := hs.span_ge
  have hj : j = 1 ∨ j = 2 ∨ j = 3 ∨ j = 4 := by omega
  rcases hj with rfl | rfl | rfl | rfl <;>
    · simp [rd, g_min_span] at hg
      omega

theorem backtrack_exhaustive_witness :
    ∃ A', backtrack (List.replicate 32 0) 1 0 0 0 4 3 = some (true, A') :=
  backtrack_exhaustive 4 3 (List.replicate 32 0) (by decide) (by decide) (by decide)
    (by decide) (by decide) (by decide) tableOK_four
    ⟨[0, 1, 2, 3], by decide, by decide, by decide, by decide, by
      intro d
      by_cases h1 : d = 1
      · subst h1; decide
      by_cases h2 : d = 2
      · subst h2; decide
      by_cases h3 : d = 3
      · subst h3; decide
      simp [diffCount, pairDiffs, h1, h2, h3]⟩

end SolverV2

namespace SolverV2

/-! ## The result of a call depends only on `A[0..size-1]` -/

theorem closeLoop_congr {A B : List Int} (m3 : Nat) (alpha : Int) :
    ∀ (n i : Nat), A.take (i + n) = B.take (i + n) →
      closeLoop A m3 alpha n i = closeLoop B m3 alpha n i := by
  intro n
  induction n with
  | zero => intro i _; rfl
  | succ n ih =>
    intro i h
    have hi : A[i]? = B[i]? := getElem?_of_take_eq h (by omega)
    have hrec := ih (i + 1) (by rw [show i + 1 + n = i + (n + 1) by omega]; exact h)
    simp only [closeLoop, hi, hrec]

theorem diffLoop_congr {A B : List Int} (m3 : Nat) (cand : Int) :
    ∀ (n i nd : Nat), A.take (i + n) = B.take (i + n) →
      diffLoop A m3 cand n i nd = diffLoop B m3 cand n i nd := by
  intro n
  induction n with
  | zero => intro i nd _; rfl
  | succ n ih =>
    intro i nd h
    have hi : A[i]? = B[i]? := getElem?_of_take_eq h (by omega)
    have hrec := fun nd' => ih (i + 1) nd'
      (by rw [show i + 1 + n = i + (n + 1) by omega]; exact h)
    simp only [diffLoop, hi, hrec]

theorem rd_congr {A B : List Int} {i : Int} {n : Nat} (h : A.take n = B.take n)
    (hi : i < n) : rd A i = rd B i := by
  unfold rd
  split
  · exact getElem?_of_take_eq h (by omega)
  · rfl

/-- The statement proved about one call: it leaves the array below `size`
alone, and any array with the same entries below `size` gives the same answer
and, on success, the same `A[0..k-1]`. -/
theorem candLoop_rel (k alpha : Int) (fuel : Nat) (size : Int) (m1 m2 m3 : Nat)
    (IH : ∀ (A : List Int) (n1 n2 n3 : Nat) (b : Bool) (A' : List Int),
      backtrackAux fuel A (size + 1) n1 n2 n3 k alpha = some (b, A') →
      A'.length = A.length ∧ A'.take (size + 1).toNat = A.take (size + 1).toNat ∧
      ∀ B : List Int, B.length = A.length → B.take (size + 1).toNat = A.take (size + 1).toNat →
        ∃ B', backtrackAux fuel B (size + 1) n1 n2 n3 k alpha = some (b, B') ∧
          (b = true → B'.take k.toNat = A'.take k.toNat)) :
    ∀ (n : Nat) (cand : Int) (A : List Int) (b : Bool) (A' : List Int),
      candLoop (fun A1 n1 n2 n3 => backtrackAux fuel A1 (size + 1) n1 n2 n3 k alpha)
        size m1 m2 m3 n cand A = some (b, A') →
      A'.length = A.length ∧ A'.take size.toNat = A.take size.toNat ∧
      ∀ B : List Int, B.length = A.length → B.take size.toNat = A.take size.toNat →
        ∃ B', candLoop (fun A1 n1 n2 n3 => backtrackAux fuel A1 (size + 1) n1 n2 n3 k alpha)
            size m1 m2 m3 n cand B = some (b, B') ∧
          (b = true → B'.take k.toNat = A'.take k.toNat) := by
  intro n
  induction n with
  | zero =>
    intro cand A b A' h
    simp only [candLoop, Option.some.injEq, Prod.mk.injEq] at h
    obtain ⟨rfl, rfl⟩ := h
    exact ⟨rfl, rfl, fun B _ _ => ⟨B, rfl, by simp⟩⟩
  | succ n ih =>
    intro cand A b A' h
    rw [candLoop] at h
    simp only [Option.bind_eq_bind, Option.bind_eq_some] at h
    obtain ⟨⟨c, nd⟩, hdl, h⟩ := h
    have hdlB : ∀ B : List Int, B.take size.toNat = A.take size.toNat →
        diffLoop B m3 cand size.toNat 0 0 = some (c, nd) := by
      intro B hB
      rw [← hdl]
      exact diffLoop_congr m3 cand size.toNat 0 0 (by simpa using hB)
    cases c with
    | true =>
      simp only [if_true] at h
      obtain ⟨h1, h2, h3⟩ := ih (cand + 1) A b A' h
      refine ⟨h1, h2, fun B hBl hBt => ?_⟩
      obtain ⟨B', hB', hBk⟩ := h3 B hBl hBt
      refine ⟨B', ?_, hBk⟩
      rw [candLoop, hdlB B hBt]
      simpa using hB'
    | false =>
      simp only [Bool.false_eq_true, if_false, Option.bind_eq_some] at h
      obtain ⟨A1, hwr, ⟨b1, A2⟩, hrec, h⟩ := h
      obtain ⟨hs0, hslt, rfl⟩ := wr_eq_some hwr
      have hsz1 : (size + 1).toNat = size.toNat + 1 := by omega
      obtain ⟨hl2, ht2, hrel2⟩ := IH _ _ _ _ _ _ hrec
      rw [List.length_set] at hl2
      have ht2' : A2.take size.toNat = A.take size.toNat := by
        rw [hsz1] at ht2
        rw [take_of_take_succ ht2, take_set_self]
      have hBstep : ∀ B : List Int, B.length = A.length → B.take size.toNat = A.take size.toNat →
          ∃ B2, wr B size cand = some (B.set size.toNat cand) ∧
            backtrackAux fuel (B.set size.toNat cand) (size + 1) (m1 ||| nd)
              (m2 ||| (m1 &&& nd)) (m3 ||| (m2 &&& nd)) k alpha = some (b1, B2) ∧
            B2.length = A.length ∧ B2.take size.toNat = A.take size.toNat ∧
            (b1 = true → B2.take k.toNat = A2.take k.toNat) := by
        intro B hBl hBt
        have hwrB : wr B size cand = some (B.set size.toNat cand) :=
          wr_eq cand hs0 (by omega)
        have htk : (B.set size.toNat cand).take (size + 1).toNat
            = (A.set size.toNat cand).take (size + 1).toNat := by
          rw [hsz1, take_succ_set _ _ _ (by omega), take_succ_set _ _ _ (by omega), hBt]
        obtain ⟨B2, hB2, hB2k⟩ := hrel2 (B.set size.toNat cand)
          (by simp [hBl]) htk
        obtain ⟨hl3, ht3, _⟩ := IH _ _ _ _ _ _ hB2
        rw [List.length_set] at hl3
        refine ⟨B2, hwrB, hB2, by omega, ?_, hB2k⟩
        rw [hsz1] at ht3
        rw [take_of_take_succ ht3, take_set_self, hBt]
      cases b1 with
      | true =>
        simp only [if_true, Option.some.injEq, Prod.mk.injEq] at h
        obtain ⟨rfl, rfl⟩ := h
        refine ⟨hl2, ht2', fun B hBl hBt => ?_⟩
        obtain ⟨B2, hwrB, hB2, _, _, hB2k⟩ := hBstep B hBl hBt
        refine ⟨B2, ?_, fun _ => hB2k rfl⟩
        rw [candLoop, hdlB B hBt]
        simp [hwrB, hB2]
      | false =>
        simp only [Bool.false_eq_true, if_false] at h
        obtain ⟨h1, h2, h3⟩ := ih (cand + 1) A2 b A' h
        refine ⟨by omega, by rw [h2, ht2'], fun B hBl hBt => ?_⟩
        obtain ⟨B2, hwrB, hB2, hB2l, hB2t, _⟩ := hBstep B hBl hBt
        obtain ⟨B', hB', hBk⟩ := h3 B2 (by omega) (by rw [hB2t, ht2'])
        refine ⟨B', ?_, hBk⟩
        rw [candLoop, hdlB B hBt]
        simpa [hwrB, hB2] using hB'

theorem backtrackAux_rel (k alpha : Int) :
    ∀ (fuel : Nat) (size : Int) (A : List Int) (m1 m2 m3 : Nat) (b : Bool) (A' : List Int),
      backtrackAux fuel A size m1 m2 m3 k alpha = some (b, A') →
      A'.length = A.length ∧ A'.take size.toNat = A.take size.toNat ∧
      ∀ B : List Int, B.length = A.length → B.take size.toNat = A.take size.toNat →
        ∃ B', backtrackAux fuel B size m1 m2 m3 k alpha = some (b, B') ∧
          (b = true → B'.take k.toNat = A'.take k.toNat) := by
  intro fuel
  induction fuel with
  | zero =>
    intro size A m1 m2 m3 b A' h
    exact Option.noConfusion h
  | succ fuel IH =>
    intro size A m1 m2 m3 b A' h
    rw [backtrackAux] at h
    simp only [Option.bind_eq_bind, Option.bind_eq_some] at h
    obtain ⟨last_val, hrd, g1, hg1, h⟩ := h
    have hs1 : 1 ≤ size := by
      by_contra hc
      unfold rd at hrd
      rw [if_neg (by omega)] at hrd
      exact Option.noConfusion hrd
    have hrdB : ∀ B : List Int, B.take size.toNat = A.take size.toNat →
        rd B (size - 1) = some last_val := by
      intro B hB
      rw [← hrd]
      exact rd_congr hB (by omega)
    split at h
    · next hprune =>
      simp only [Option.some.injEq, Prod.mk.injEq] at h
      obtain ⟨rfl, rfl⟩ := h
      refine ⟨rfl, rfl, fun B _ hBt => ⟨B, ?_, by simp⟩⟩
      rw [backtrackAux]
      simp only [Option.bind_eq_bind, hrdB B hBt, Option.some_bind, hg1, if_pos hprune]
    · next hprune =>
      split at h
      · next hbase =>
        simp only [Option.bind_eq_some] at h
        obtain ⟨ok, hok, h⟩ := h
        have hokB : ∀ B : List Int, B.take size.toNat = A.take size.toNat →
            closeLoop B m3 alpha size.toNat 0 = some ok := by
          intro B hB
          rw [← hok]
          exact closeLoop_congr m3 alpha size.toNat 0 (by simpa using hB)
        cases ok with
        | true =>
          simp only [if_true, Option.bind_eq_some, Option.some.injEq] at h
          obtain ⟨A1, hwr, h⟩ := h
          obtain ⟨hs0, hslt, rfl⟩ := wr_eq_some hwr
          obtain ⟨rfl, rfl⟩ := Prod.mk.inj h
          refine ⟨List.length_set _ _ _, take_set_self _ _ _, fun B hBl hBt => ?_⟩
          have hwrB : wr B size alpha = some (B.set size.toNat alpha) :=
            wr_eq alpha hs0 (by omega)
          refine ⟨B.set size.toNat alpha, ?_, fun _ => ?_⟩
          · rw [backtrackAux]
            simp only [Option.bind_eq_bind, hrdB B hBt, Option.some_bind, hg1, if_neg hprune,
              if_pos hbase, hokB B hBt, hwrB, if_true]
          · have hk1 : k.toNat = size.toNat + 1 := by omega
            rw [hk1, take_succ_set _ _ _ (by omega), take_succ_set _ _ _ (by omega), hBt]
        | false =>
          simp only [Bool.false_eq_true, if_false, Option.some.injEq, Prod.mk.injEq] at h
          obtain ⟨rfl, rfl⟩ := h
          refine ⟨rfl, rfl, fun B _ hBt => ⟨B, ?_, by simp⟩⟩
          rw [backtrackAux]
          simp only [Option.bind_eq_bind, hrdB B hBt, Option.some_bind, hg1, if_neg hprune,
            if_pos hbase, hokB B hBt, Bool.false_eq_true, if_false]
      · next hbase =>
        simp only [Option.bind_eq_some] at h
        obtain ⟨g0, hg0, h⟩ := h
        obtain ⟨h1, h2, h3⟩ := candLoop_rel k alpha fuel size m1 m2 m3
          (fun A n1 n2 n3 b A' hr => IH (size + 1) A n1 n2 n3 b A' hr) _ _ _ _ _ h
        refine ⟨h1, h2, fun B hBl hBt => ?_⟩
        obtain ⟨B', hB', hBk⟩ := h3 B hBl hBt
        refine ⟨B', ?_, hBk⟩
        rw [backtrackAux]
        simp only [Option.bind_eq_bind, hrdB B hBt, Option.some_bind, hg1, if_neg hprune,
          if_neg hbase, hg0]
        exact hB'

end SolverV2

namespace SolverV2

theorem take_one_of_zero {A : List Int} (hA : A[0]? = some 0) : A.take (1 : Int).toNat = [0] := by
  cases A with
  | nil => simp at hA
  | cons a t =>
    simp only [List.getElem?_cons_zero, Option.some.injEq] at hA
    subst hA; rfl

theorem backtrack_transfer {k alpha : Int} {A B A' : List Int} {b : Bool}
    (hl : B.length = A.length) (hA : A[0]? = some 0) (hB : B[0]? = some 0)
    (h : backtrack A 1 0 0 0 k alpha = some (b, A')) :
    A'.length = A.length ∧
    ∃ B', backtrack B 1 0 0 0 k alpha = some (b, B') ∧
      (b = true → B'.take k.toNat = A'.take k.toNat) := by
  obtain ⟨h1, _, h3⟩ := backtrackAux_rel k alpha _ 1 A 0 0 0 b A' h
  exact ⟨h1, h3 B hl (by rw [take_one_of_zero hA, take_one_of_zero hB])⟩

theorem solveLoop_spec (k : Int) :
    ∀ (fuel : Nat) (A : List Int) (alpha0 alpha : Int) (W : List Int),
      solveLoop fuel A k alpha0 = some (alpha, W) →
      alpha0 ≤ alpha ∧
      (∀ B : List Int, B.length = A.length → B[0]? = some 0 →
        ∃ B', backtrack B 1 0 0 0 k alpha = some (true, B') ∧ B'.take k.toNat = W) ∧
      (∀ alpha', alpha0 ≤ alpha' → alpha' < alpha →
        ∀ B : List Int, B.length = A.length → B[0]? = some 0 →
          ∃ B', backtrack B 1 0 0 0 k alpha' = some (false, B')) := by
  intro fuel
  induction fuel with
  | zero => intro A alpha0 alpha W h; exact Option.noConfusion h
  | succ fuel ih =>
    intro A alpha0 alpha W h
    rw [solveLoop] at h
    simp only [Option.bind_eq_bind, Option.bind_eq_some] at h
    obtain ⟨A0, hwr, ⟨found, A1⟩, hbt, h⟩ := h
    obtain ⟨_, hlt, rfl⟩ := wr_eq_some hwr
    have hA0 : (A.set (0 : Int).toNat 0)[0]? = some 0 := by
      have : 0 < A.length := by omega
      simp [List.getElem?_set, this]
    have hlen0 : (A.set (0 : Int).toNat 0).length = A.length := List.length_set _ _ _
    cases found with
    | true =>
      simp only [if_true, Option.some.injEq, Prod.mk.injEq] at h
      obtain ⟨rfl, rfl⟩ := h
      refine ⟨le_refl _, fun B hBl hB0 => ?_, fun alpha' h1 h2 => by omega⟩
      obtain ⟨_, B', hB', hBk⟩ := backtrack_transfer (B := B) (by omega) hA0 hB0 hbt
      exact ⟨B', hB', hBk rfl⟩
    | false =>
      simp only [Bool.false_eq_true, if_false] at h
      obtain ⟨h1, h2, h3⟩ := ih A1 (alpha0 + 1) alpha W h
      obtain ⟨hl1, _⟩ := backtrack_transfer (B := A.set (0 : Int).toNat 0) rfl hA0 hA0 hbt
      refine ⟨by omega, fun B hBl hB0 => h2 B (by omega) hB0, fun alpha' ha1 ha2 B hBl hB0 => ?_⟩
      by_cases hc : alpha' = alpha0
      · subst hc
        obtain ⟨_, B', hB', _⟩ := backtrack_transfer (B := B) (by omega) hA0 hB0 hbt
        exact ⟨B', hB'⟩
      · exact h3 alpha' (by omega) ha2 B (by omega) hB0

/-- C3 (escalation in solverv2).  Whenever `solve(k)` reports a value `alpha`
(with a set `W`), the search `backtrack(A, 1, 0, 0, 0, k, alpha)` with `A[0] = 0`
succeeds and leaves `W` in `A[0..k-1]`, `alpha` is not below the starting value
`g_min_span[k]`, and the search returns false at every `alpha'` with
`g_min_span[k] ≤ alpha' < alpha`: the reported `alpha` is the least value from
`g_min_span[k]` on at which the search succeeds.  `B` ranges over the possible
contents of the array. -/
theorem solve_escalation (fuel : Nat) (A : List Int) (k alpha : Int) (W : List Int)
    (hrun : solve fuel A k = some (alpha, W)) :
    ∃ g, rd g_min_span k = some g ∧ g ≤ alpha ∧
      (∀ B : List Int, B.length = A.length → B[0]? = some 0 →
        ∃ B', backtrack B 1 0 0 0 k alpha = some (true, B') ∧ B'.take k.toNat = W) ∧
      (∀ alpha', g ≤ alpha' → alpha' < alpha →
        ∀ B : List Int, B.length = A.length → B[0]? = some 0 →
          ∃ B', backtrack B 1 0 0 0 k alpha' = some (false, B')) := by
  unfold solve at hrun
  simp only [Option.bind_eq_bind, Option.bind_eq_some] at hrun
  obtain ⟨g, hg, h⟩ := hrun
  exact ⟨g, hg, solveLoop_spec k fuel A g alpha W h⟩

set_option maxRecDepth 100000 in
theorem solve_seven : solve 2 (List.replicate 32 0) 7 = some (10, [0, 1, 2, 4, 5, 8, 10]) := by
  decide

theorem solve_escalation_witness :
    ∃ g, rd g_min_span 7 = some g ∧ g ≤ 10 ∧
      (∀ B : List Int, B.length = (List.replicate 32 (0 : Int)).length → B[0]? = some 0 →
        ∃ B', backtrack B 1 0 0 0 7 10 = some (true, B') ∧
          B'.take (7 : Int).toNat = [0, 1, 2, 4, 5, 8, 10]) ∧
      (∀ alpha', g ≤ alpha' → alpha' < 10 →
        ∀ B : List Int, B.length = (List.replicate 32 (0 : Int)).length → B[0]? = some 0 →
          ∃ B', backtrack B 1 0 0 0 7 alpha' = some (false, B')) :=
  solve_escalation 2 (List.replicate 32 0) 7 10 [0, 1, 2, 4, 5, 8, 10] solve_seven

end SolverV2

namespace SolverV2

/-! ## Small sizes in solverv2 -/

theorem solveLoop_found {k alpha : Int} {Z Z' : List Int} (hZ0 : Z[0]? = some 0)
    (hrun : backtrack Z 1 0 0 0 k alpha = some (true, Z'))
    (fuel : Nat) (A : List Int) (hA : A.length = Z.length) (hpos : 0 < Z.length) :
    solveLoop (fuel + 1) A k alpha = some (alpha, Z'.take k.toNat) := by
  have hwr : wr A 0 0 = some (A.set (0 : Int).toNat 0) := wr_eq 0 (le_refl _) (by omega)
  have hA0 : (A.set (0 : Int).toNat 0)[0]? = some 0 := by
    have : 0 < A.length := by omega
    simp [List.getElem?_set, this]
  obtain ⟨_, B', hB', hBk⟩ := backtrack_transfer (B := A.set (0 : Int).toNat 0)
    (by rw [List.length_set]; exact hA) hZ0 hA0 hrun
  rw [solveLoop]
  simp only [Option.bind_eq_bind, hwr, Option.some_bind, hB', if_true, hBk rfl]

/-- C5, amended (small sizes in solverv2).  For `2 ≤ k ≤ 4`, `solve(k)` stops at
its first value of `alpha` and reports `alpha = k - 1` with the set
`[0, 1, ..., k-1]`, whatever the initial contents of its 32-cell array. -/
theorem solve_small (k : Int) (fuel : Nat) (A : List Int) (hk2 : 2 ≤ k) (hk4 : k ≤ 4)
    (hA : A.length = 32) :
    solve (fuel + 1) A k = some (k - 1, (List.range k.toNat).map (fun i => (i : Int))) := by
  have hk : k = 2 ∨ k = 3 ∨ k = 4 := by omega
  rcases hk with rfl | rfl | rfl
  · have h : backtrack (List.replicate 32 0) 1 0 0 0 2 1
        = some (true, [0, 1] ++ List.replicate 30 0) := by decide
    have := solveLoop_found (by decide) h fuel A (by simpa using hA) (by decide)
    simpa [solve, rd, g_min_span] using this
  · have h : backtrack (List.replicate 32 0) 1 0 0 0 3 2
        = some (true, [0, 1, 2] ++ List.replicate 29 0) := by decide
    have := solveLoop_found (by decide) h fuel A (by simpa using hA) (by decide)
    simpa [solve, rd, g_min_span] using this
  · have h : backtrack (List.replicate 32 0) 1 0 0 0 4 3
        = some (true, [0, 1, 2, 3] ++ List.replicate 28 0) := by decide
    have := solveLoop_found (by decide) h fuel A (by simpa using hA) (by decide)
    simpa [solve, rd, g_min_span] using this

theorem solve_small_witness :
    solve (0 + 1) (List.replicate 32 0) 4
      = some (4 - 1, (List.range (4 : Int).toNat).map (fun i => (i : Int))) :=
  solve_small 4 0 (List.replicate 32 0) (by decide) (by decide) (by decide)

theorem backtrack_none_transfer {k alpha : Int} {Z A : List Int} (hl : A.length = Z.length)
    (hZ0 : Z[0]? = some 0) (hA0 : A[0]? = some 0)
    (h : backtrack Z 1 0 0 0 k alpha = none) : backtrack A 1 0 0 0 k alpha = none := by
  cases hr : backtrack A 1 0 0 0 k alpha with
  | none => rfl
  | some r =>
    obtain ⟨b, A'⟩ := r
    obtain ⟨_, Z', hZ', _⟩ := backtrack_transfer (B := Z) hl.symm hA0 hZ0 hr
    rw [h] at hZ'
    exact Option.noConfusion hZ'

/-- With `k = 1` the search in `solve` fails at `alpha = 0` and `alpha = 1` and
reads `g_min_span[-1]` at `alpha = 2`: no value is ever reported. -/
theorem solve_one_none (fuel : Nat) (A : List Int) (hA : A.length = 32) :
    solve fuel A 1 = none := by
  have hwr : ∀ B : List Int, B.length = 32 → wr B 0 0 = some (B.set (0 : Int).toNat 0) :=
    fun B hB => wr_eq 0 (le_refl _) (by omega)
  have h0 : ∀ B : List Int, B.length = 32 → (B.set (0 : Int).toNat 0)[0]? = some 0 := by
    intro B hB
    have : 0 < B.length := by omega
    simp [List.getElem?_set, this]
  have hstep : ∀ (alpha : Int) (Z' : List Int),
      backtrack (List.replicate 32 0) 1 0 0 0 1 alpha = some (false, Z') →
      ∀ B : List Int, B.length = 32 →
        ∃ B', backtrack (B.set (0 : Int).toNat 0) 1 0 0 0 1 alpha = some (false, B') ∧
          B'.length = 32 := by
    intro alpha Z' hZ B hB
    obtain ⟨_, B', hB', _⟩ := backtrack_transfer (B := B.set (0 : Int).toNat 0)
      (by rw [List.length_set]; simpa using hB) (by decide) (h0 B hB) hZ
    obtain ⟨hl, _⟩ := backtrack_transfer (B := B.set (0 : Int).toNat 0) rfl (h0 B hB) (h0 B hB) hB'
    exact ⟨B', hB', by rw [hl, List.length_set]; exact hB⟩
  have e0 : backtrack (List.replicate 32 0) 1 0 0 0 1 0
      = some (false, List.replicate 32 0) := by decide
  have e1 : backtrack (List.replicate 32 0) 1 0 0 0 1 1
      = some (false, List.replicate 32 0) := by decide
  have e2 : backtrack (List.replicate 32 0) 1 0 0 0 1 2 = none := by decide
  have L2 : ∀ (f : Nat) (B : List Int), B.length = 32 → solveLoop f B 1 2 = none := by
    intro f B hB
    cases f with
    | zero => rfl
    | succ f =>
      have hn := backtrack_none_transfer (A := B.set (0 : Int).toNat 0)
        (by rw [List.length_set]; simpa using hB) (by decide) (h0 B hB) e2
      rw [solveLoop]
      simp only [Option.bind_eq_bind, hwr B hB, Option.some_bind, hn, Option.none_bind]
  have L1 : ∀ (f : Nat) (B : List Int), B.length = 32 → solveLoop f B 1 1 = none := by
    intro f B hB
    cases f with
    | zero => rfl
    | succ f =>
      obtain ⟨B1, hB1, hl1⟩ := hstep 1 _ e1 B hB
      rw [solveLoop]
      simp only [Option.bind_eq_bind, hwr B hB, Option.some_bind, hB1, Bool.false_eq_true,
        if_false]
      exact L2 f B1 hl1
  have L0 : ∀ (f : Nat) (B : List Int), B.length = 32 → solveLoop f B 1 0 = none := by
    intro f B hB
    cases f with
    | zero => rfl
    | succ f =>
      obtain ⟨B1, hB1, hl1⟩ := hstep 0 _ e0 B hB
      rw [solveLoop]
      simp only [Option.bind_eq_bind, hwr B hB, Option.some_bind, hB1, Bool.false_eq_true,
        if_false]
      exact L1 f B1 hl1
  unfold solve
  have hg : rd g_min_span 1 = some 0 := by decide
  simp only [Option.bind_eq_bind, hg, Option.some_bind]
  exact L0 fuel A hA

/-- C5 as stated fails at `k = 1`: `solve(1)` never reports `alpha = 0` with the
set `[0]` (it reports nothing at all). -/
theorem solve_one_counterexample :
    ¬ ∃ (fuel : Nat) (A : List Int), A.length = 32 ∧ solve fuel A 1 = some (0, [0]) := by
  rintro ⟨fuel, A, hA, h⟩
  rw [solve_one_none fuel A hA] at h
  exact Option.noConfusion h

end SolverV2

namespace SolverV2

/-! ## The layered masks along the search -/

/-- The loop over `j + n` candidates is the loop over the first `j` followed,
when that comes back with `false`, by the loop over the remaining `n`. -/
theorem candLoop_split (rec : List Int → Nat → Nat → Nat → Option (Bool × List Int))
    (size : Int) (m1 m2 m3 : Nat) (n : Nat) :
    ∀ (j : Nat) (cand : Int) (A : List Int),
      candLoop rec size m1 m2 m3 (j + n) cand A =
        match candLoop rec size m1 m2 m3 j cand A with
        | some (false, B) => candLoop rec size m1 m2 m3 n (cand + j) B
        | r => r := by
  intro j
  induction j with
  | zero => intro cand A; simp [candLoop]
  | succ j ih =>
    intro cand A
    rw [show j + 1 + n = (j + n) + 1 by omega]
    rw [candLoop, candLoop]
    cases hdl : diffLoop A m3 cand size.toNat 0 0 with
    | none => rfl
    | some r =>
      obtain ⟨c, nd⟩ := r
      simp only [Option.bind_eq_bind, Option.some_bind]
      have hc : cand + 1 + (j : Int) = cand + ((j + 1 : Nat) : Int) := by push_cast; omega
      cases c with
      | true =>
        simp only [if_true]
        rw [ih (cand + 1) A, hc]
      | false =>
        simp only [Bool.false_eq_true, if_false]
        cases hwr : wr A size cand with
        | none => rfl
        | some A1 =>
          simp only [Option.some_bind]
          cases hrec : rec A1 (m1 ||| nd) (m2 ||| m1 &&& nd) (m3 ||| m2 &&& nd) with
          | none => rfl
          | some r2 =>
            obtain ⟨found, A2⟩ := r2
            simp only [Option.some_bind]
            cases found with
            | true => rfl
            | false =>
              simp only [Bool.false_eq_true, if_false]
              rw [ih (cand + 1) A2, hc]

theorem searchInv_last {k alpha : Int} {A : List Int} {size : Int} {m1 m2 m3 : Nat}
    (inv : SearchInv k alpha A size m1 m2 m3) {l : Int} (hrd : rd A (size - 1) = some l) :
    (A.take size.toNat).getLast? = some l := by
  have h1 := inv.hs1
  unfold rd at hrd
  rw [if_pos (by omega)] at hrd
  rw [List.getLast?_take, if_neg (by omega)]
  have : size.toNat - 1 = (size - 1).toNat := by omega
  rw [this, hrd]
  rfl

theorem searchInv_step {k alpha : Int} {B : List Int} {size : Int} {m1 m2 m3 : Nat}
    (inv : SearchInv k alpha B size m1 m2 m3) (hsk : size + 1 ≤ k - 1) {cand : Int} {nd : Nat}
    (hgt : ∀ a ∈ B.take size.toNat, a < cand) (hca : cand ≤ alpha)
    (hdl : diffLoop B m3 cand size.toNat 0 0 = some (false, nd)) :
    SearchInv k alpha (B.set size.toNat cand) (size + 1)
      (m1 ||| nd) (m2 ||| (m1 &&& nd)) (m3 ||| (m2 &&& nd)) := by
  obtain ⟨hk2, hk16, ha, hs1, _, hlen, hhead, hsorted, hmask, hbound⟩ := inv
  have hPhead : (B.take size.toNat).head? = some 0 := by
    rw [head?_take_pos _ _ (by omega)]; exact hhead
  have hrange : ∀ a ∈ B.take size.toNat, 0 ≤ cand - a ∧ cand - a < 128 := by
    intro a ha'
    have h1 := hgt a ha'
    have h2 := head_le_of_sorted hsorted hPhead a ha'
    omega
  have hsz : size.toNat < B.length := by omega
  obtain ⟨c, nd', hc, hciff, hnd⟩ := diffLoop_spec B m3 cand size.toNat 0 0 (by omega)
    (by rw [List.drop_zero]; exact hrange)
  rw [List.drop_zero] at hciff hnd
  rw [hdl] at hc
  simp only [Option.some.injEq, Prod.mk.injEq] at hc
  obtain ⟨rfl, rfl⟩ := hc
  have hclear : ∀ a ∈ B.take size.toNat, m3.testBit (cand - a).toNat = false := by
    intro a ha'
    by_contra hne
    have : (false = true) := hciff.mpr ⟨a, ha', by simpa using hne⟩
    exact Bool.noConfusion this
  have hnd' : ∀ j : Nat, nd.testBit j = true ↔ ∃ a ∈ B.take size.toNat, cand - a = j := by
    intro j
    rw [hnd rfl j]
    simp
  have hsz1 : (size + 1).toNat = size.toNat + 1 := by omega
  have htk1 : (B.set size.toNat cand).take (size + 1).toNat = B.take size.toNat ++ [cand] := by
    rw [hsz1, take_succ_set _ _ _ hsz]
  refine ⟨hk2, hk16, ha, by omega, hsk, by rw [List.length_set]; omega, ?_, ?_, ?_, ?_⟩
  · rw [head?_set_pos _ _ _ (by omega)]
    exact hhead
  · rw [htk1]; exact sorted_concat hsorted hgt
  · rw [htk1]; exact maskInv_step hsorted hmask hnd'
  · rw [htk1]; exact bound_step hsorted hmask hbound hgt hclear

theorem reach_searchInv {k alpha : Int} {A0 : List Int} (hk2 : 2 ≤ k) (hk16 : k ≤ 16)
    (ha : alpha ≤ 127) (hlen : k ≤ A0.length) (hA0 : A0[0]? = some 0)
    {fuel : Nat} {A : List Int} {size : Int} {m1 m2 m3 : Nat}
    (h : Reach k alpha A0 fuel A size m1 m2 m3) : SearchInv k alpha A size m1 m2 m3 := by
  induction h with
  | root => exact searchInv_root hk2 hk16 ha hlen hA0
  | @step fuel A size m1 m2 m3 last_val g1 g0 j B nd A1 _ hrd hg1 hprune hbase hg0 hj hloop hdl
      hwr ih =>
    obtain ⟨_, _, rfl⟩ := wr_eq_some hwr
    obtain ⟨hBl, hBt, _⟩ := candLoop_rel k alpha fuel size m1 m2 m3
      (fun A n1 n2 n3 b A' hr => backtrackAux_rel k alpha fuel (size + 1) A n1 n2 n3 b A' hr)
      _ _ _ _ _ hloop
    have hlast := searchInv_last ih hrd
    have hle := le_getLast_of_sorted ih.hsorted hlast
    have invB : SearchInv k alpha B size m1 m2 m3 := by
      obtain ⟨h1, h2, h3, h4, h5, h6, h7, h8, h9, h10⟩ := ih
      refine ⟨h1, h2, h3, h4, h5, by omega, ?_, by rw [hBt]; exact h8, by rw [hBt]; exact h9,
        by rw [hBt]; exact h10⟩
      rw [← head?_take_pos B size.toNat (by omega), hBt, head?_take_pos _ _ (by omega)]
      exact h7
    obtain ⟨g0', hg0', hg0nn, _⟩ := g_min_span_rd (k - size) (by have := ih.hsk; omega)
      (by have := ih.hs1; have := ih.hk16; omega)
    rw [hg0] at hg0'
    simp only [Option.some.injEq] at hg0'
    subst hg0'
    have hmc : (if size = 1 then min (alpha - g0) (Int.tdiv alpha 2) else alpha - g0) ≤ alpha := by
      split <;> omega
    refine searchInv_step invB (by have := ih.hsk; omega) ?_ (by omega) hdl
    intro a ha'
    rw [hBt] at ha'
    have := hle a ha'
    omega

end SolverV2

namespace SolverV2

end SolverV2

namespace SolverV2

/-! ## The depth bound of `backtrack` is never reached -/

theorem backtrackAux_fuel_eq (k alpha : Int) :
    ∀ (f1 f2 : Nat) (A : List Int) (size : Int) (m1 m2 m3 : Nat),
      (if k - size ≤ -1 then 1 else if k - size = 0 then 2 else (k - size).toNat) ≤ f1 →
      (if k - size ≤ -1 then 1 else if k - size = 0 then 2 else (k - size).toNat) ≤ f2 →
      backtrackAux f1 A size m1 m2 m3 k alpha = backtrackAux f2 A size m1 m2 m3 k alpha := by
  intro f1
  induction f1 with
  | zero =>
    intro f2 A size m1 m2 m3 h1 _
    split at h1
    · omega
    · split at h1
      · omega
      · omega
  | succ a IH =>
    intro f2 A size m1 m2 m3 h1 h2
    cases f2 with
    | zero =>
      split at h2
      · omega
      · split at h2
        · omega
        · omega
    | succ b =>
      rw [backtrackAux, backtrackAux]
      cases hrd : rd A (size - 1) with
      | none => simp only [Option.bind_eq_bind, hrd, Option.none_bind]
      | some last_val =>
        cases hg1 : rd g_min_span (k - size + 1) with
        | none => simp only [Option.bind_eq_bind, hrd, hg1, Option.some_bind, Option.none_bind]
        | some g1 =>
          simp only [Option.bind_eq_bind, hrd, hg1, Option.some_bind]
          split
          · rfl
          · split
            · rfl
            · next hbase =>
              cases hg0 : rd g_min_span (k - size) with
              | none => simp only [hg0, Option.none_bind]
              | some g0 =>
                simp only [hg0, Option.some_bind]
                have hr0 : 0 ≤ k - size := (rd_eq_some hg0).1
                have hrec : (fun A1 n1 n2 n3 => backtrackAux a A1 (size + 1) n1 n2 n3 k alpha)
                    = (fun A1 n1 n2 n3 => backtrackAux b A1 (size + 1) n1 n2 n3 k alpha) := by
                  funext A1 n1 n2 n3
                  apply IH
                  · by_cases hz : k - size = 0
                    · rw [if_neg (by omega), if_pos hz] at h1
                      rw [if_pos (by omega)]
                      omega
                    · rw [if_neg (by omega), if_neg hz] at h1
                      rw [if_neg (by omega), if_neg (by omega)]
                      omega
                  · by_cases hz : k - size = 0
                    · rw [if_neg (by omega), if_pos hz] at h2
                      rw [if_pos (by omega)]
                      omega
                    · rw [if_neg (by omega), if_neg hz] at h2
                      rw [if_neg (by omega), if_neg (by omega)]
                      omega
                rw [hrec]

/-- More depth than `backtrack` supplies never changes the result of a call. -/
theorem backtrackAux_fuel (k alpha : Int) (fuel : Nat) (A : List Int) (size : Int)
    (m1 m2 m3 : Nat) (h : (k - size).toNat + 2 ≤ fuel) :
    backtrackAux fuel A size m1 m2 m3 k alpha = backtrack A size m1 m2 m3 k alpha := by
  unfold backtrack
  apply backtrackAux_fuel_eq
  · split
    · omega
    · split <;> omega
  · split
    · omega
    · split <;> omega

end SolverV2

namespace SolverV2

/-! ## In-range accesses of the solverv2 search -/

/-- C18 (in-range accesses and termination of the solverv2 search).  For
`2 ≤ k ≤ 16` and `0 ≤ alpha ≤ 127`, the call `backtrack(A, 1, 0, 0, 0, k, alpha)`
with `A[0] = 0` on the 32-cell array returns; and at every call
`backtrack(A, size, ...)` it reaches: `1 ≤ size ≤ k - 1`; the indices
`k - size + 1` and `k - size` of `g_min_span` lie in `0..16`; the write
`A[size]` is at an index `≤ k - 1` inside the array; and once the pruning test
is passed every shift amount, `alpha - A[i]` in the closing step or
`cand - A[i]` for a candidate of the loop (`i < size`), lies in `1..127`. -/
theorem backtrack_in_range (k alpha : Int) (A0 : List Int) (hk2 : 2 ≤ k) (hk16 : k ≤ 16)
    (ha0 : 0 ≤ alpha) (ha : alpha ≤ 127) (hlen : A0.length = 32) (hA0 : A0[0]? = some 0) :
    (∃ b A', backtrack A0 1 0 0 0 k alpha = some (b, A')) ∧
    ∀ (fuel : Nat) (A : List Int) (size : Int) (m1 m2 m3 : Nat),
      Reach k alpha A0 fuel A size m1 m2 m3 →
      1 ≤ size ∧ size ≤ k - 1 ∧
      (0 ≤ k - size + 1 ∧ k - size + 1 ≤ 16) ∧ (0 ≤ k - size ∧ k - size ≤ 16) ∧
      size < A.length ∧
      ∀ last_val g1, rd A (size - 1) = some last_val →
        rd g_min_span (k - size + 1) = some g1 → ¬ (last_val + g1 > alpha) →
        ∀ (i : Nat) (a : Int), (i : Int) < size → A[i]? = some a →
          (size = k - 1 → 1 ≤ alpha - a ∧ alpha - a ≤ 127) ∧
          (size ≠ k - 1 → ∀ g0 cand, rd g_min_span (k - size) = some g0 →
            last_val < cand →
            cand ≤ (if size = 1 then min (alpha - g0) (Int.tdiv alpha 2) else alpha - g0) →
            1 ≤ cand - a ∧ cand - a ≤ 127) := by
  have _ := ha0
  have hlen' : k ≤ A0.length := by omega
  refine ⟨?_, ?_⟩
  · obtain ⟨b, A', h, _⟩ := backtrack_spec hk2 hk16 ha hlen' hA0
    exact ⟨b, A', h⟩
  · intro fuel A size m1 m2 m3 hreach
    have inv := reach_searchInv hk2 hk16 ha hlen' hA0 hreach
    have hs1 := inv.hs1
    have hsk := inv.hsk
    have hl := inv.hlen
    refine ⟨hs1, hsk, ⟨by omega, by omega⟩, ⟨by omega, by omega⟩, by omega, ?_⟩
    intro last_val g1 hrd hg1 hprune i a hi hia
    have hlast := searchInv_last inv hrd
    have hPhead : (A.take size.toNat).head? = some 0 := by
      rw [head?_take_pos _ _ (by omega)]; exact inv.hhead
    have hmem : a ∈ A.take size.toNat := by
      have : (A.take size.toNat)[i]? = some a := by
        rw [List.getElem?_take_of_lt (by omega)]; exact hia
      exact List.getElem?_mem this
    have hle := le_getLast_of_sorted inv.hsorted hlast a hmem
    have hge := head_le_of_sorted inv.hsorted hPhead a hmem
    obtain ⟨g1', hg1', _, hg1pos⟩ := g_min_span_rd (k - size + 1) (by omega) (by omega)
    rw [hg1] at hg1'
    have hg1e := Option.some.inj hg1'
    have hg1p := hg1pos (by omega)
    refine ⟨fun _ => by omega, ?_⟩
    intro _ g0 cand hg0 hlt hcand
    obtain ⟨g0', hg0', hg0nn, _⟩ := g_min_span_rd (k - size) (by omega) (by omega)
    rw [hg0] at hg0'
    have hg0e := Option.some.inj hg0'
    have hmc : (if size = 1 then min (alpha - g0) (Int.tdiv alpha 2) else alpha - g0) ≤ alpha := by
      split <;> omega
    omega

theorem backtrack_in_range_witness :
    (∃ b A', backtrack (List.replicate 32 0) 1 0 0 0 4 3 = some (b, A')) ∧
    ∀ (fuel : Nat) (A : List Int) (size : Int) (m1 m2 m3 : Nat),
      Reach 4 3 (List.replicate 32 0) fuel A size m1 m2 m3 →
      1 ≤ size ∧ size ≤ 4 - 1 ∧
      (0 ≤ 4 - size + 1 ∧ 4 - size + 1 ≤ 16) ∧ (0 ≤ 4 - size ∧ 4 - size ≤ 16) ∧
      size < A.length ∧
      ∀ last_val g1, rd A (size - 1) = some last_val →
        rd g_min_span (4 - size + 1) = some g1 → ¬ (last_val + g1 > 3) →
        ∀ (i : Nat) (a : Int), (i : Int) < size → A[i]? = some a →
          (size = 4 - 1 → 1 ≤ 3 - a ∧ 3 - a ≤ 127) ∧
          (size ≠ 4 - 1 → ∀ g0 cand, rd g_min_span (4 - size) = some g0 →
            last_val < cand →
            cand ≤ (if size = 1 then min (3 - g0) (Int.tdiv 3 2) else 3 - g0) →
            1 ≤ cand - a ∧ cand - a ≤ 127) :=
  backtrack_in_range 4 3 (List.replicate 32 0) (by decide) (by decide) (by decide) (by decide)
    (by decide) (by decide)

end SolverV2

/-! ## Counter updates of solverv1 -/

namespace SolverV1

/-- What `diff_counts[x]++` over all `x = val - a` does to one cell. -/
theorem incrLoop_spec (val : Int) :
    ∀ (A dc dc' : List Int), incrLoop val A dc = some dc' →
      dc'.length = dc.length ∧ (∀ a ∈ A, 0 ≤ val - a ∧ val - a < dc.length) ∧
      ∀ (i : Nat) (c : Int), dc[i]? = some c →
        dc'[i]? = some (c + ((A.map (fun a => val - a)).count (i : Int) : Nat)) := by
  intro A
  induction A with
  | nil =>
    intro dc dc' h
    simp only [incrLoop, Option.some.injEq] at h
    subst h
    exact ⟨rfl, by simp, fun i c hc => by simpa using hc⟩
  | cons a t ih =>
    intro dc dc' h
    rw [incrLoop] at h
    simp only [Option.bind_eq_bind, Option.bind_eq_some] at h
    obtain ⟨c0, hrd, dc1, hwr, h⟩ := h
    obtain ⟨h0, h1, hget⟩ := rd_eq_some hrd
    obtain ⟨_, _, rfl⟩ := wr_eq_some hwr
    obtain ⟨hl, hr, hp⟩ := ih _ _ h
    rw [List.length_set] at hl hr
    refine ⟨hl, ?_, ?_⟩
    · intro x hx
      rcases List.mem_cons.mp hx with rfl | hx
      · exact ⟨h0, h1⟩
      · exact hr x hx
    · intro i c hc
      have hi : i < dc.length := (List.getElem?_eq_some.mp hc).1
      by_cases hia : (val - a).toNat = i
      · have h2 : (dc.set (val - a).toNat (c0 + 1))[i]? = some (c0 + 1) := by
          rw [hia, List.getElem?_set_self hi]
        have h3 := hp i _ h2
        rw [h3]
        have hc0 : c0 = c := by
          rw [hia, hc] at hget
          exact (Option.some.inj hget).symm
        have hva : val - a = (i : Int) := by omega
        simp only [List.map_cons, List.count_cons, hva, beq_self_eq_true, if_true]
        congr 1
        push_cast
        omega
      · have h2 : (dc.set (val - a).toNat (c0 + 1))[i]? = some c := by
          rw [List.getElem?_set_ne hia]; exact hc
        have h3 := hp i _ h2
        rw [h3]
        have hva : ¬ (val - a = (i : Int)) := by omega
        simp only [List.map_cons, List.count_cons, beq_iff_eq, hva, if_false, Nat.add_zero]

theorem incrLoop_some (val : Int) :
    ∀ (A dc : List Int), (∀ a ∈ A, 0 ≤ val - a ∧ val - a < dc.length) →
      ∃ dc', incrLoop val A dc = some dc' := by
  intro A
  induction A with
  | nil => intro dc _; exact ⟨dc, rfl⟩
  | cons a t ih =>
    intro dc hr
    obtain ⟨h0, h1⟩ := hr a (List.mem_cons_self _ _)
    obtain ⟨c0, hrd, _⟩ := rd_of_lt h0 h1
    obtain ⟨dc', h⟩ := ih (dc.set (val - a).toNat (c0 + 1))
      (fun x hx => by rw [List.length_set]; exact hr x (List.mem_cons_of_mem _ hx))
    refine ⟨dc', ?_⟩
    rw [incrLoop]
    simp only [Option.bind_eq_bind, hrd, Option.some_bind, wr_eq (c0 + 1) h0 h1, h]

/-- What `diff_counts[x]--` over all `x = val - a` does to one cell, on a vector
where every index `val - a` is in range. -/
theorem decrLoop_spec (val : Int) :
    ∀ (A dc : List Int), (∀ a ∈ A, 0 ≤ val - a ∧ val - a < dc.length) →
      ∃ dc', decrLoop val A dc = some dc' ∧ dc'.length = dc.length ∧
      ∀ (i : Nat) (c : Int), dc[i]? = some c →
        dc'[i]? = some (c - ((A.map (fun a => val - a)).count (i : Int) : Nat)) := by
  intro A
  induction A with
  | nil =>
    intro dc _
    exact ⟨dc, rfl, rfl, fun i c hc => by simpa using hc⟩
  | cons a t ih =>
    intro dc hr
    obtain ⟨h0, h1⟩ := hr a (List.mem_cons_self _ _)
    obtain ⟨c0, hrd, hget⟩ := rd_of_lt h0 h1
    obtain ⟨dc', h, hl, hp⟩ := ih (dc.set (val - a).toNat (c0 - 1))
      (fun x hx => by rw [List.length_set]; exact hr x (List.mem_cons_of_mem _ hx))
    rw [List.length_set] at hl
    refine ⟨dc', ?_, hl, ?_⟩
    · rw [decrLoop]
      simp only [Option.bind_eq_bind, hrd, Option.some_bind, wr_eq (c0 - 1) h0 h1, h]
    · intro i c hc
      have hi : i < dc.length := (List.getElem?_eq_some.mp hc).1
      by_cases hia : (val - a).toNat = i
      · have h2 : (dc.set (val - a).toNat (c0 - 1))[i]? = some (c0 - 1) := by
          rw [hia, List.getElem?_set_self hi]
        have h3 := hp i _ h2
        rw [h3]
        have hc0 : c0 = c := by
          rw [hia, hc] at hget
          exact (Option.some.inj hget).symm
        have hva : val - a = (i : Int) := by omega
        simp only [List.map_cons, List.count_cons, hva, beq_self_eq_true, if_true]
        congr 1
        push_cast
        omega
      · have h2 : (dc.set (val - a).toNat (c0 - 1))[i]? = some c := by
          rw [List.getElem?_set_ne hia]; exact hc
        have h3 := hp i _ h2
        rw [h3]
        have hva : ¬ (val - a = (i : Int)) := by omega
        simp only [List.map_cons, List.count_cons, beq_iff_eq, hva, if_false, Nat.add_zero]

/-- The decrements of `remove_val` undo the increments of `try_add`. -/
theorem decrLoop_incrLoop {val : Int} {A dc dc' : List Int}
    (h : incrLoop val A dc = some dc') : decrLoop val A dc' = some dc := by
  obtain ⟨hl, hr, hp⟩ := incrLoop_spec val A dc dc' h
  obtain ⟨dc2, h2, hl2, hp2⟩ := decrLoop_spec val A dc' (by rw [hl]; exact hr)
  rw [h2]
  congr 1
  apply List.ext_getElem?
  intro i
  by_cases hi : i < dc.length
  · have hc : dc[i]? = some dc[i] := List.getElem?_eq_getElem hi
    rw [hp2 i _ (hp i _ hc), hc]
    congr 1
    omega
  · rw [List.getElem?_eq_none (by omega), List.getElem?_eq_none (by omega)]

theorem checkLoop_spec (val : Int) (dc : List Int) :
    ∀ (A : List Int), (∀ a ∈ A, 0 ≤ val - a ∧ val - a < dc.length) →
      ∃ ok, checkLoop val dc A = some ok ∧
        (ok = true ↔ ∀ a ∈ A, ∀ c, dc[(val - a).toNat]? = some c → c + 1 ≤ 3) := by
  intro A
  induction A with
  | nil => intro _; exact ⟨true, rfl, by simp⟩
  | cons a t ih =>
    intro hr
    obtain ⟨h0, h1⟩ := hr a (List.mem_cons_self _ _)
    obtain ⟨c0, hrd, hget⟩ := rd_of_lt h0 h1
    obtain ⟨ok, hok, hiff⟩ := ih (fun x hx => hr x (List.mem_cons_of_mem _ hx))
    rw [checkLoop]
    simp only [Option.bind_eq_bind, hrd, Option.some_bind, GAMMA]
    by_cases hc : c0 + 1 > 3
    · rw [if_pos hc]
      refine ⟨false, rfl, ?_⟩
      simp only [Bool.false_eq_true, List.mem_cons, forall_eq_or_imp, false_iff, not_and]
      intro h
      have := h c0 hget
      omega
    · rw [if_neg hc]
      refine ⟨ok, hok, ?_⟩
      rw [hiff]
      simp only [List.mem_cons, forall_eq_or_imp]
      constructor
      · intro h
        refine ⟨fun c hc' => ?_, h⟩
        rw [hget] at hc'
        have := Option.some.inj hc'
        omega
      · intro h; exact h.2

theorem checkLoop_isSome {val : Int} {dc A : List Int} {ok : Bool}
    (h : checkLoop val dc A = some ok) (a : Int) (ha : a ∈ A)
    (hpre : ok = true) : 0 ≤ val - a ∧ val - a < dc.length := by
  induction A with
  | nil => simp at ha
  | cons b t ih =>
    rw [checkLoop] at h
    simp only [Option.bind_eq_bind, Option.bind_eq_some] at h
    obtain ⟨c0, hrd, h⟩ := h
    obtain ⟨h0, h1, _⟩ := rd_eq_some hrd
    split at h
    · subst hpre; simp at h
    · rcases List.mem_cons.mp ha with rfl | ha
      · exact ⟨h0, h1⟩
      · exact ih h ha

end SolverV1

namespace SolverV1

theorem try_add_false {val : Int} {A dc dc' : List Int}
    (h : try_add val A dc = some (false, dc')) : dc' = dc := by
  unfold try_add at h
  simp only [Option.bind_eq_bind, Option.bind_eq_some] at h
  obtain ⟨ok, _, h⟩ := h
  cases ok with
  | true =>
    simp only [if_true, Option.bind_eq_some, Option.some.injEq, Prod.mk.injEq] at h
    obtain ⟨_, _, h, _⟩ := h
    simp at h
  | false =>
    simp only [Bool.false_eq_true, if_false, Option.some.injEq, Prod.mk.injEq] at h
    exact h.2.symm

theorem try_add_true {val : Int} {A dc dc' : List Int}
    (h : try_add val A dc = some (true, dc')) :
    checkLoop val dc A = some true ∧ incrLoop val A dc = some dc' := by
  unfold try_add at h
  simp only [Option.bind_eq_bind, Option.bind_eq_some] at h
  obtain ⟨ok, hok, h⟩ := h
  cases ok with
  | true =>
    simp only [if_true, Option.bind_eq_some, Option.some.injEq, Prod.mk.injEq] at h
    obtain ⟨dc1, h1, _, rfl⟩ := h
    exact ⟨hok, h1⟩
  | false =>
    simp at h

theorem remove_val_try_add {val : Int} {A dc dc' : List Int}
    (h : try_add val A dc = some (true, dc')) : remove_val val A dc' = some dc :=
  decrLoop_incrLoop (try_add_true h).2

theorem dfsBody_diff_counts (rec : List Int → DfsState → Option DfsState) (A : List Int)
    (IH : ∀ B st st', rec B st = some st' → st'.diff_counts = st.diff_counts)
    (val : Int) (st st2 : DfsState) (h : dfsBody rec A val st = some st2) :
    st2.diff_counts = st.diff_counts := by
  unfold dfsBody at h
  simp only [Option.bind_eq_bind, Option.bind_eq_some] at h
  obtain ⟨⟨ok, dc1⟩, hta, h⟩ := h
  cases ok with
  | true =>
    simp only [if_true, Option.bind_eq_some, Option.some.injEq] at h
    obtain ⟨st1, hrec, dc2, hrm, rfl⟩ := h
    have h1 := IH _ _ _ hrec
    simp only at h1
    rw [h1, remove_val_try_add hta] at hrm
    exact (Option.some.inj hrm).symm
  | false =>
    simp only [Bool.false_eq_true, if_false, Option.some.injEq] at h
    subst h
    exact try_add_false hta

theorem dfsLoop_diff_counts (rec : List Int → DfsState → Option DfsState)
    (G : Int → Int) (A : List Int) (k g_rem : Int)
    (IH : ∀ B st st', rec B st = some st' → st'.diff_counts = st.diff_counts) :
    ∀ (n : Nat) (val : Int) (st st' : DfsState),
      dfsLoop rec G A k g_rem n val st = some st' → st'.diff_counts = st.diff_counts := by
  intro n
  induction n with
  | zero =>
    intro val st st' h
    rw [dfsLoop] at h
    split at h
    · exact Option.noConfusion h
    · rw [← Option.some.inj h]
  | succ n ih =>
    intro val st st' h
    rw [dfsLoop] at h
    split at h
    · simp only [Option.bind_eq_bind, Option.bind_eq_some] at h
      obtain ⟨st2, hst2, h⟩ := h
      have hdc2 := dfsBody_diff_counts rec A IH val st st2 hst2
      split at h
      · rw [← Option.some.inj h, hdc2]
      · rw [ih _ _ _ h, hdc2]
    · rw [← Option.some.inj h]

theorem dfs_diff_counts (G : Int → Int) (k : Int) :
    ∀ (fuel : Nat) (A : List Int) (st st' : DfsState),
      dfs G k fuel A st = some st' → st'.diff_counts = st.diff_counts := by
  intro fuel
  induction fuel with
  | zero => intro A st st' h; exact Option.noConfusion h
  | succ fuel IH =>
    intro A st st' h
    rw [dfs] at h
    simp only at h
    split at h
    · simp only [Option.bind_eq_bind, Option.bind_eq_some] at h
      obtain ⟨back, _, h⟩ := h
      split at h
      · rw [← Option.some.inj h]
      · rw [← Option.some.inj h]
    · simp only [Option.bind_eq_bind, Option.bind_eq_some] at h
      obtain ⟨back, _, h⟩ := h
      exact dfsLoop_diff_counts _ G A k _ IH _ _ _ _ h

/-- C8 (apply/revert round trip in solverv1).  Whenever
`try_add(val, A, diff_counts)` returns true, a following
`remove_val(val, A, diff_counts)` restores `diff_counts` to exactly its value
before `try_add`; consequently every call of `dfs` that returns leaves
`diff_counts` as it found it. -/
theorem tracker_round_trip :
    (∀ (val : Int) (A dc dc' : List Int), try_add val A dc = some (true, dc') →
      remove_val val A dc' = some dc) ∧
    (∀ (G_lookup : Int → Int) (k : Int) (fuel : Nat) (A : List Int) (st st' : DfsState),
      dfs G_lookup k fuel A st = some st' → st'.diff_counts = st.diff_counts) :=
  ⟨fun _ _ _ _ h => remove_val_try_add h, fun G k fuel A st st' h =>
    dfs_diff_counts G k fuel A st st' h⟩

/-- An instance of the round trip: adding `2` to `{0, 1}` and removing it. -/
theorem tracker_round_trip_witness :
    try_add 2 [0, 1] [0, 1, 0, 0] = some (true, [0, 2, 1, 0]) ∧
    remove_val 2 [0, 1] [0, 2, 1, 0] = some [0, 1, 0, 0] :=
  ⟨by decide, tracker_round_trip.1 2 [0, 1] [0, 1, 0, 0] [0, 2, 1, 0] (by decide)⟩

/-- C6 fails on the code: for `k ≤ GAMMA + 1` the function `solve_G_minus`
returns `N = k - 1` with an empty witness, not `[0, 1, ..., k-1]`. -/
theorem solve_G_minus_small_empty (G_lookup : Int → Int) :
    solve_G_minus G_lookup 1 = some { N := 0, witness := [] } ∧
    solve_G_minus G_lookup 2 = some { N := 1, witness := [] } ∧
    solve_G_minus G_lookup 3 = some { N := 2, witness := [] } ∧
    solve_G_minus G_lookup 4 = some { N := 3, witness := [] } := by
  refine ⟨rfl, rfl, rfl, rfl⟩

end SolverV1

namespace SolverV1

theorem records_empty_singleton (a : Int) : Records (List.replicate MAX_DIFF 0) [a] := by
  refine ⟨List.length_replicate _ _, fun d hd => ?_⟩
  rw [List.getElem?_replicate, if_pos hd]
  simp [diffCount, pairDiffs]

/-- The effect of `try_add` on a vector that records a valid sequence. -/
theorem try_add_records {val : Int} {A dc : List Int}
    (hsorted : A.Pairwise (fun a b => a < b)) (hnn : ∀ a ∈ A, 0 ≤ a)
    (hgt : ∀ a ∈ A, a < val) (hval : val < MAX_DIFF) (hrec : Records dc A)
    (hvalid : ∀ d, diffCount A d ≤ 3) :
    ∃ b dc', try_add val A dc = some (b, dc') ∧
      (b = true ↔ ∀ d, diffCount (A ++ [val]) d ≤ 3) ∧
      (b = true → Records dc' (A ++ [val])) ∧ (b = false → dc' = dc) := by
  obtain ⟨hlen, hget⟩ := hrec
  have hrange : ∀ a ∈ A, 0 ≤ val - a ∧ val - a < dc.length := by
    intro a ha
    have h1 := hgt a ha
    have h2 := hnn a ha
    rw [hlen]
    omega
  obtain ⟨ok, hok, hiff⟩ := checkLoop_spec val dc A hrange
  have hcnt : ∀ a ∈ A, dc[(val - a).toNat]? = some (diffCount A (val - a) : Int) := by
    intro a ha
    have h1 := hrange a ha
    have h2 := hget (val - a).toNat (by rw [hlen] at h1; omega)
    rw [h2]
    congr 3
    omega
  have hiff2 : ok = true ↔ ∀ d, diffCount (A ++ [val]) d ≤ 3 := by
    rw [hiff]
    constructor
    · intro h d
      rw [diffCount_concat_sorted A val d hsorted]
      by_cases hin : val - d ∈ A
      · rw [if_pos hin]
        have h1 := h _ hin _ (hcnt _ hin)
        have : val - (val - d) = d := by omega
        rw [this] at h1
        omega
      · rw [if_neg hin]
        exact hvalid d
    · intro h a ha c hc
      rw [hcnt a ha] at hc
      have h1 := h (val - a)
      rw [diffCount_concat_sorted A val _ hsorted] at h1
      have : val - (val - a) = a := by omega
      rw [this, if_pos ha] at h1
      have := Option.some.inj hc
      omega
  unfold try_add
  rw [hok]
  cases ok with
  | true =>
    obtain ⟨dc', hdc'⟩ := incrLoop_some val A dc hrange
    obtain ⟨hl, _, hp⟩ := incrLoop_spec val A dc dc' hdc'
    refine ⟨true, dc', by simp [hdc'], hiff2, fun _ => ⟨by rw [hl, hlen], fun d hd => ?_⟩,
      by simp⟩
    rw [hp d _ (hget d hd), diffCount_concat]
    push_cast
    rfl
  | false =>
    exact ⟨false, dc, by simp, hiff2, by simp, fun _ => rfl⟩

/-- C7, amended (tracker admission test of solverv1).  For every strictly
increasing sequence `A` of non-negative integers in which no difference occurs
more than 3 times, every `val` greater than the last element of `A` with
`val < MAX_DIFF`, and every `diff_counts` that records the exact multiplicity of
each pairwise difference of `A`: `try_add(val, A, diff_counts)` returns true if
and only if no difference occurs more than `GAMMA = 3` times in `A ++ [val]`;
and when it returns true the updated `diff_counts` records the exact
multiplicities of `A ++ [val]`, all of them at most 3. -/
theorem try_add_iff (val : Int) (A dc : List Int)
    (hsorted : A.Pairwise (fun a b => a < b)) (hnn : ∀ a ∈ A, 0 ≤ a)
    (hgt : ∀ l, A.getLast? = some l → l < val) (hval : val < MAX_DIFF)
    (hrec : Records dc A) (hvalid : ∀ d, diffCount A d ≤ 3) :
    ∃ b dc', try_add val A dc = some (b, dc') ∧
      (b = true ↔ ∀ d, diffCount (A ++ [val]) d ≤ GAMMA) ∧
      (b = true → Records dc' (A ++ [val]) ∧ ∀ c ∈ dc', c ≤ 3) := by
  have hgt' : ∀ a ∈ A, a < val := by
    intro a ha
    cases hl : A.getLast? with
    | none =>
      rw [List.getLast?_eq_none_iff] at hl
      subst hl
      simp at ha
    | some l =>
      have := le_getLast_of_sorted hsorted hl a ha
      have := hgt l hl
      omega
  obtain ⟨b, dc', h, hiff, hrec', _⟩ := try_add_records hsorted hnn hgt' hval hrec hvalid
  refine ⟨b, dc', h, ?_, fun hb => ⟨hrec' hb, fun c hc => ?_⟩⟩
  · rw [hiff]
    simp only [GAMMA]
    constructor
    · intro hh d; exact_mod_cast hh d
    · intro hh d; exact_mod_cast hh d
  · obtain ⟨hl, hg⟩ := hrec' hb
    obtain ⟨i, hi, rfl⟩ := List.getElem_of_mem hc
    have h1 := hg i (by omega)
    rw [List.getElem?_eq_getElem hi] at h1
    rw [Option.some.inj h1]
    have := hiff.mp hb i
    exact_mod_cast this

set_option maxRecDepth 100000 in
theorem try_add_iff_witness :
    ∃ b dc', try_add 2 [0, 1] ([0, 1] ++ List.replicate 498 0) = some (b, dc') ∧
      (b = true ↔ ∀ d, diffCount ([0, 1] ++ [2]) d ≤ GAMMA) ∧
      (b = true → Records dc' ([0, 1] ++ [2]) ∧ ∀ c ∈ dc', c ≤ 3) :=
  try_add_iff 2 [0, 1] ([0, 1] ++ List.replicate 498 0) (by decide) (by decide)
    (by decide) (by decide)
    ⟨by decide, by
      intro d hd
      rcases d with _ | _ | d
      · rfl
      · rfl
      · rw [List.getElem?_append_right (by simp)]
        simp only [List.length_cons, List.length_nil, Nat.reduceAdd, Nat.add_sub_cancel,
          List.getElem?_replicate]
        rw [if_pos (by simp only [MAX_DIFF] at hd ⊢; omega)]
        have hz : diffCount [0, 1] ((d + 1 + 1 : Nat) : Int) = 0 := by
          apply List.count_eq_zero.mpr
          intro hmem
          simp only [pairDiffs, List.map_cons, List.map_nil, List.append_nil,
            List.mem_singleton] at hmem
          omega
        rw [hz]
        rfl⟩
    (by
      intro d
      simp only [diffCount, pairDiffs, List.map_cons, List.map_nil, List.append_nil,
        List.count_cons, List.count_nil]
      split <;> simp)

set_option maxRecDepth 100000 in
/-- C7 as stated fails: `A = [0,1,2,3,4]` is strictly increasing, `10` is larger
than its last element and below `MAX_DIFF`, the vector records the
multiplicities of `A` exactly (the difference `1` occurs 4 times), and
`try_add` returns true although the difference `1` occurs 4 times in
`A ++ [10]`. -/
theorem try_add_counterexample :
    ([0, 1, 2, 3, 4] : List Int).Pairwise (fun a b => a < b) ∧
    ([0, 1, 2, 3, 4] : List Int).getLast? = some 4 ∧ (4 : Int) < 10 ∧ (10 : Int) < MAX_DIFF ∧
    Records ([0, 4, 3, 2, 1] ++ List.replicate 495 0) [0, 1, 2, 3, 4] ∧
    (try_add 10 [0, 1, 2, 3, 4] ([0, 4, 3, 2, 1] ++ List.replicate 495 0)).map Prod.fst
      = some true ∧
    diffCount ([0, 1, 2, 3, 4] ++ [10]) 1 = 4 := by
  refine ⟨by decide, by decide, by decide, by decide, ⟨by decide, ?_⟩, by decide, by decide⟩
  intro d hd
  rcases d with _ | _ | _ | _ | _ | d
  · rfl
  · rfl
  · rfl
  · rfl
  · rfl
  · rw [List.getElem?_append_right (by simp)]
    simp only [List.length_cons, List.length_nil, Nat.reduceAdd, Nat.add_sub_cancel,
      List.getElem?_replicate]
    rw [if_pos (by simp only [MAX_DIFF] at hd ⊢; omega)]
    have hz : diffCount [0, 1, 2, 3, 4] ((d + 1 + 1 + 1 + 1 + 1 : Nat) : Int) = 0 := by
      apply List.count_eq_zero.mpr
      intro hmem
      simp only [pairDiffs, List.map_cons, List.map_nil, List.append_nil, List.cons_append,
        List.nil_append, List.mem_cons, List.mem_singleton, List.mem_nil_iff,
        or_false] at hmem
      omega
    rw [hz]
    rfl

end SolverV1

namespace SolverV1

/-! ## The greedy seed -/

theorem try_add_none_of_ge {val : Int} {A dc : List Int} (hhead : A.head? = some 0)
    (hlen : dc.length = MAX_DIFF) (hval : (MAX_DIFF : Int) ≤ val) :
    try_add val A dc = none := by
  cases A with
  | nil => simp at hhead
  | cons a t =>
    simp only [List.head?_cons, Option.some.injEq] at hhead
    subst hhead
    have hrd : rd dc (val - 0) = none := by
      unfold rd
      split
      · apply List.getElem?_eq_none
        omega
      · rfl
    unfold try_add
    rw [checkLoop, hrd]
    rfl

theorem greedyNext_spec {A dc : List Int} (hsorted : A.Pairwise (fun a b => a < b))
    (hnn : ∀ a ∈ A, 0 ≤ a) (hvalid : ∀ d, diffCount A d ≤ 3) (hhead : A.head? = some 0)
    (hrec : Records dc A) :
    ∀ (n : Nat) (val : Int), (∀ a ∈ A, a < val) → ∀ (v : Int) (dc' : List Int),
      greedyNext A n val dc = some (v, dc') →
      val ≤ v ∧ v < MAX_DIFF ∧ (∀ d, diffCount (A ++ [v]) d ≤ 3) ∧ Records dc' (A ++ [v]) := by
  intro n
  induction n with
  | zero => intro val _ v dc' h; exact Option.noConfusion h
  | succ n ih =>
    intro val hgt v dc' h
    rw [greedyNext] at h
    simp only [Option.bind_eq_bind, Option.bind_eq_some] at h
    obtain ⟨⟨ok, dc1⟩, hta, h⟩ := h
    by_cases hval : val < MAX_DIFF
    · obtain ⟨b, dc2, hta', hiff, hrec', hfalse⟩ :=
        try_add_records hsorted hnn hgt hval hrec hvalid
      rw [hta] at hta'
      simp only [Option.some.injEq, Prod.mk.injEq] at hta'
      obtain ⟨rfl, rfl⟩ := hta'
      cases ok with
      | true =>
        simp only [if_true, Option.some.injEq, Prod.mk.injEq] at h
        obtain ⟨rfl, rfl⟩ := h
        exact ⟨le_refl _, hval, hiff.mp rfl, hrec' rfl⟩
      | false =>
        simp only [Bool.false_eq_true, if_false] at h
        rw [hfalse rfl] at h
        obtain ⟨h1, h2⟩ := ih (val + 1) (fun a ha => by have := hgt a ha; omega) v dc' h
        exact ⟨by omega, h2⟩
    · rw [try_add_none_of_ge hhead hrec.1 (by omega)] at hta
      exact Option.noConfusion hta

theorem greedyLoop_spec :
    ∀ (n : Nat) (A dc : List Int), A.Pairwise (fun a b => a < b) → A.head? = some 0 →
      (∀ d, diffCount A d ≤ 3) → Records dc A → (∀ a ∈ A, a < MAX_DIFF) →
      ∀ A', greedyLoop n A dc = some A' →
        A'.length = A.length + n ∧ A'.Pairwise (fun a b => a < b) ∧ A'.head? = some 0 ∧
        (∀ d, diffCount A' d ≤ 3) ∧ ∀ a ∈ A', a < MAX_DIFF := by
  intro n
  induction n with
  | zero =>
    intro A dc hs hh hv _ hlt A' h
    simp only [greedyLoop, Option.some.injEq] at h
    subst h
    exact ⟨rfl, hs, hh, hv, hlt⟩
  | succ n ih =>
    intro A dc hs hh hv hrec hlt A' h
    rw [greedyLoop] at h
    simp only [Option.bind_eq_bind, Option.bind_eq_some] at h
    obtain ⟨back, hback, ⟨v, dc1⟩, hnext, h⟩ := h
    have hnn : ∀ a ∈ A, 0 ≤ a := head_le_of_sorted hs hh
    have hle := le_getLast_of_sorted hs hback
    obtain ⟨h1, h2, h3, h4⟩ := greedyNext_spec hs hnn hv hh hrec _ (back + 1)
      (fun a ha => by have := hle a ha; omega) v dc1 hnext
    have hgt : ∀ a ∈ A, a < v := fun a ha => by have := hle a ha; omega
    obtain ⟨g1, g2, g3, g4, g5⟩ := ih (A ++ [v]) dc1 (sorted_concat hs hgt)
      (by rw [List.head?_append, hh]; rfl) h3 h4
      (by
        intro a ha
        rcases List.mem_append.mp ha with ha | ha
        · exact hlt a ha
        · rw [List.mem_singleton] at ha; subst ha; exact h2) A' h
    refine ⟨?_, g2, g3, g4, g5⟩
    rw [g1, List.length_append, List.length_singleton]
    omega

theorem get_greedy_spec {k : Int} (hk : 1 ≤ k) {r : Result} (h : get_greedy k = some r) :
    IsRuler k r.N r.witness ∧ r.N < MAX_DIFF := by
  unfold get_greedy at h
  simp only [Option.bind_eq_bind, Option.bind_eq_some, Option.some.injEq] at h
  obtain ⟨A, hA, back, hback, rfl⟩ := h
  obtain ⟨g1, g2, g3, g4, g5⟩ := greedyLoop_spec _ [0] _ (List.pairwise_singleton _ _) rfl
    (by intro d; simp [diffCount, pairDiffs]) (records_empty_singleton 0)
    (by intro a ha; rw [List.mem_singleton] at ha; subst ha; decide) A hA
  refine ⟨⟨?_, g3, hback, g2, g4⟩, g5 _ (List.mem_of_getLast?_eq_some hback)⟩
  rw [g1, List.length_singleton]
  push_cast
  omega

end SolverV1

/-! ## The branch-and-bound search of solverv1 -/

theorem IsRuler.getElem?_of_lt {k x : Int} {S : List Int} (h : IsRuler k x S) {i : Nat}
    (hi : (i : Int) < k) : ∃ y, S[i]? = some y := by
  have hl := h.1
  have hi' : i < S.length := by omega
  exact ⟨S[i], List.getElem?_eq_getElem hi'⟩

/-- A ruler of `k ≥ 2` elements ends after every ruler bound for `k - 1`. -/
theorem IsRuler.drop_last_bound {k x : Int} {S : List Int} (h : IsRuler k x S) (hk : 2 ≤ k)
    {g : Int} (hg : ∀ s y, IsRuler (k - 1) y s → g ≤ y) : g + 1 ≤ x := by
  obtain ⟨hlen, hhead, hlast, hsorted, hb⟩ := h
  have hlen2 : 2 ≤ S.length := by omega
  have hidx : S.length - 2 < S.length := by omega
  have hy : S[S.length - 2]? = some (S[S.length - 2]) := List.getElem?_eq_getElem hidx
  have hlast' : S[S.length - 1]? = some x := by rw [← List.getLast?_eq_getElem?]; exact hlast
  have hlt := sorted_getElem?_lt hsorted hy hlast' (by omega)
  have hr : IsRuler (k - 1) (S[S.length - 2]) (S.take (S.length - 1)) := by
    refine ⟨?_, ?_, ?_, ?_⟩
    · rw [List.length_take]; omega
    · rw [head?_take_pos _ _ (by omega)]; exact hhead
    · rw [List.getLast?_take, if_neg (by omega)]
      have : S.length - 1 - 1 = S.length - 2 := by omega
      rw [this, hy]; rfl
    · exact Valid.sublist (List.take_sublist _ _) ⟨hsorted, hb⟩
  have := hg _ _ hr
  omega

namespace SolverV1

theorem dfsLoop_spec (G : Int → Int) (k : Int) (hG : LookupOK G k)
    (rec : List Int → DfsState → Option DfsState) (A : List Int)
    (hA1 : 1 ≤ A.length) (hAk : (A.length : Int) < k) (hhead : A.head? = some 0)
    (hvalid : Valid 3 A) (dc : List Int) (hrec : Records dc A)
    (IH : ∀ (val : Int) (st : DfsState), DfsPre k (A ++ [val]) st →
      ∃ st', rec (A ++ [val]) st = some st' ∧ DfsPost G k (A ++ [val]) st st') :
    ∀ (n : Nat) (val : Int) (st : DfsState), st.diff_counts = dc →
      IsRuler k st.best_N st.best_witness → st.best_N < MAX_DIFF →
      (∀ a ∈ A, a < val) →
      (st.best_N - G (k - A.length) - val + 1).toNat ≤ n →
      (∀ S x, IsRuler k x S → S.take A.length = A →
        ∀ y, S[A.length]? = some y → y < val → st.best_N ≤ x) →
      ∃ st', dfsLoop rec G A k (G (k - A.length)) n val st = some st' ∧
        st'.diff_counts = dc ∧ IsRuler k st'.best_N st'.best_witness ∧
        st'.best_N ≤ st.best_N ∧
        (st'.best_N = G (k - 1) + 1 ∨
          ∀ S x, IsRuler k x S → S.take A.length = A → st'.best_N ≤ x) := by
  have hgrem := hG (k - A.length) (by omega) (by omega)
  -- once the loop condition fails, every remaining ruler ends too late
  have hexit : ∀ (val : Int) (st : DfsState), ¬ val ≤ st.best_N - G (k - A.length) →
      (∀ S x, IsRuler k x S → S.take A.length = A →
        ∀ y, S[A.length]? = some y → y < val → st.best_N ≤ x) →
      ∀ S x, IsRuler k x S → S.take A.length = A → st.best_N ≤ x := by
    intro val st hcond hcov S x hS hSA
    obtain ⟨y, hy⟩ := hS.getElem?_of_lt hAk
    by_cases hyv : y < val
    · exact hcov S x hS hSA y hy hyv
    · have := hgrem.2 _ _ (hS.suffix hy)
      omega
  intro n
  induction n with
  | zero =>
    intro val st hdc hbest hbN hgt hmeas hcov
    have hcond : ¬ val ≤ st.best_N - G (k - A.length) := by omega
    refine ⟨st, ?_, hdc, hbest, le_refl _, Or.inr (hexit val st hcond hcov)⟩
    rw [dfsLoop, if_neg hcond]
  | succ n ih =>
    intro val st hdc hbest hbN hgt hmeas hcov
    by_cases hcond : val ≤ st.best_N - G (k - A.length)
    · -- the body
      have hnn : ∀ a ∈ A, 0 ≤ a := head_le_of_sorted hvalid.1 hhead
      obtain ⟨b, dc1, hta, hiff, hrec1, hfalse⟩ :=
        try_add_records hvalid.1 hnn hgt (by have := hgrem.1; omega) hrec hvalid.2
      have hbody : ∃ st2, dfsBody rec A val st = some st2 ∧ st2.diff_counts = dc ∧
          IsRuler k st2.best_N st2.best_witness ∧ st2.best_N ≤ st.best_N ∧
          (st2.best_N = G (k - 1) + 1 ∨
            ∀ S x, IsRuler k x S → S.take A.length = A → S[A.length]? = some val →
              st2.best_N ≤ x) := by
        cases b with
        | true =>
          have hpre : DfsPre k (A ++ [val]) { st with diff_counts := dc1 } := by
            refine ⟨?_, ?_, ⟨sorted_concat hvalid.1 hgt, hiff.mp rfl⟩, hrec1 rfl, hbest, hbN⟩
            · rw [List.length_append, List.length_singleton]; push_cast; omega
            · rw [List.head?_append, hhead]; rfl
          obtain ⟨st1, hrec', hd1, hb1, hle1, hex1⟩ := IH val _ hpre
          simp only at hd1 hle1
          have hrm : remove_val val A st1.diff_counts = some dc := by
            rw [hd1]; exact remove_val_try_add hta
          refine ⟨{ st1 with diff_counts := dc }, ?_, rfl, hb1, hle1, ?_⟩
          · unfold dfsBody
            rw [hdc, hta]
            simp only [Option.bind_eq_bind, Option.some_bind, if_true, hrec', hrm]
          · rcases hex1 with h | h
            · exact Or.inl h
            · refine Or.inr (fun S x hS hSA hSv => h S x hS ?_)
              rw [List.length_append, List.length_singleton, take_succ_of_getElem? hSv, hSA]
        | false =>
          refine ⟨st, ?_, hdc, hbest, le_refl _, Or.inr ?_⟩
          · unfold dfsBody
            rw [hdc, hta]
            simp only [Option.bind_eq_bind, Option.some_bind, Bool.false_eq_true, if_false,
              hfalse rfl]
            rw [← hdc]
          · intro S x hS hSA hSv
            exfalso
            have hv := (hS.take_valid (A.length + 1)).2
            rw [take_succ_of_getElem? hSv, hSA] at hv
            have := hiff.mpr hv
            exact Bool.noConfusion this
      obtain ⟨st2, hst2, hd2, hb2, hle2, hex2⟩ := hbody
      rw [dfsLoop, if_pos hcond]
      simp only [Option.bind_eq_bind, hst2, Option.some_bind]
      by_cases hdone : st2.best_N = G (k - 1) + 1
      · rw [if_pos hdone]
        exact ⟨st2, rfl, hd2, hb2, hle2, Or.inl hdone⟩
      · rw [if_neg hdone]
        have hex2' := hex2.resolve_left hdone
        obtain ⟨st', h1, h2, h3, h4, h5⟩ := ih (val + 1) st2 hd2 hb2 (by omega)
          (fun a ha => by have := hgt a ha; omega) (by omega)
          (by
            intro S x hS hSA y hy hyv
            by_cases hyval : y = val
            · subst hyval
              exact hex2' S x hS hSA hy
            · have := hcov S x hS hSA y hy (by omega)
              omega)
        exact ⟨st', h1, h2, h3, by omega, h5⟩
    · refine ⟨st, ?_, hdc, hbest, le_refl _, Or.inr (hexit val st hcond hcov)⟩
      rw [dfsLoop, if_neg hcond]

theorem dfs_spec (G : Int → Int) (k : Int) (hG : LookupOK G k) :
    ∀ (fuel : Nat) (A : List Int) (st : DfsState), DfsPre k A st →
      (k - A.length).toNat + 1 ≤ fuel →
      ∃ st', dfs G k fuel A st = some st' ∧ DfsPost G k A st st' := by
  intro fuel
  induction fuel with
  | zero => intro A st _ hf; omega
  | succ fuel IH =>
    intro A st hpre hf
    obtain ⟨hlen, hhead, hvalid, hrec, hbest, hbN⟩ := hpre
    have hA1 : 1 ≤ A.length := by
      cases A with
      | nil => simp at hhead
      | cons _ _ => simp
    obtain ⟨back, hback⟩ : ∃ back, A.getLast? = some back := by
      cases hl : A.getLast? with
      | none =>
        rw [List.getLast?_eq_none_iff] at hl
        subst hl; simp at hA1
      | some b => exact ⟨b, rfl⟩
    rw [dfs]
    simp only [Option.bind_eq_bind, hback, Option.some_bind]
    by_cases hleaf : (A.length : Int) = k
    · rw [if_pos hleaf]
      have hAr : IsRuler k back A := ⟨hleaf, hhead, hback, hvalid⟩
      have hSA : ∀ S x, IsRuler k x S → S.take A.length = A → x = back := by
        intro S x hS hSA
        have : S.length = A.length := by have := hS.1; omega
        rw [← this, List.take_length] at hSA
        subst hSA
        have := hS.2.2.1
        rw [hback] at this
        exact (Option.some.inj this).symm
      by_cases hlt : back < st.best_N
      · rw [if_pos hlt]
        refine ⟨_, rfl, rfl, hAr, by simp only; omega, Or.inr ?_⟩
        intro S x hS hS'
        rw [hSA S x hS hS']
      · rw [if_neg hlt]
        refine ⟨st, rfl, rfl, hbest, le_refl _, Or.inr ?_⟩
        intro S x hS hS'
        rw [hSA S x hS hS']
        omega
    · rw [if_neg hleaf]
      have hAk : (A.length : Int) < k := by omega
      have hle := le_getLast_of_sorted hvalid.1 hback
      obtain ⟨st', h1, h2, h3, h4, h5⟩ := dfsLoop_spec G k hG (dfs G k fuel) A hA1 hAk hhead
        hvalid st.diff_counts hrec
        (fun val st1 hpre1 => IH (A ++ [val]) st1 hpre1 (by
          rw [List.length_append, List.length_singleton]; push_cast; omega))
        (st.best_N - G (k - A.length) - (back + 1) + 1).toNat (back + 1) st rfl hbest hbN
        (fun a ha => by have := hle a ha; omega) (le_refl _)
        (by
          intro S x hS hSA y hy hyv
          exfalso
          have hb' : S[A.length - 1]? = some back := by
            rw [getElem?_of_take_eq (A := A) (n := A.length) (by rw [hSA, List.take_length])
              (by omega), ← List.getLast?_eq_getElem?]
            exact hback
          have := sorted_getElem?_lt hS.2.2.2.1 hb' hy (by omega)
          omega)
      exact ⟨st', h1, h2, h3, h4, h5⟩

end SolverV1

theorem IsRuler.take_two {k x : Int} {S : List Int} (h : IsRuler k x S) {y : Int}
    (hy : S[1]? = some y) : S.take 2 = [0, y] := by
  obtain ⟨_, hhead, _⟩ := h
  cases S with
  | nil => simp at hhead
  | cons a t =>
    simp only [List.head?_cons, Option.some.injEq] at hhead
    subst hhead
    cases t with
    | nil => simp at hy
    | cons b u =>
      simp only [List.getElem?_cons_succ, List.getElem?_cons_zero, Option.some.injEq] at hy
      subst hy
      rfl

/-- Of a ruler of at least three elements and its mirror image, one has its
second element in the lower half of the span. -/
theorem IsRuler.second_le_half {k x : Int} {S : List Int} (h : IsRuler k x S) (hk : 3 ≤ k) :
    ∃ T y, IsRuler k x T ∧ T[1]? = some y ∧ y ≤ x / 2 := by
  obtain ⟨y, hy⟩ := h.getElem?_of_lt (i := 1) (by omega)
  by_cases hsym : y ≤ x / 2
  · exact ⟨S, y, h, hy, hsym⟩
  · have hSlen := h.1
    have hidx : S.length - 1 - 1 < S.length := by omega
    refine ⟨_, x - S[S.length - 1 - 1], h.reflect, ?_, ?_⟩
    · rw [List.getElem?_reverse (by simp; omega), List.getElem?_map]
      simp only [List.length_map]
      rw [List.getElem?_eq_getElem hidx]
      rfl
    · have hle : y ≤ S[S.length - 1 - 1] := by
        by_cases h3 : S.length - 1 - 1 = 1
        · have h4 : S[1]? = some S[S.length - 1 - 1] := by
            rw [List.getElem?_eq_getElem (by omega)]
            simp only [h3]
          rw [hy] at h4
          simp only [Option.some.injEq] at h4
          omega
        · have := sorted_getElem?_lt h.2.2.2.1 hy (List.getElem?_eq_getElem hidx) (by omega)
          omega
      omega

namespace SolverV1

theorem records_pair {val1 : Int} (h1 : 1 ≤ val1) :
    Records ((List.replicate MAX_DIFF 0).set val1.toNat 1) [0, val1] := by
  refine ⟨by simp, fun d hd => ?_⟩
  have hdc : diffCount [0, val1] (d : Int) = if val1 = (d : Int) then 1 else 0 := by
    simp [diffCount, pairDiffs, List.count_cons]
  rw [hdc, List.getElem?_set]
  by_cases hv : val1.toNat = d
  · rw [if_pos hv, if_pos (by simp; omega), if_pos (by omega)]
    rfl
  · rw [if_neg hv, if_neg (by omega), List.getElem?_replicate, if_pos hd]
    rfl

theorem partLoop_spec (G : Int → Int) (k : Int) (hG : LookupOK G k) (hk : 3 ≤ k) :
    ∀ (n : Nat) (val1 best_N : Int) (best_witness : List Int),
      IsRuler k best_N best_witness → best_N < MAX_DIFF → 1 ≤ val1 →
      (best_N / 2 - val1 + 1).toNat ≤ n →
      (best_N = G (k - 1) + 1 ∨
        ∀ S x, IsRuler k x S → ∀ y, S[1]? = some y → y < val1 → best_N ≤ x) →
      ∃ r, partLoop G k n val1 best_N best_witness = some r ∧ IsRuler k r.1 r.2 ∧
        (r.1 = G (k - 1) + 1 ∨
          ∀ S x, IsRuler k x S → ∀ y, S[1]? = some y → y ≤ r.1 / 2 → r.1 ≤ x) := by
  have hlow : ∀ x S, IsRuler k x S → G (k - 1) + 1 ≤ x := by
    intro x S hS
    exact hS.drop_last_bound (by omega) (hG (k - 1) (by omega) (by omega)).2
  intro n
  induction n with
  | zero =>
    intro val1 bN bw hbest hbN hv1 hmeas hcov
    have hnn : 0 ≤ bN := by have := hbest.span_ge; omega
    have hcond : ¬ val1 ≤ Int.tdiv bN 2 := by
      rw [Int.tdiv_eq_ediv hnn (by norm_num)]; omega
    refine ⟨(bN, bw), ?_, hbest, ?_⟩
    · rw [partLoop, if_neg hcond]
    · rcases hcov with h | h
      · exact Or.inl h
      · exact Or.inr (fun S x hS y hy hyle => h S x hS y hy (by
          rw [Int.tdiv_eq_ediv hnn (by norm_num)] at hcond; omega))
  | succ n ih =>
    intro val1 bN bw hbest hbN hv1 hmeas hcov
    have hnn : 0 ≤ bN := by have := hbest.span_ge; omega
    have htd : Int.tdiv bN 2 = bN / 2 := Int.tdiv_eq_ediv hnn (by norm_num)
    by_cases hcond : val1 ≤ Int.tdiv bN 2
    · rw [htd] at hcond
      have hv500 : val1 < MAX_DIFF := by omega
      have hwr : wr (List.replicate MAX_DIFF 0) val1 1
          = some ((List.replicate MAX_DIFF 0).set val1.toNat 1) :=
        wr_eq 1 (by omega) (by simp; omega)
      have hpre : DfsPre k [0, val1]
          { diff_counts := (List.replicate MAX_DIFF 0).set val1.toNat 1, best_N := bN,
            best_witness := bw } := by
        refine ⟨by simp; omega, rfl, ⟨?_, ?_⟩, records_pair hv1, hbest, hbN⟩
        · simp; omega
        · intro d
          simp only [diffCount, pairDiffs, List.map_cons, List.map_nil, List.append_nil,
            List.count_cons, List.count_nil]
          split <;> simp
      obtain ⟨st', hdfs, _, hb', hle', hex'⟩ := dfs_spec G k hG k.toNat [0, val1] _ hpre
        (by simp only [List.length_cons, List.length_nil]; omega)
      simp only at hle'
      obtain ⟨r, hr, hr1, hr2⟩ := ih (val1 + 1) st'.best_N st'.best_witness hb' (by omega)
        (by omega) (by omega)
        (by
          rcases hcov with h | h
          · left
            have := hlow _ _ hb'
            omega
          · rcases hex' with h' | h'
            · exact Or.inl h'
            · right
              intro S x hS y hy hyv
              by_cases hyval : y = val1
              · subst hyval
                exact h' S x hS (hS.take_two hy)
              · have := h S x hS y hy (by omega)
                omega)
      refine ⟨r, ?_, hr1, hr2⟩
      rw [partLoop, if_pos (by rw [htd]; exact hcond)]
      simp only [Option.bind_eq_bind, hwr, Option.some_bind, hdfs]
      exact hr
    · refine ⟨(bN, bw), ?_, hbest, ?_⟩
      · rw [partLoop, if_neg hcond]
      · rcases hcov with h | h
        · exact Or.inl h
        · exact Or.inr (fun S x hS y hy hyle => h S x hS y hy (by rw [htd] at hcond; omega))

/-- C4 (global minimisation in solverv1, partitions run one after another).
For every `k ≥ 5`, when `G_lookup[j]` for `1 ≤ j < k` holds a non-negative lower
bound on the span of the valid `j`-element sequences (`LookupOK`, as `main`
populates it) and the greedy seed stays inside `diff_counts` (so that every
difference of the run stays below `MAX_DIFF`), `solve_G_minus(k)` returns
`(N, witness)` where `witness` is a strictly increasing `k`-element sequence from
`0` to `N` in which every difference occurs at most 3 times, and no valid
`k`-element sequence starting at `0` ends before `N`. -/
theorem solve_G_minus_minimal (G_lookup : Int → Int) (k : Int) (hk : 5 ≤ k)
    (hG : LookupOK G_lookup k) (hrange : (get_greedy k).isSome = true) :
    ∃ N witness, solve_G_minus G_lookup k = some { N := N, witness := witness } ∧
      (witness.length : Int) = k ∧ witness.head? = some 0 ∧ witness.getLast? = some N ∧
      witness.Pairwise (fun a b => a < b) ∧ (∀ d, diffCount witness d ≤ 3) ∧
      ∀ s x, IsRuler k x s → N ≤ x := by
  obtain ⟨r0, hr0⟩ := Option.isSome_iff_exists.mp hrange
  obtain ⟨hruler0, hlt0⟩ := get_greedy_spec (by omega) hr0
  have hnn0 : 0 ≤ r0.N := by have := hruler0.span_ge; omega
  obtain ⟨r, hr, hruler, hmin⟩ := partLoop_spec G_lookup k hG (by omega)
    (Int.tdiv r0.N 2).toNat 1 r0.N r0.witness hruler0 hlt0 (le_refl _)
    (by rw [Int.tdiv_eq_ediv hnn0 (by norm_num)]; omega)
    (by
      right
      intro S x hS y hy hy1
      exfalso
      have h0 : S[0]? = some 0 := by rw [← List.head?_eq_getElem?]; exact hS.2.1
      have := sorted_getElem?_lt hS.2.2.2.1 h0 hy (by omega)
      omega)
  refine ⟨r.1, r.2, ?_, hruler.1, hruler.2.1, hruler.2.2.1, hruler.2.2.2.1, hruler.2.2.2.2, ?_⟩
  · unfold solve_G_minus
    rw [if_neg (by simp only [GAMMA]; omega)]
    simp only [Option.bind_eq_bind, hr0, Option.some_bind, hr]
  · intro s x hs
    rcases hmin with h | h
    · have := hs.drop_last_bound (by omega) (hG (k - 1) (by omega) (by omega)).2
      omega
    · by_contra hlt
      obtain ⟨T, y, hT, hy, hyle⟩ := hs.second_le_half (by omega)
      have := h T x hT y hy (by omega)
      omega

theorem lookupOK_five : LookupOK (fun j => j - 1) 5 := by
  intro j hj1 _
  exact ⟨by show (0 : Int) ≤ j - 1; omega, fun s x hs => hs.span_ge⟩

set_option maxRecDepth 100000 in
theorem solve_G_minus_minimal_witness :
    ∃ N witness, solve_G_minus (fun j => j - 1) 5 = some { N := N, witness := witness } ∧
      (witness.length : Int) = 5 ∧ witness.head? = some 0 ∧ witness.getLast? = some N ∧
      witness.Pairwise (fun a b => a < b) ∧ (∀ d, diffCount witness d ≤ 3) ∧
      ∀ s x, IsRuler 5 x s → N ≤ x :=
  solve_G_minus_minimal (fun j => j - 1) 5 (by decide) lookupOK_five (by decide)

end SolverV1

namespace Validator

/-! ## The validator -/

theorem countOf_eq_zero_of_lt {m : List (Int × Int)} {d : Int}
    (h : ∀ p ∈ m, d < p.1) : countOf m d = 0 := by
  induction m with
  | nil => rfl
  | cons p t ih =>
    obtain ⟨key, c⟩ := p
    have h1 := h (key, c) (List.mem_cons_self _ _)
    simp only at h1
    rw [countOf, if_neg (by omega)]
    exact ih (fun q hq => h q (List.mem_cons_of_mem _ hq))

theorem mem_iff_countOf {m : List (Int × Int)} (hs : m.Pairwise (fun p q => p.1 < q.1))
    (hp : ∀ p ∈ m, 1 ≤ p.2) (d c : Int) :
    (d, c) ∈ m ↔ (c = countOf m d ∧ 1 ≤ c) := by
  induction m with
  | nil =>
    simp only [List.not_mem_nil, countOf, false_iff, not_and]
    intro h; omega
  | cons q t ih =>
    obtain ⟨key, c0⟩ := q
    rw [List.pairwise_cons] at hs
    have hc0 := hp (key, c0) (List.mem_cons_self _ _)
    have ih' := ih hs.2 (fun p h => hp p (List.mem_cons_of_mem _ h))
    simp only at hc0
    by_cases hdk : d = key
    · subst hdk
      rw [countOf, if_pos rfl]
      constructor
      · intro h
        rcases List.mem_cons.mp h with h | h
        · simp only [Prod.mk.injEq, true_and] at h
          subst h; exact ⟨rfl, hc0⟩
        · have := hs.1 _ h
          simp only at this
          omega
      · rintro ⟨rfl, _⟩
        exact List.mem_cons_self _ _
    · rw [countOf, if_neg hdk, ← ih']
      constructor
      · intro h
        rcases List.mem_cons.mp h with h | h
        · simp only [Prod.mk.injEq] at h
          exact absurd h.1 hdk
        · exact h
      · intro h; exact List.mem_cons_of_mem _ h

/-- The statement `diff_counts[diff]++`: it is defined exactly when the count
of `diff` is below `INT_MAX`; it keeps the keys strictly increasing and the
counts positive, and adds one to the count of `diff`. -/
theorem mapIncr_spec (x : Int) :
    ∀ (m : List (Int × Int)), m.Pairwise (fun p q => p.1 < q.1) → (∀ p ∈ m, 1 ≤ p.2) →
      (countOf m x < INT_MAX →
        ∃ m', mapIncr m x = some m' ∧ m'.Pairwise (fun p q => p.1 < q.1) ∧
          (∀ p ∈ m', 1 ≤ p.2) ∧
          ∀ d, countOf m' d = countOf m d + (if d = x then 1 else 0)) ∧
      (INT_MAX ≤ countOf m x → mapIncr m x = none) := by
  intro m
  induction m with
  | nil =>
    intro _ _
    refine ⟨fun _ => ⟨[(x, 1)], rfl, List.pairwise_singleton _ _, ?_, ?_⟩, ?_⟩
    · intro p hp
      rw [List.mem_singleton] at hp
      subst hp; exact le_refl _
    · intro d
      simp only [countOf, Int.zero_add]
    · intro h
      simp only [countOf, INT_MAX] at h
      omega
  | cons q t ih =>
    obtain ⟨key, c⟩ := q
    intro hs hp
    rw [List.pairwise_cons] at hs
    have hc : 1 ≤ c := hp (key, c) (List.mem_cons_self _ _)
    have ht : ∀ p ∈ t, 1 ≤ p.2 := fun p h => hp p (List.mem_cons_of_mem _ h)
    by_cases h1 : x < key
    · have hz : countOf ((key, c) :: t) x = 0 := by
        apply countOf_eq_zero_of_lt
        intro p hp'
        rcases List.mem_cons.mp hp' with rfl | hp'
        · exact h1
        · have := hs.1 p hp'
          omega
      have hrun : mapIncr ((key, c) :: t) x = some ((x, 1) :: (key, c) :: t) := by
        rw [mapIncr, if_pos h1]
      refine ⟨fun _ => ⟨_, hrun, ?_, ?_, ?_⟩, ?_⟩
      · rw [List.pairwise_cons]
        refine ⟨?_, List.pairwise_cons.mpr hs⟩
        intro p hp'
        rcases List.mem_cons.mp hp' with rfl | hp'
        · exact h1
        · have := hs.1 p hp'
          show x < p.1
          omega
      · intro p hp'
        rcases List.mem_cons.mp hp' with rfl | hp'
        · exact le_refl _
        · exact hp p hp'
      · intro d
        by_cases hdx : d = x
        · subst hdx
          rw [hz]
          simp [countOf]
        · rw [countOf, if_neg hdx, if_neg hdx, Int.add_zero]
      · intro h
        rw [hz] at h
        simp only [INT_MAX] at h
        omega
    · by_cases h2 : x = key
      · subst h2
        have hcx : countOf ((x, c) :: t) x = c := by rw [countOf, if_pos rfl]
        refine ⟨fun hlt => ?_, fun hge => ?_⟩
        · rw [hcx] at hlt
          refine ⟨(x, c + 1) :: t, ?_, ?_, ?_, ?_⟩
          · rw [mapIncr, if_neg h1, if_pos rfl, if_pos hlt]
          · rw [List.pairwise_cons]
            exact ⟨hs.1, hs.2⟩
          · intro p hp'
            rcases List.mem_cons.mp hp' with rfl | hp'
            · show 1 ≤ c + 1
              omega
            · exact ht p hp'
          · intro d
            by_cases hdx : d = x
            · subst hdx; simp [countOf]
            · simp [countOf, hdx]
        · rw [hcx] at hge
          rw [mapIncr, if_neg h1, if_pos rfl, if_neg (by omega)]
      · have hcx : countOf ((key, c) :: t) x = countOf t x := by rw [countOf, if_neg h2]
        obtain ⟨ih1, ih2⟩ := ih hs.2 ht
        refine ⟨fun hlt => ?_, fun hge => ?_⟩
        · rw [hcx] at hlt
          obtain ⟨m1, hm1, hs1, hp1, hc1⟩ := ih1 hlt
          refine ⟨(key, c) :: m1, ?_, ?_, ?_, ?_⟩
          · rw [mapIncr, if_neg h1, if_neg h2, hm1]
            rfl
          · rw [List.pairwise_cons]
            refine ⟨?_, hs1⟩
            rintro ⟨d, c'⟩ hmem
            show key < d
            rw [mem_iff_countOf hs1 hp1, hc1 d] at hmem
            by_cases hdx : d = x
            · omega
            · rw [if_neg hdx, Int.add_zero] at hmem
              have := hs.1 (d, c') ((mem_iff_countOf hs.2 ht d c').mpr hmem)
              exact this
          · intro p hp'
            rcases List.mem_cons.mp hp' with rfl | hp'
            · exact hc
            · exact hp1 p hp'
          · intro d
            by_cases hdk : d = key
            · subst hdk
              have : ¬ d = x := fun h => h2 h.symm
              simp [countOf, this]
            · simp only [countOf, if_neg hdk]
              exact hc1 d
        · rw [hcx] at hge
          rw [mapIncr, if_neg h1, if_neg h2, ih2 hge]
          rfl

theorem absDiff_eq_some {sj si x : Int} (h : absDiff sj si = some x) :
    x = |sj - si| ∧ |sj - si| ≤ INT_MAX := by
  unfold absDiff at h
  split at h
  · next hc =>
    exact ⟨(Option.some.inj h).symm, abs_le.mpr hc⟩
  · exact Option.noConfusion h

theorem absDiff_of_le {sj si : Int} (h : |sj - si| ≤ INT_MAX) :
    absDiff sj si = some |sj - si| := by
  unfold absDiff
  rw [if_pos (abs_le.mp h)]

/-- The inner loop, when nothing overflows: it keeps the keys strictly
increasing and the counts positive, and adds one to the count of every
`|sj - si|`. -/
theorem tallyFrom_some (si : Int) :
    ∀ (t : List Int) (m : List (Int × Int)),
      m.Pairwise (fun p q => p.1 < q.1) → (∀ p ∈ m, 1 ≤ p.2) →
      (∀ sj ∈ t, |sj - si| ≤ INT_MAX) →
      (∀ d, countOf m d + ((t.map (fun sj => |sj - si|)).count d : Nat) ≤ INT_MAX) →
      ∃ m', tallyFrom si t m = some m' ∧ m'.Pairwise (fun p q => p.1 < q.1) ∧
        (∀ p ∈ m', 1 ≤ p.2) ∧
        ∀ d, countOf m' d = countOf m d + ((t.map (fun sj => |sj - si|)).count d : Nat) := by
  intro t
  induction t with
  | nil => intro m hs hp _ _; exact ⟨m, rfl, hs, hp, fun d => by simp⟩
  | cons sj rest ih =>
    intro m hs hp hfit hcnt
    have hx := hfit sj (List.mem_cons_self _ _)
    have hlt : countOf m |sj - si| < INT_MAX := by
      have := hcnt |sj - si|
      simp only [List.map_cons, List.count_cons_self] at this
      push_cast at this
      omega
    obtain ⟨m1, hm1, hs1, hp1, hc1⟩ := (mapIncr_spec |sj - si| m hs hp).1 hlt
    have hstep : ∀ d, (if d = |sj - si| then (1 : Int) else 0)
        + ((rest.map (fun sj => |sj - si|)).count d : Nat)
        = (((sj :: rest).map (fun sj => |sj - si|)).count d : Nat) := by
      intro d
      simp only [List.map_cons, List.count_cons, beq_iff_eq]
      by_cases hd : d = |sj - si|
      · subst hd; simp; omega
      · have : ¬ |sj - si| = d := fun h => hd h.symm
        simp [hd, this]
    obtain ⟨m', hm', h1, h2, h3⟩ := ih m1 hs1 hp1
      (fun y hy => hfit y (List.mem_cons_of_mem _ hy))
      (fun d => by
        have := hcnt d
        rw [← hstep d] at this
        rw [hc1 d]
        omega)
    refine ⟨m', ?_, h1, h2, fun d => ?_⟩
    · rw [tallyFrom, absDiff_of_le hx]
      simp only [Option.bind_eq_bind, Option.some_bind, hm1]
      exact hm'
    · rw [h3 d, hc1 d, ← hstep d]
      omega

/-- The inner loop returns only when nothing overflows. -/
theorem tallyFrom_of_some (si : Int) :
    ∀ (t : List Int) (m m' : List (Int × Int)),
      m.Pairwise (fun p q => p.1 < q.1) → (∀ p ∈ m, 1 ≤ p.2) →
      (∀ d, countOf m d ≤ INT_MAX) → tallyFrom si t m = some m' →
      (∀ sj ∈ t, |sj - si| ≤ INT_MAX) ∧
      (∀ d, countOf m d + ((t.map (fun sj => |sj - si|)).count d : Nat) ≤ INT_MAX) := by
  intro t
  induction t with
  | nil =>
    intro m m' _ _ hb _
    exact ⟨fun sj h => absurd h (List.not_mem_nil sj), fun d => by simpa using hb d⟩
  | cons sj rest ih =>
    intro m m' hs hp hb h
    rw [tallyFrom] at h
    simp only [Option.bind_eq_bind, Option.bind_eq_some] at h
    obtain ⟨x, hx, m1, hm1, hrest⟩ := h
    obtain ⟨rfl, hxle⟩ := absDiff_eq_some hx
    have hlt : countOf m |sj - si| < INT_MAX := by
      by_contra hge
      rw [(mapIncr_spec |sj - si| m hs hp).2 (by omega)] at hm1
      exact Option.noConfusion hm1
    obtain ⟨m1', hm1', hs1, hp1, hc1⟩ := (mapIncr_spec |sj - si| m hs hp).1 hlt
    rw [hm1] at hm1'
    have he := Option.some.inj hm1'
    subst he
    have hb1 : ∀ d, countOf m1 d ≤ INT_MAX := by
      intro d
      rw [hc1 d]
      have := hb d
      by_cases hd : d = |sj - si|
      · subst hd; rw [if_pos rfl]; omega
      · rw [if_neg hd]; omega
    obtain ⟨g1, g2⟩ := ih m1 m' hs1 hp1 hb1 hrest
    refine ⟨?_, fun d => ?_⟩
    · intro y hy
      rcases List.mem_cons.mp hy with rfl | hy
      · exact hxle
      · exact g1 y hy
    · have := g2 d
      rw [hc1 d] at this
      simp only [List.map_cons, List.count_cons, beq_iff_eq]
      by_cases hd : d = |sj - si|
      · subst hd
        rw [if_pos rfl] at this
        simp only [if_true]
        push_cast
        omega
      · have hne : ¬ |sj - si| = d := fun h => hd h.symm
        rw [if_neg hd] at this
        simp only [hne, if_false]
        push_cast
        omega

theorem absDiffCount_cons (si : Int) (rest : List Int) (d : Int) :
    absDiffCount (si :: rest) d
      = (rest.map (fun sj => |sj - si|)).count d + absDiffCount rest d := by
  simp only [absDiffCount, pairDiffs, List.map_append, List.map_map, List.count_append]
  rfl

/-- The two loops, when nothing overflows: the map holds, for every `d`, the
number of index pairs `i < j` with `|s[j] - s[i]| = d`. -/
theorem tally_some :
    ∀ (s : List Int) (m : List (Int × Int)),
      m.Pairwise (fun p q => p.1 < q.1) → (∀ p ∈ m, 1 ≤ p.2) →
      (∀ x ∈ pairDiffs s, |x| ≤ INT_MAX) →
      (∀ d, countOf m d + (absDiffCount s d : Nat) ≤ INT_MAX) →
      ∃ m', tally s m = some m' ∧ m'.Pairwise (fun p q => p.1 < q.1) ∧
        (∀ p ∈ m', 1 ≤ p.2) ∧
        ∀ d, countOf m' d = countOf m d + (absDiffCount s d : Nat) := by
  intro s
  induction s with
  | nil =>
    intro m hs hp _ _
    exact ⟨m, rfl, hs, hp, fun d => by simp [absDiffCount, pairDiffs]⟩
  | cons si rest ih =>
    intro m hs hp hfit hcnt
    have hfit1 : ∀ sj ∈ rest, |sj - si| ≤ INT_MAX := by
      intro sj hsj
      apply hfit
      simp only [pairDiffs, List.mem_append, List.mem_map]
      exact Or.inl ⟨sj, hsj, rfl⟩
    have hfit2 : ∀ x ∈ pairDiffs rest, |x| ≤ INT_MAX := by
      intro x hx
      apply hfit
      simp only [pairDiffs, List.mem_append]
      exact Or.inr hx
    obtain ⟨m1, hm1, hs1, hp1, hc1⟩ := tallyFrom_some si rest m hs hp hfit1
      (fun d => by
        have := hcnt d
        rw [absDiffCount_cons] at this
        push_cast at this
        omega)
    obtain ⟨m', hm', g1, g2, g3⟩ := ih m1 hs1 hp1 hfit2
      (fun d => by
        have := hcnt d
        rw [absDiffCount_cons] at this
        push_cast at this
        rw [hc1 d]
        omega)
    refine ⟨m', ?_, g1, g2, fun d => ?_⟩
    · rw [tally, hm1]
      exact hm'
    · rw [g3 d, hc1 d, absDiffCount_cons]
      push_cast
      omega

/-- The two loops return only when nothing overflows. -/
theorem tally_of_some :
    ∀ (s : List Int) (m m' : List (Int × Int)),
      m.Pairwise (fun p q => p.1 < q.1) → (∀ p ∈ m, 1 ≤ p.2) →
      (∀ d, countOf m d ≤ INT_MAX) → tally s m = some m' →
      (∀ x ∈ pairDiffs s, |x| ≤ INT_MAX) ∧
      (∀ d, countOf m d + (absDiffCount s d : Nat) ≤ INT_MAX) := by
  intro s
  induction s with
  | nil =>
    intro m m' _ _ hb _
    exact ⟨fun x h => absurd h (List.not_mem_nil x),
      fun d => by simpa [absDiffCount, pairDiffs] using hb d⟩
  | cons si rest ih =>
    intro m m' hs hp hb h
    rw [tally] at h
    simp only [Option.bind_eq_bind, Option.bind_eq_some] at h
    obtain ⟨m1, hm1, hrest⟩ := h
    obtain ⟨f1, f2⟩ := tallyFrom_of_some si rest m m1 hs hp hb hm1
    obtain ⟨m1', hm1', hs1, hp1, hc1⟩ := tallyFrom_some si rest m hs hp f1 f2
    rw [hm1] at hm1'
    have he := Option.some.inj hm1'
    subst he
    have hb1 : ∀ d, countOf m1 d ≤ INT_MAX := fun d => by rw [hc1 d]; exact f2 d
    obtain ⟨g1, g2⟩ := ih m1 m' hs1 hp1 hb1 hrest
    refine ⟨?_, fun d => ?_⟩
    · intro x hx
      simp only [pairDiffs, List.mem_append, List.mem_map] at hx
      rcases hx with ⟨sj, hsj, rfl⟩ | hx
      · exact f1 sj hsj
      · exact g1 x hx
    · have := g2 d
      rw [hc1 d] at this
      rw [absDiffCount_cons]
      push_cast
      omega

end Validator

namespace Validator

/-- The map built from the empty map: it is returned exactly when no difference
and no count overflows, and then it holds the number of pairs of every
difference. -/
theorem tally_nil_spec (s : List Int) :
    (∀ m, tally s [] = some m →
      m.Pairwise (fun p q => p.1 < q.1) ∧ (∀ p ∈ m, 1 ≤ p.2) ∧
      (∀ d, countOf m d = (absDiffCount s d : Int)) ∧
      (∀ x ∈ pairDiffs s, |x| ≤ INT_MAX) ∧ ∀ d, (absDiffCount s d : Int) ≤ INT_MAX) ∧
    ((∀ x ∈ pairDiffs s, |x| ≤ INT_MAX) → (∀ d, (absDiffCount s d : Int) ≤ INT_MAX) →
      ∃ m, tally s [] = some m) := by
  have hnil : ∀ p ∈ ([] : List (Int × Int)), 1 ≤ p.2 := fun p hp => absurd hp (List.not_mem_nil p)
  have hfwd : (∀ x ∈ pairDiffs s, |x| ≤ INT_MAX) → (∀ d, (absDiffCount s d : Int) ≤ INT_MAX) →
      ∃ m, tally s [] = some m ∧ m.Pairwise (fun p q => p.1 < q.1) ∧ (∀ p ∈ m, 1 ≤ p.2) ∧
        ∀ d, countOf m d = (absDiffCount s d : Int) := by
    intro h1 h2
    obtain ⟨m, hm, g1, g2, g3⟩ := tally_some s [] List.Pairwise.nil hnil h1
      (fun d => by simpa [countOf] using h2 d)
    exact ⟨m, hm, g1, g2, fun d => by rw [g3 d]; simp [countOf]⟩
  refine ⟨fun m hm => ?_, fun h1 h2 => ?_⟩
  · obtain ⟨f1, f2⟩ := tally_of_some s [] m List.Pairwise.nil hnil
      (fun d => by simp [countOf, INT_MAX]) hm
    have f2' : ∀ d, (absDiffCount s d : Int) ≤ INT_MAX := fun d => by
      simpa [countOf] using f2 d
    obtain ⟨m', hm', g1, g2, g3⟩ := hfwd f1 f2'
    rw [hm] at hm'
    have he := Option.some.inj hm'
    subst he
    exact ⟨g1, g2, g3, f1, f2'⟩
  · obtain ⟨m, hm, _⟩ := hfwd h1 h2
    exact ⟨m, hm⟩

/-- The function `validate_gamma_set` returns exactly on the inputs on which
nothing overflows. -/
theorem validate_some_iff (gamma : Int) (s : List Int) :
    (∃ r, validate_gamma_set gamma s = some r) ↔ NoOverflow s := by
  unfold validate_gamma_set NoOverflow
  constructor
  · rintro ⟨r, hr⟩
    split at hr
    · next hlen =>
      simp only [Option.bind_eq_bind, Option.bind_eq_some] at hr
      obtain ⟨m, hm, _⟩ := hr
      obtain ⟨_, _, _, h1, h2⟩ := (tally_nil_spec s).1 m hm
      exact ⟨hlen, h1, h2⟩
    · exact Option.noConfusion hr
  · rintro ⟨hlen, h1, h2⟩
    obtain ⟨m, hm⟩ := (tally_nil_spec s).2 h1 h2
    rw [if_pos hlen, hm]
    exact ⟨_, rfl⟩

end Validator

/-! ## The two pruning tables -/

theorem le_of_pairwise_le {g : List Int} (hg : g.Pairwise (fun a b => a ≤ b)) {i j : Nat}
    (hij : i ≤ j) {a b : Int} (hi : g[i]? = some a) (hj : g[j]? = some b) : a ≤ b := by
  by_cases h : i = j
  · subst h
    rw [hi] at hj
    exact le_of_eq (Option.some.inj hj)
  · rw [List.pairwise_iff_getElem] at hg
    obtain ⟨hi', rfl⟩ := List.getElem?_eq_some.mp hi
    obtain ⟨hj', rfl⟩ := List.getElem?_eq_some.mp hj
    exact hg i j hi' hj' (by omega)

theorem g_min_span_v3_v2 (i : Int) (h16 : i ≤ 16) :
    rd SolverV3.g_min_span i = rd SolverV2.g_min_span i := by
  by_cases h0 : 0 ≤ i
  · have h : ∀ n : Nat, n ≤ 16 →
        rd SolverV3.g_min_span (n : Int) = rd SolverV2.g_min_span (n : Int) := by
      intro n hn
      interval_cases n <;> rfl
    have := h i.toNat (by omega)
    rwa [Int.toNat_of_nonneg h0] at this
  · unfold rd
    rw [if_neg h0, if_neg h0]

/-- C14 (the lower-bound table is monotone).  In solverv2 (indices 0..16) and
in solverv3 (indices 0..19), `g_min_span[i] ≤ g_min_span[j]` whenever `i ≤ j`,
and the two tables agree on every index 0..16. -/
theorem g_min_span_monotone :
    SolverV2.g_min_span.length = 17 ∧ SolverV3.g_min_span.length = 20 ∧
    (∀ i j : Nat, i ≤ j → j ≤ 16 → ∀ a b : Int,
      SolverV2.g_min_span[i]? = some a → SolverV2.g_min_span[j]? = some b → a ≤ b) ∧
    (∀ i j : Nat, i ≤ j → j ≤ 19 → ∀ a b : Int,
      SolverV3.g_min_span[i]? = some a → SolverV3.g_min_span[j]? = some b → a ≤ b) ∧
    (∀ i : Nat, i ≤ 16 → SolverV3.g_min_span[i]? = SolverV2.g_min_span[i]?) := by
  refine ⟨rfl, rfl, ?_, ?_, ?_⟩
  · intro i j hij _ a b hi hj
    exact le_of_pairwise_le (by decide) hij hi hj
  · intro i j hij _ a b hi hj
    exact le_of_pairwise_le (by decide) hij hi hj
  · intro i hi
    interval_cases i <;> rfl

namespace SolverV1

/-- C19 (rejection is atomic in solverv1).  For every `val`, `A` and
`diff_counts` with every index `val - a` (`a ∈ A`) inside `diff_counts`, the
call `try_add(val, A, diff_counts)` returns, and if it returns false,
`diff_counts` is left exactly as it was before the call. -/
theorem try_add_rejection_atomic (val : Int) (A dc : List Int)
    (hrange : ∀ a ∈ A, 0 ≤ val - a ∧ val - a < dc.length) :
    ∃ b dc', try_add val A dc = some (b, dc') ∧ (b = false → dc' = dc) := by
  obtain ⟨ok, hok, _⟩ := checkLoop_spec val dc A hrange
  unfold try_add
  rw [hok]
  cases ok with
  | false => exact ⟨false, dc, by simp, fun _ => rfl⟩
  | true =>
    obtain ⟨dc', hdc'⟩ := incrLoop_some val A dc hrange
    exact ⟨true, dc', by simp [hdc'], fun h => Bool.noConfusion h⟩

/-- An instance of the rejection: `4` cannot join `{0, 1, 2, 3}`, whose
difference `1` already occurs three times. -/
theorem try_add_rejection_atomic_witness :
    try_add 4 [0, 1, 2, 3] [0, 3, 2, 1, 0] = some (false, [0, 3, 2, 1, 0]) ∧
    ∃ b dc', try_add 4 [0, 1, 2, 3] [0, 3, 2, 1, 0] = some (b, dc') ∧
      (b = false → dc' = [0, 3, 2, 1, 0]) :=
  ⟨by decide, try_add_rejection_atomic 4 [0, 1, 2, 3] [0, 3, 2, 1, 0] (by decide)⟩

end SolverV1

/-! ## The masks of solverv2 simulate the counters of solverv1 -/

section MasksAndCounters
open SolverV2 SolverV1

/-- C16 (the bitmask tracker simulates the counter tracker).  Let `A[0..size-1]`
be strictly increasing (in an array with room for `A[size]`), `cand` greater
than its last element with `cand - A[0] ≤ 127`, `cs` a counter array (covering
the mask domain) with all entries in `0..3`, and `(m1, m2, m3)` masks with bit
`d` of `m_l` set iff `cs[d] ≥ l`.  A call of `backtrack` that passes the
pruning test and is not the closing step runs the candidate loop from
`last_val + 1` with itself as the nested call; and the candidate step for
`cand` (one turn of that loop, with any nested call `rec`) finds a conflict
exactly when `try_add(cand, A[0..size-1], cs)` returns false, and in
that case goes on to `cand + 1` without a nested call; otherwise it writes
`A[size] = cand` and makes the nested call with the masks
`next_m1 = m1 | new_diffs`, `next_m2 = m2 | (m1 & new_diffs)`,
`next_m3 = m3 | (m2 & new_diffs)`, and these masks stand in the same relation
to the counters updated by `try_add`. -/
theorem masks_simulate_counters (A : List Int) (size cand : Int) (cs : List Int)
    (m1 m2 m3 : Nat) (rec : List Int → Nat → Nat → Nat → Option (Bool × List Int)) (n : Nat)
    (hs0 : 0 ≤ size) (hsl : size < A.length)
    (hsorted : (A.take size.toNat).Pairwise (fun a b => a < b))
    (hgt : ∀ l, (A.take size.toNat).getLast? = some l → l < cand)
    (hdom : ∀ a0, (A.take size.toNat).head? = some a0 → cand - a0 ≤ 127)
    (hlen : 128 ≤ cs.length) (hc : ∀ v ∈ cs, 0 ≤ v ∧ v ≤ 3)
    (hrel : SimRel m1 m2 m3 cs) :
    (∀ (fuel : Nat) (k alpha last_val g1 g0 : Int),
      rd A (size - 1) = some last_val → rd g_min_span (k - size + 1) = some g1 →
      ¬ (last_val + g1 > alpha) → size ≠ k - 1 → rd g_min_span (k - size) = some g0 →
      backtrackAux (fuel + 1) A size m1 m2 m3 k alpha
        = candLoop (fun A1 n1 n2 n3 => backtrackAux fuel A1 (size + 1) n1 n2 n3 k alpha)
            size m1 m2 m3
            ((if size = 1 then min (alpha - g0) (Int.tdiv alpha 2) else alpha - g0)
              - last_val).toNat (last_val + 1) A) ∧
    ∃ conflict new_diffs b cs',
      diffLoop A m3 cand size.toNat 0 0 = some (conflict, new_diffs) ∧
      try_add cand (A.take size.toNat) cs = some (b, cs') ∧
      (conflict = true ↔ b = false) ∧
      (conflict = true →
        candLoop rec size m1 m2 m3 (n + 1) cand A
          = candLoop rec size m1 m2 m3 n (cand + 1) A) ∧
      (conflict = false →
        SimRel (m1 ||| new_diffs) (m2 ||| (m1 &&& new_diffs)) (m3 ||| (m2 &&& new_diffs)) cs' ∧
        candLoop rec size m1 m2 m3 (n + 1) cand A
          = (rec (A.set size.toNat cand) (m1 ||| new_diffs) (m2 ||| (m1 &&& new_diffs))
              (m3 ||| (m2 &&& new_diffs))).bind
            (fun r => if r.1 then some (true, r.2)
              else candLoop rec size m1 m2 m3 n (cand + 1) r.2)) := by
  refine ⟨?_, ?_⟩
  · intro fuel k alpha last_val g1 g0 hrd hg1 hprune hbase hg0
    rw [backtrackAux]
    simp only [Option.bind_eq_bind, hrd, Option.some_bind, hg1, if_neg hprune, if_neg hbase, hg0]
  generalize hP : A.take size.toNat = P at hsorted hgt hdom
  have hgt' : ∀ a ∈ P, a < cand := by
    intro a ha
    cases hl : P.getLast? with
    | none =>
      rw [List.getLast?_eq_none_iff] at hl
      subst hl
      simp at ha
    | some l =>
      have := le_getLast_of_sorted hsorted hl a ha
      have := hgt l hl
      omega
  have hrange : ∀ a ∈ P, 0 ≤ cand - a ∧ cand - a < 128 := by
    intro a ha
    have h1 := hgt' a ha
    cases hh : P.head? with
    | none =>
      rw [List.head?_eq_none_iff] at hh
      subst hh
      simp at ha
    | some a0 =>
      have := head_le_of_sorted hsorted hh a ha
      have := hdom a0 hh
      omega
  have hrange' : ∀ a ∈ P, 0 ≤ cand - a ∧ cand - a < cs.length := by
    intro a ha
    have := hrange a ha
    omega
  -- the candidate step of solverv2
  obtain ⟨conflict, nd, hdl, hciff, hnd⟩ := diffLoop_spec A m3 cand size.toNat 0 0 (by omega)
    (by rw [List.drop_zero, hP]; exact hrange)
  rw [List.drop_zero, hP] at hciff hnd
  have hskip : conflict = true →
      candLoop rec size m1 m2 m3 (n + 1) cand A
        = candLoop rec size m1 m2 m3 n (cand + 1) A := by
    intro hcf
    subst hcf
    rw [candLoop, hdl]
    simp
  have hwr : wr A size cand = some (A.set size.toNat cand) := wr_eq cand hs0 hsl
  have hcall : conflict = false →
      candLoop rec size m1 m2 m3 (n + 1) cand A
        = (rec (A.set size.toNat cand) (m1 ||| nd) (m2 ||| (m1 &&& nd))
            (m3 ||| (m2 &&& nd))).bind
          (fun r => if r.1 then some (true, r.2)
            else candLoop rec size m1 m2 m3 n (cand + 1) r.2) := by
    intro hcf
    subst hcf
    rw [candLoop, hdl]
    simp only [Option.bind_eq_bind, Option.some_bind, Bool.false_eq_true, if_false, hwr]
  -- try_add of solverv1
  obtain ⟨ok, hok, hokiff⟩ := checkLoop_spec cand cs P hrange'
  have hcell : ∀ a ∈ P, ∃ v, cs[(cand - a).toNat]? = some v := by
    intro a ha
    have := hrange' a ha
    exact ⟨cs[(cand - a).toNat], List.getElem?_eq_getElem (by omega)⟩
  have hbit3 : ∀ a ∈ P, ∀ v, cs[(cand - a).toNat]? = some v →
      (m3.testBit (cand - a).toNat = true ↔ 3 ≤ v) := by
    intro a ha v hv
    have := hrange a ha
    exact (hrel (cand - a).toNat v (by omega) hv).2.2
  have hagree : conflict = true ↔ ok = false := by
    rw [hciff]
    constructor
    · rintro ⟨a, ha, hb⟩
      cases hokc : ok with
      | false => rfl
      | true =>
        obtain ⟨v, hv⟩ := hcell a ha
        have h1 := hokiff.mp hokc a ha v hv
        have h2 := (hbit3 a ha v hv).mp hb
        omega
    · intro hokf
      by_contra hne
      push_neg at hne
      have : ok = true := by
        rw [hokiff]
        intro a ha v hv
        have h1 := hne a ha
        have h2 := hbit3 a ha v hv
        have h3 : ¬ 3 ≤ v := fun h => h1 (h2.mpr h)
        omega
      rw [this] at hokf
      exact Bool.noConfusion hokf
  unfold try_add
  rw [hok]
  cases ok with
  | false =>
    refine ⟨conflict, nd, false, cs, hdl, by simp, ?_, hskip, ?_⟩
    · rw [hagree]
    · intro hcf
      have := hagree.mpr rfl
      rw [hcf] at this
      exact Bool.noConfusion this
  | true =>
    obtain ⟨c', hc'⟩ := incrLoop_some cand P cs hrange'
    obtain ⟨hl', _, hp⟩ := incrLoop_spec cand P cs c' hc'
    have hcf : conflict = false := by
      cases hcc : conflict with
      | false => rfl
      | true =>
        have := hagree.mp hcc
        exact Bool.noConfusion this
    refine ⟨conflict, nd, true, c', hdl, by simp [hc'], ?_, hskip, fun h => ⟨?_, hcall h⟩⟩
    · rw [hcf]; simp
    · intro d v hd hv
      have hdlt : d < cs.length := by
        have := (List.getElem?_eq_some.mp hv).1
        omega
      have hcd : cs[d]? = some cs[d] := List.getElem?_eq_getElem hdlt
      have hv' := hp d _ hcd
      rw [hv] at hv'
      have hveq := Option.some.inj hv'
      obtain ⟨h1, h2, h3⟩ := hrel d _ hd hcd
      have hnn := hc cs[d] (List.getElem_mem hdlt)
      have hndd := hnd hcf d
      simp only [Nat.zero_testBit, Bool.false_eq_true, false_or] at hndd
      have hcount : (P.map (fun a => cand - a)).count (d : Int)
          = if cand - (d : Int) ∈ P then 1 else 0 := by
        rw [count_map_sub_left, List.count_eq_of_nodup (pairwise_lt_nodup hsorted)]
      have hmem : nd.testBit d = true ↔ cand - (d : Int) ∈ P := by
        rw [hndd]
        constructor
        · rintro ⟨a, ha, hda⟩
          have : cand - (d : Int) = a := by omega
          rw [this]; exact ha
        · intro h
          exact ⟨_, h, by omega⟩
      rw [hcount] at hveq
      simp only [Nat.testBit_or, Nat.testBit_and, Bool.or_eq_true, Bool.and_eq_true, h1, h2, h3,
        hmem]
      by_cases hin : cand - (d : Int) ∈ P
      · rw [if_pos hin] at hveq
        simp only [hin, and_true]
        have hno : ¬ 3 ≤ cs[d] := by
          intro h3'
          have hb : m3.testBit d = true := h3.mpr h3'
          have hconf : conflict = true := by
            rw [hciff]
            refine ⟨cand - (d : Int), hin, ?_⟩
            have : (cand - (cand - (d : Int))).toNat = d := by omega
            rw [this]; exact hb
          rw [hcf] at hconf
          exact Bool.noConfusion hconf
        push_cast at hveq
        refine ⟨⟨fun _ => by omega, fun _ => Or.inr trivial⟩, by omega, by omega⟩
      · rw [if_neg hin] at hveq
        simp only [hin, and_false, or_false]
        push_cast at hveq
        refine ⟨by omega, by omega, by omega⟩

/-- Instance of `masks_simulate_counters`: the first step of a search on the
32-cell array, `A[0] = 0`, `size = 1`, `cand = 1`, with all counters and all
masks empty and a nested call that reports success at once. -/
theorem masks_simulate_counters_witness :
    SimRel 0 0 0 (List.replicate 128 0) ∧
    (∀ (fuel : Nat) (k alpha last_val g1 g0 : Int),
      rd (List.replicate 32 0) (1 - 1) = some last_val →
      rd g_min_span (k - 1 + 1) = some g1 →
      ¬ (last_val + g1 > alpha) → (1 : Int) ≠ k - 1 → rd g_min_span (k - 1) = some g0 →
      backtrackAux (fuel + 1) (List.replicate 32 0) 1 0 0 0 k alpha
        = candLoop (fun A1 n1 n2 n3 => backtrackAux fuel A1 (1 + 1) n1 n2 n3 k alpha)
            1 0 0 0
            ((if (1 : Int) = 1 then min (alpha - g0) (Int.tdiv alpha 2) else alpha - g0)
              - last_val).toNat (last_val + 1) (List.replicate 32 0)) ∧
    ∃ conflict new_diffs b cs',
      diffLoop (List.replicate 32 0) 0 1 (1 : Int).toNat 0 0 = some (conflict, new_diffs) ∧
      try_add 1 ((List.replicate 32 0).take (1 : Int).toNat) (List.replicate 128 0)
        = some (b, cs') ∧
      (conflict = true ↔ b = false) ∧
      (conflict = true →
        candLoop (fun A1 _ _ _ => some (true, A1)) 1 0 0 0 (0 + 1) 1 (List.replicate 32 0)
          = candLoop (fun A1 _ _ _ => some (true, A1)) 1 0 0 0 0 (1 + 1)
              (List.replicate 32 0)) ∧
      (conflict = false →
        SimRel (0 ||| new_diffs) (0 ||| (0 &&& new_diffs)) (0 ||| (0 &&& new_diffs)) cs' ∧
        candLoop (fun A1 _ _ _ => some (true, A1)) 1 0 0 0 (0 + 1) 1 (List.replicate 32 0)
          = ((fun A1 _ _ _ => some (true, A1) :
                List Int → Nat → Nat → Nat → Option (Bool × List Int))
              ((List.replicate 32 0).set (1 : Int).toNat 1) (0 ||| new_diffs)
              (0 ||| (0 &&& new_diffs)) (0 ||| (0 &&& new_diffs))).bind
            (fun r => if r.1 then some (true, r.2)
              else candLoop (fun A1 _ _ _ => some (true, A1)) 1 0 0 0 0 (1 + 1) r.2)) :=
  have hrel : SimRel 0 0 0 (List.replicate 128 0) := by
    intro d v _ hv
    have hv0 : v = 0 := List.eq_of_mem_replicate (List.getElem?_mem hv)
    subst hv0
    simp
  have htake : (List.replicate 32 (0 : Int)).take (1 : Int).toNat = [0] := by decide
  ⟨hrel, masks_simulate_counters (List.replicate 32 0) 1 1 (List.replicate 128 0) 0 0 0
    (fun A1 _ _ _ => some (true, A1)) 0 (by decide) (by decide)
    (by rw [htake]; exact List.pairwise_singleton _ _)
    (by
      intro l hl
      rw [htake] at hl
      simp only [List.getLast?_singleton, Option.some.injEq] at hl
      omega)
    (by
      intro a0 h0
      rw [htake] at h0
      simp only [List.head?_cons, Option.some.injEq] at h0
      omega)
    (by simp) (by simp) hrel⟩

end MasksAndCounters

/-! ## Reflection symmetry -/

section Reflection
open Validator

/-- For a strictly increasing sequence the sorted reflection is the reversed
list of the values `alpha - x`. -/
theorem reflect_eq_reverse (alpha : Int) {S : List Int} (hS : S.Pairwise (fun a b => a < b)) :
    reflect alpha S = (S.map (fun x => alpha - x)).reverse := by
  unfold reflect
  have hrev : ((S.map (fun x => alpha - x)).reverse).Sorted (fun a b => a ≤ b) := by
    unfold List.Sorted
    rw [List.pairwise_reverse]
    exact List.Pairwise.map _ (fun a b hab => by omega) hS
  have hperm : ((S.map (fun x => alpha - x)).insertionSort (fun a b => a ≤ b)).Perm
      ((S.map (fun x => alpha - x)).reverse) :=
    (List.perm_insertionSort _ _).trans (List.reverse_perm _).symm
  exact List.eq_of_perm_of_sorted hperm (List.sorted_insertionSort _ _) hrev

theorem absDiffCount_sorted {s : List Int} (hs : s.Pairwise (fun a b => a < b)) (d : Int) :
    absDiffCount s d = diffCount s d := by
  unfold absDiffCount diffCount
  have : (pairDiffs s).map (fun x => |x|) = pairDiffs s := by
    conv_rhs => rw [← List.map_id (pairDiffs s)]
    apply List.map_congr_left
    intro x hx
    have := pairDiffs_pos hs x hx
    simp only [id]
    exact abs_of_pos this
  rw [this]

namespace Validator

/-- A map is determined by the counts it holds. -/
theorem map_ext {m1 m2 : List (Int × Int)}
    (hs1 : m1.Pairwise (fun p q => p.1 < q.1)) (hp1 : ∀ p ∈ m1, 1 ≤ p.2)
    (hs2 : m2.Pairwise (fun p q => p.1 < q.1)) (hp2 : ∀ p ∈ m2, 1 ≤ p.2)
    (h : ∀ d, countOf m1 d = countOf m2 d) : m1 = m2 := by
  have hmem : ∀ p, p ∈ m1 ↔ p ∈ m2 := by
    rintro ⟨d, c⟩
    rw [mem_iff_countOf hs1 hp1, mem_iff_countOf hs2 hp2, h d]
  have hn1 : m1.Nodup := hs1.imp (fun {p q} hpq heq => by rw [heq] at hpq; exact lt_irrefl _ hpq)
  have hn2 : m2.Nodup := hs2.imp (fun {p q} hpq heq => by rw [heq] at hpq; exact lt_irrefl _ hpq)
  have hperm : m1.Perm m2 := (List.perm_ext_iff_of_nodup hn1 hn2).mpr hmem
  have hs1' : m1.Pairwise (fun p q => p.1 ≤ q.1 ∧ (p.1 = q.1 → p = q)) :=
    hs1.imp (fun {p q} hpq => ⟨le_of_lt hpq, fun he => by omega⟩)
  have hs2' : m2.Pairwise (fun p q => p.1 ≤ q.1 ∧ (p.1 = q.1 → p = q)) :=
    hs2.imp (fun {p q} hpq => ⟨le_of_lt hpq, fun he => by omega⟩)
  haveI : IsAntisymm (Int × Int) (fun p q => p.1 ≤ q.1 ∧ (p.1 = q.1 → p = q)) :=
    ⟨fun p q hpq hqp => hpq.2 (le_antisymm hpq.1 hqp.1)⟩
  exact List.eq_of_perm_of_sorted hperm hs1' hs2'

end Validator

namespace Validator

/-- Whether a difference overflows can be read off the counts. -/
theorem fits_iff_counts (s : List Int) :
    (∀ x ∈ pairDiffs s, |x| ≤ INT_MAX) ↔ ∀ d, INT_MAX < d → absDiffCount s d = 0 := by
  constructor
  · intro h d hd
    unfold absDiffCount
    rw [List.count_eq_zero]
    intro hmem
    obtain ⟨x, hx, rfl⟩ := List.mem_map.mp hmem
    have := h x hx
    omega
  · intro h x hx
    by_contra hgt
    have h0 := h |x| (by omega)
    unfold absDiffCount at h0
    rw [List.count_eq_zero] at h0
    exact h0 (List.mem_map.mpr ⟨x, hx, rfl⟩)

/-- Two sequences with the same difference counts get the same map, or both
runs overflow. -/
theorem tally_congr {s1 s2 : List Int} (h : ∀ d, absDiffCount s1 d = absDiffCount s2 d) :
    tally s1 [] = tally s2 [] := by
  have hfit : (∀ x ∈ pairDiffs s1, |x| ≤ INT_MAX) ↔ (∀ x ∈ pairDiffs s2, |x| ≤ INT_MAX) := by
    rw [fits_iff_counts, fits_iff_counts]
    constructor
    · intro h1 d hd; rw [← h d]; exact h1 d hd
    · intro h1 d hd; rw [h d]; exact h1 d hd
  have hcnt : (∀ d, (absDiffCount s1 d : Int) ≤ INT_MAX)
      ↔ (∀ d, (absDiffCount s2 d : Int) ≤ INT_MAX) := by
    constructor
    · intro h1 d; rw [← h d]; exact h1 d
    · intro h1 d; rw [h d]; exact h1 d
  cases h1 : tally s1 [] with
  | none =>
    cases h2 : tally s2 [] with
    | none => rfl
    | some m2 =>
      obtain ⟨_, _, _, f1, f2⟩ := (tally_nil_spec s2).1 m2 h2
      obtain ⟨m1, hm1⟩ := (tally_nil_spec s1).2 (hfit.mpr f1) (hcnt.mpr f2)
      rw [h1] at hm1
      exact Option.noConfusion hm1
  | some m1 =>
    obtain ⟨a1, a2, a3, f1, f2⟩ := (tally_nil_spec s1).1 m1 h1
    obtain ⟨m2, hm2⟩ := (tally_nil_spec s2).2 (hfit.mp f1) (hcnt.mp f2)
    obtain ⟨b1, b2, b3, _, _⟩ := (tally_nil_spec s2).1 m2 hm2
    rw [hm2]
    congr 1
    exact map_ext a1 a2 b1 b2 (fun d => by rw [a3 d, b3 d, h d])

end Validator

theorem mem_pairDiffs {s : List Int} {x : Int} (hx : x ∈ pairDiffs s) :
    ∃ a ∈ s, ∃ b ∈ s, x = b - a := by
  induction s with
  | nil => simp [pairDiffs] at hx
  | cons a t ih =>
    simp only [pairDiffs, List.mem_append, List.mem_map] at hx
    rcases hx with ⟨b, hb, rfl⟩ | hx
    · exact ⟨a, List.mem_cons_self _ _, b, List.mem_cons_of_mem _ hb, rfl⟩
    · obtain ⟨a', ha', b', hb', rfl⟩ := ih hx
      exact ⟨a', List.mem_cons_of_mem _ ha', b', List.mem_cons_of_mem _ hb', rfl⟩

/-- In a strictly increasing sequence a difference occurs at most once for each
element. -/
theorem diffCount_le_length {s : List Int} (hs : s.Pairwise (fun a b => a < b)) (d : Int) :
    diffCount s d ≤ s.length := by
  induction s with
  | nil => simp [diffCount, pairDiffs]
  | cons a t ih =>
    rw [List.pairwise_cons] at hs
    have h1 := ih hs.2
    rw [diffCount_cons, count_map_sub_right, List.count_eq_of_nodup (pairwise_lt_nodup hs.2),
      List.length_cons]
    split <;> omega

/-- On a strictly increasing sequence from `0` to `alpha < INT_MAX` the run of
the validator does not overflow. -/
theorem noOverflow_of_sorted {alpha : Int} {S : List Int}
    (hsorted : S.Pairwise (fun a b => a < b)) (hhead : S.head? = some 0)
    (hlast : S.getLast? = some alpha) (ha : alpha < INT_MAX) : NoOverflow S := by
  have hlen : (S.length : Int) ≤ INT_MAX := by
    have hl := hlast
    rw [List.getLast?_eq_getElem?] at hl
    have := sorted_getElem?_ge hsorted _ _ _ hhead hl
    have hpos : 0 < S.length := by
      cases S with
      | nil => simp at hhead
      | cons _ _ => simp
    omega
  refine ⟨hlen, ?_, ?_⟩
  · intro x hx
    obtain ⟨a, ha', b, hb', rfl⟩ := mem_pairDiffs hx
    have h1 := head_le_of_sorted hsorted hhead a ha'
    have h2 := head_le_of_sorted hsorted hhead b hb'
    have h3 := le_getLast_of_sorted hsorted hlast a ha'
    have h4 := le_getLast_of_sorted hsorted hlast b hb'
    rw [abs_le]
    constructor <;> omega
  · intro d
    rw [absDiffCount_sorted hsorted]
    have : ((diffCount S d : Nat) : Int) ≤ S.length := by
      exact_mod_cast diffCount_le_length hsorted d
    omega

/-- C11 (reflection symmetry).  For every strictly increasing `S` with first
element `0` and last element `alpha`, and every `gamma`: the reflected sequence
`{alpha - x : x ∈ S}` sorted increasingly is strictly increasing, starts at `0`
and ends at `alpha`; every difference has the same number of occurrences in it
as in `S`, `validate_gamma_set` builds the same map of difference counts and
gives the same report (violations, verdict, max element) for both, and one is
valid (for any bound on the counts) exactly when the other is.  For
`alpha < INT_MAX` the run of `validate_gamma_set` does not overflow, so both
reports exist. -/
theorem reflection_symmetry (gamma alpha : Int) (S : List Int)
    (hsorted : S.Pairwise (fun a b => a < b)) (hhead : S.head? = some 0)
    (hlast : S.getLast? = some alpha) :
    (reflect alpha S).Pairwise (fun a b => a < b) ∧
    (reflect alpha S).head? = some 0 ∧
    (reflect alpha S).getLast? = some alpha ∧
    (∀ x, x ∈ reflect alpha S ↔ ∃ y ∈ S, x = alpha - y) ∧
    (∀ d, absDiffCount (reflect alpha S) d = absDiffCount S d) ∧
    tally (reflect alpha S) [] = tally S [] ∧
    validate_gamma_set gamma (reflect alpha S) = validate_gamma_set gamma S ∧
    (∀ g : Nat, Valid g (reflect alpha S) ↔ Valid g S) ∧
    (alpha < INT_MAX → ∃ r, validate_gamma_set gamma S = some r ∧
      validate_gamma_set gamma (reflect alpha S) = some r) := by
  have hR := reflect_eq_reverse alpha hsorted
  have hRs : (reflect alpha S).Pairwise (fun a b => a < b) := by
    rw [hR, List.pairwise_reverse]
    exact List.Pairwise.map _ (fun a b hab => by omega) hsorted
  have hRl : (reflect alpha S).getLast? = some alpha := by
    rw [hR, List.getLast?_reverse, List.head?_map, hhead]; simp
  have hRlen : (reflect alpha S).length = S.length := by
    rw [hR, List.length_reverse, List.length_map]
  have hcnt : ∀ d, absDiffCount (reflect alpha S) d = absDiffCount S d := by
    intro d
    rw [absDiffCount_sorted hRs, absDiffCount_sorted hsorted, hR, diffCount_reflect]
  have htally : tally (reflect alpha S) [] = tally S [] := Validator.tally_congr hcnt
  have hval : validate_gamma_set gamma (reflect alpha S) = validate_gamma_set gamma S := by
    unfold validate_gamma_set
    simp only [htally, hRl, hlast, hRlen]
  refine ⟨hRs, ?_, hRl, ?_, hcnt, htally, hval, ?_, ?_⟩
  · rw [hR, List.head?_reverse, List.getLast?_map, hlast]; simp
  · intro x
    rw [hR, List.mem_reverse, List.mem_map]
    constructor
    · rintro ⟨y, hy, rfl⟩; exact ⟨y, hy, rfl⟩
    · rintro ⟨y, hy, rfl⟩; exact ⟨y, hy, rfl⟩
  · intro g
    unfold Valid
    constructor
    · rintro ⟨_, hb⟩
      refine ⟨hsorted, fun d => ?_⟩
      have := hb d
      rw [hR, diffCount_reflect] at this
      exact this
    · rintro ⟨_, hb⟩
      refine ⟨hRs, fun d => ?_⟩
      rw [hR, diffCount_reflect]
      exact hb d
  · intro ha
    obtain ⟨r, hr⟩ := (validate_some_iff gamma S).mpr (noOverflow_of_sorted hsorted hhead hlast ha)
    exact ⟨r, hr, by rw [hval, hr]⟩

/-- Instance of `reflection_symmetry`: `S = [0, 1, 4, 6]`, `alpha = 6`, whose
reflection is `[0, 2, 5, 6]`. -/
theorem reflection_symmetry_witness :
    reflect 6 [0, 1, 4, 6] = [0, 2, 5, 6] ∧
    (reflect 6 [0, 1, 4, 6]).Pairwise (fun a b => a < b) ∧
    (reflect 6 [0, 1, 4, 6]).head? = some 0 ∧
    (reflect 6 [0, 1, 4, 6]).getLast? = some 6 ∧
    (∀ x, x ∈ reflect 6 [0, 1, 4, 6] ↔ ∃ y ∈ ([0, 1, 4, 6] : List Int), x = 6 - y) ∧
    (∀ d, absDiffCount (reflect 6 [0, 1, 4, 6]) d = absDiffCount [0, 1, 4, 6] d) ∧
    tally (reflect 6 [0, 1, 4, 6]) [] = tally [0, 1, 4, 6] [] ∧
    validate_gamma_set 3 (reflect 6 [0, 1, 4, 6]) = validate_gamma_set 3 [0, 1, 4, 6] ∧
    (∀ g : Nat, Valid g (reflect 6 [0, 1, 4, 6]) ↔ Valid g [0, 1, 4, 6]) ∧
    ((6 : Int) < INT_MAX → ∃ r, validate_gamma_set 3 [0, 1, 4, 6] = some r ∧
      validate_gamma_set 3 (reflect 6 [0, 1, 4, 6]) = some r) :=
  ⟨by decide, reflection_symmetry 3 6 [0, 1, 4, 6] (by decide) (by decide) (by decide)⟩

end Reflection

/-- Only the differences that occur have to be looked at. -/
theorem counts_le_iff (s : List Int) (g : Nat) :
    (∀ d, diffCount s d ≤ g) ↔ ∀ d ∈ pairDiffs s, diffCount s d ≤ g := by
  constructor
  · intro h d _; exact h d
  · intro h d
    by_cases hd : d ∈ pairDiffs s
    · exact h d hd
    · unfold diffCount
      rw [List.count_eq_zero_of_not_mem hd]
      exact Nat.zero_le _

namespace SolverV1

/-! ## The greedy seed takes the smallest admissible value at every step -/

/-- The `while (true)` loop stops at the smallest admissible value. -/
theorem greedyNext_complete {A dc : List Int} (hsorted : A.Pairwise (fun a b => a < b))
    (hnn : ∀ a ∈ A, 0 ≤ a) (hvalid : ∀ d, diffCount A d ≤ 3) (hrec : Records dc A) {v : Int}
    (hv : v < MAX_DIFF) (hvv : ∀ d, diffCount (A ++ [v]) d ≤ 3) :
    ∀ (n : Nat) (val : Int), (∀ a ∈ A, a < val) → val ≤ v → v - val < n →
      (∀ u, val ≤ u → u < v → ¬ ∀ d, diffCount (A ++ [u]) d ≤ 3) →
      ∃ dc', greedyNext A n val dc = some (v, dc') ∧ Records dc' (A ++ [v]) := by
  intro n
  induction n with
  | zero => intro val _ h1 h2 _; omega
  | succ n ih =>
    intro val hgt hle hfuel hmin
    obtain ⟨b, dc1, hta, hiff, hrec', hfalse⟩ :=
      try_add_records hsorted hnn hgt (by omega) hrec hvalid
    rw [greedyNext, hta]
    simp only [Option.bind_eq_bind, Option.some_bind]
    by_cases hval : val = v
    · subst hval
      have hb : b = true := hiff.mpr hvv
      subst hb
      exact ⟨dc1, by simp, hrec' rfl⟩
    · have hb : b = false := by
        cases hbb : b with
        | false => rfl
        | true => exact absurd (hiff.mp hbb) (hmin val (le_refl _) (by omega))
      subst hb
      rw [hfalse rfl]
      simp only [Bool.false_eq_true, if_false]
      exact ih (val + 1) (fun a ha => by have := hgt a ha; omega) (by omega) (by omega)
        (fun u hu1 hu2 => hmin u (by omega) hu2)

/-- Every non-empty initial segment of a greedy sequence is strictly increasing
and has every difference count at most 3. -/
theorem IsGreedy.initial_valid {G : List Int} (hG : IsGreedy G) :
    ∀ m : Nat, 1 ≤ m → m ≤ G.length →
      (G.take m).Pairwise (fun a b => a < b) ∧ (∀ d, diffCount (G.take m) d ≤ 3) ∧
      (G.take m).head? = some 0 := by
  intro m
  induction m with
  | zero => intro h; omega
  | succ m ih =>
    intro _ hm
    by_cases hm0 : m = 0
    · subst hm0
      have h0 : G[0]? = some 0 := by
        have := hG.1
        cases G with
        | nil => simp at this
        | cons a t => simpa using this
      rw [take_succ_of_getElem? h0]
      simp [diffCount, pairDiffs]
    · obtain ⟨i, rfl⟩ : ∃ i, m = i + 1 := ⟨m - 1, by omega⟩
      obtain ⟨h1, h2, h3⟩ := ih (by omega) (by omega)
      have hi : i < G.length := by omega
      have hi1 : i + 1 < G.length := by omega
      have hp : G[i]? = some G[i] := List.getElem?_eq_getElem hi
      have hv : G[i + 1]? = some G[i + 1] := List.getElem?_eq_getElem hi1
      obtain ⟨hlt, hval, _⟩ := hG.2 i _ _ hp hv
      rw [take_succ_of_getElem? hv]
      have hlast : (G.take (i + 1)).getLast? = some G[i] := by
        rw [take_succ_of_getElem? hp, List.getLast?_append]
        rfl
      have hle := le_getLast_of_sorted h1 hlast
      refine ⟨sorted_concat h1 (fun a ha => by have := hle a ha; omega), hval, ?_⟩
      rw [List.head?_append, h3]
      rfl

theorem greedyLoop_complete {G : List Int} (hG : IsGreedy G) (hdom : ∀ a ∈ G, a < MAX_DIFF) :
    ∀ (n m : Nat) (dc : List Int), 1 ≤ m → m + n = G.length → Records dc (G.take m) →
      greedyLoop n (G.take m) dc = some G := by
  intro n
  induction n with
  | zero =>
    intro m dc _ hm _
    rw [greedyLoop, List.take_of_length_le (by omega)]
  | succ n ih =>
    intro m dc hm1 hm hrec
    obtain ⟨i, rfl⟩ : ∃ i, m = i + 1 := ⟨m - 1, by omega⟩
    have hi : i < G.length := by omega
    have hi1 : i + 1 < G.length := by omega
    have hp : G[i]? = some G[i] := List.getElem?_eq_getElem hi
    have hv : G[i + 1]? = some G[i + 1] := List.getElem?_eq_getElem hi1
    obtain ⟨hlt, hval, hmin⟩ := hG.2 i _ _ hp hv
    obtain ⟨h1, h2, h3⟩ := hG.initial_valid (i + 1) (by omega) (by omega)
    have hlast : (G.take (i + 1)).getLast? = some G[i] := by
      rw [take_succ_of_getElem? hp, List.getLast?_append]
      rfl
    have hle := le_getLast_of_sorted h1 hlast
    have hvd : G[i + 1] < MAX_DIFF := hdom _ (List.getElem_mem hi1)
    obtain ⟨dc', hnext, hrec'⟩ := greedyNext_complete h1 (head_le_of_sorted h1 h3) h2 hrec hvd
      hval ((MAX_DIFF : Int) - G[i]).toNat (G[i] + 1)
      (fun a ha => by have := hle a ha; omega) (by omega) (by omega)
      (fun u hu1 hu2 => hmin u (by omega) hu2)
    rw [greedyLoop, hlast]
    simp only [Option.bind_eq_bind, Option.some_bind, hnext]
    rw [← take_succ_of_getElem? hv]
    rw [← take_succ_of_getElem? hv] at hrec'
    exact ih (i + 1 + 1) dc' (by omega) (by omega) hrec'

/-- C13 (greedy seeder).  For every `k ≥ 1` for which the greedy sequence of
length `k` stays below `MAX_DIFF = 500`, `get_greedy(k)` returns `(N, A)` where
`A` is that sequence: it has length `k`, `A[0] = 0`, it is strictly increasing,
`N` is its last element, every difference occurs at most 3 times, and each
`A[i]` (`i ≥ 1`) is the smallest integer greater than `A[i-1]` whose addition
to `A[0..i-1]` keeps every difference count at most 3. -/
theorem get_greedy_smallest (k : Int) (G : List Int) (hk : 1 ≤ k) (hG : IsGreedy G)
    (hlen : (G.length : Int) = k) (hdom : ∀ a ∈ G, a < MAX_DIFF) :
    ∃ N A, get_greedy k = some { N := N, witness := A } ∧ A = G ∧
      (A.length : Int) = k ∧ A[0]? = some 0 ∧ A.Pairwise (fun a b => a < b) ∧
      A.getLast? = some N ∧ (∀ d, diffCount A d ≤ 3) ∧
      ∀ (i : Nat) (prev v : Int), A[i]? = some prev → A[i + 1]? = some v →
        prev < v ∧ (∀ d, diffCount (A.take (i + 1) ++ [v]) d ≤ 3) ∧
        ∀ u, prev < u → u < v → ¬ ∀ d, diffCount (A.take (i + 1) ++ [u]) d ≤ 3 := by
  have hloop := greedyLoop_complete hG hdom (k - 1).toNat 1 (List.replicate MAX_DIFF 0)
    (le_refl _) (by omega)
  have h0 : G[0]? = some 0 := by
    have := hG.1
    cases G with
    | nil => simp at this
    | cons a t => simpa using this
  rw [take_succ_of_getElem? h0] at hloop
  have hloop' := hloop (records_empty_singleton 0)
  obtain ⟨h1, h2, _⟩ := hG.initial_valid G.length (by omega) (le_refl _)
  rw [List.take_length] at h1 h2
  have hne : G ≠ [] := by
    intro h; rw [h] at h0; simp at h0
  refine ⟨G.getLast hne, G, ?_, rfl, hlen, h0, h1, List.getLast?_eq_getLast _ hne, h2, ?_⟩
  · unfold get_greedy
    rw [show List.take 0 G ++ [0] = [0] from rfl] at hloop'
    rw [hloop']
    simp only [Option.bind_eq_bind, Option.some_bind, List.getLast?_eq_getLast _ hne]
  · intro i prev v hp hv
    exact hG.2 i prev v hp hv

/-- Instance of `get_greedy_smallest`: `k = 5`, where the greedy sequence is
`[0, 1, 2, 3, 5]` (the value `4` is rejected: the difference `1` would occur
four times). -/
theorem get_greedy_smallest_witness :
    IsGreedy [0, 1, 2, 3, 5] ∧
    ∃ N A, get_greedy 5 = some { N := N, witness := A } ∧ A = [0, 1, 2, 3, 5] ∧
      (A.length : Int) = 5 ∧ A[0]? = some 0 ∧ A.Pairwise (fun a b => a < b) ∧
      A.getLast? = some N ∧ (∀ d, diffCount A d ≤ 3) ∧
      ∀ (i : Nat) (prev v : Int), A[i]? = some prev → A[i + 1]? = some v →
        prev < v ∧ (∀ d, diffCount (A.take (i + 1) ++ [v]) d ≤ 3) ∧
        ∀ u, prev < u → u < v → ¬ ∀ d, diffCount (A.take (i + 1) ++ [u]) d ≤ 3 :=
  have hG : IsGreedy [0, 1, 2, 3, 5] := by
    refine ⟨rfl, ?_⟩
    intro i prev v hp hv
    rcases i with _ | _ | _ | _ | i
    · simp only [List.getElem?_cons_zero, List.getElem?_cons_succ, Option.some.injEq] at hp hv
      subst hp; subst hv
      exact ⟨by decide, (counts_le_iff _ _).mpr (by decide), fun u h1 h2 => by omega⟩
    · simp only [List.getElem?_cons_zero, List.getElem?_cons_succ, Option.some.injEq] at hp hv
      subst hp; subst hv
      exact ⟨by decide, (counts_le_iff _ _).mpr (by decide), fun u h1 h2 => by omega⟩
    · simp only [List.getElem?_cons_zero, List.getElem?_cons_succ, Option.some.injEq] at hp hv
      subst hp; subst hv
      exact ⟨by decide, (counts_le_iff _ _).mpr (by decide), fun u h1 h2 => by omega⟩
    · simp only [List.getElem?_cons_zero, List.getElem?_cons_succ, Option.some.injEq] at hp hv
      subst hp; subst hv
      refine ⟨by decide, (counts_le_iff _ _).mpr (by decide), fun u h1 h2 h => ?_⟩
      have hu : u = 4 := by omega
      subst hu
      exact absurd (h 1) (by decide)
    · simp at hv
  ⟨hG, get_greedy_smallest 5 [0, 1, 2, 3, 5] (by decide) hG (by decide) (by decide)⟩

end SolverV1

/-! ## The small entries of the pruning table -/

namespace SolverV1

/-- The value `solve_G_minus(k)` reports is a lower bound on the span of every
valid `k`-element sequence, when the entries of `G_lookup` are. -/
theorem solve_G_minus_lower (G_lookup : Int → Int) (k : Int) (hk : 5 ≤ k)
    (hG : LookupOK G_lookup k) {N : Int}
    (hrun : (solve_G_minus G_lookup k).map (fun r => r.N) = some N) :
    ∀ s x, IsRuler k x s → N ≤ x := by
  have hsome : ∃ r0, get_greedy k = some r0 := by
    cases hg : get_greedy k with
    | some r0 => exact ⟨r0, rfl⟩
    | none =>
      unfold solve_G_minus at hrun
      rw [if_neg (by simp only [GAMMA]; omega), hg] at hrun
      exact Option.noConfusion hrun
  obtain ⟨r0, hr0⟩ := hsome
  obtain ⟨hruler0, hlt0⟩ := get_greedy_spec (by omega) hr0
  have hnn0 : 0 ≤ r0.N := by have := hruler0.span_ge; omega
  obtain ⟨r, hr, hruler, hmin⟩ := partLoop_spec G_lookup k hG (by omega)
    (Int.tdiv r0.N 2).toNat 1 r0.N r0.witness hruler0 hlt0 (le_refl _)
    (by rw [Int.tdiv_eq_ediv hnn0 (by norm_num)]; omega)
    (by
      right
      intro S x hS y hy hy1
      exfalso
      have h0 : S[0]? = some 0 := by rw [← List.head?_eq_getElem?]; exact hS.2.1
      have := sorted_getElem?_lt hS.2.2.2.1 h0 hy (by omega)
      omega)
  have hN : N = r.1 := by
    unfold solve_G_minus at hrun
    rw [if_neg (by simp only [GAMMA]; omega)] at hrun
    simp only [Option.bind_eq_bind, hr0, Option.some_bind, hr, Option.map_some',
      Option.some.injEq] at hrun
    exact hrun.symm
  subst hN
  intro s x hs
  rcases hmin with h | h
  · have := hs.drop_last_bound (by omega) (hG (k - 1) (by omega) (by omega)).2
    omega
  · by_contra hlt
    obtain ⟨T, y, hT, hy, hyle⟩ := hs.second_le_half (by omega)
    have := h T x hT y hy (by omega)
    omega

theorem lookupOK_pred (k : Int) : LookupOK (fun j => j - 1) k := by
  intro j hj1 _
  exact ⟨by show (0 : Int) ≤ j - 1; omega, fun s x hs => hs.span_ge⟩

set_option maxRecDepth 1000000 in
theorem solve_G_minus_five : (solve_G_minus (fun j => j - 1) 5).map (fun r => r.N) = some 5 := by
  decide

set_option maxRecDepth 1000000 in
theorem solve_G_minus_six : (solve_G_minus (fun j => j - 1) 6).map (fun r => r.N) = some 7 := by
  decide

set_option maxRecDepth 1000000 in
set_option maxHeartbeats 4000000 in
theorem solve_G_minus_seven : (solve_G_minus (fun j => j - 1) 7).map (fun r => r.N) = some 10 := by
  decide

end SolverV1

/-- No valid 7-element sequence from `0` ends before `10`. -/
theorem min_span_seven : ∀ s x, IsRuler 7 x s → 10 ≤ x :=
  SolverV1.solve_G_minus_lower _ 7 (by decide) (SolverV1.lookupOK_pred 7)
    SolverV1.solve_G_minus_seven

theorem isRuler_of_decide {k alpha : Int} {s : List Int} (h1 : (s.length : Int) = k)
    (h2 : s.head? = some 0) (h3 : s.getLast? = some alpha)
    (h4 : s.Pairwise (fun a b => a < b)) (h5 : ∀ d ∈ pairDiffs s, diffCount s d ≤ 3) :
    IsRuler k alpha s :=
  ⟨h1, h2, h3, h4, (counts_le_iff s 3).mpr h5⟩

/-- C20, amended (the small entries of the lower-bound table).  For every `j`
with `1 ≤ j ≤ 7` the entry `g_min_span[j]` (the same in solverv2 and solverv3)
is a lower bound on the last element of every strictly increasing `j`-element
sequence from `0` in which every difference occurs at most 3 times; for
`1 ≤ j ≤ 6` it is exactly the minimal span: such a sequence from `0` to
`g_min_span[j]` exists. -/
theorem g_min_span_small_entries (j : Int) (hj1 : 1 ≤ j) (hj7 : j ≤ 7) :
    ∃ g, rd SolverV2.g_min_span j = some g ∧ rd SolverV3.g_min_span j = some g ∧
      (∀ S x, IsRuler j x S → g ≤ x) ∧ (j ≤ 6 → ∃ S, IsRuler j g S) := by
  have hj : j = 1 ∨ j = 2 ∨ j = 3 ∨ j = 4 ∨ j = 5 ∨ j = 6 ∨ j = 7 := by omega
  rcases hj with rfl | rfl | rfl | rfl | rfl | rfl | rfl
  · exact ⟨0, rfl, rfl, fun S x hS => hS.span_ge,
      fun _ => ⟨[0], isRuler_of_decide (by decide) (by decide) (by decide) (by decide)
        (by decide)⟩⟩
  · exact ⟨1, rfl, rfl, fun S x hS => hS.span_ge,
      fun _ => ⟨[0, 1], isRuler_of_decide (by decide) (by decide) (by decide) (by decide)
        (by decide)⟩⟩
  · exact ⟨2, rfl, rfl, fun S x hS => hS.span_ge,
      fun _ => ⟨[0, 1, 2], isRuler_of_decide (by decide) (by decide) (by decide) (by decide)
        (by decide)⟩⟩
  · exact ⟨3, rfl, rfl, fun S x hS => hS.span_ge,
      fun _ => ⟨[0, 1, 2, 3], isRuler_of_decide (by decide) (by decide) (by decide) (by decide)
        (by decide)⟩⟩
  · exact ⟨5, rfl, rfl,
      SolverV1.solve_G_minus_lower _ 5 (by decide) (SolverV1.lookupOK_pred 5)
        SolverV1.solve_G_minus_five,
      fun _ => ⟨[0, 1, 2, 3, 5], isRuler_of_decide (by decide) (by decide) (by decide)
        (by decide) (by decide)⟩⟩
  · exact ⟨7, rfl, rfl,
      SolverV1.solve_G_minus_lower _ 6 (by decide) (SolverV1.lookupOK_pred 6)
        SolverV1.solve_G_minus_six,
      fun _ => ⟨[0, 1, 2, 4, 5, 7], isRuler_of_decide (by decide) (by decide) (by decide)
        (by decide) (by decide)⟩⟩
  · exact ⟨9, rfl, rfl, fun S x hS => by have := min_span_seven S x hS; omega,
      fun h => absurd h (by decide)⟩

/-- Instance of `g_min_span_small_entries`: `j = 6`, entry `7`. -/
theorem g_min_span_small_entries_witness :
    ∃ g, rd SolverV2.g_min_span 6 = some g ∧ rd SolverV3.g_min_span 6 = some g ∧
      (∀ S x, IsRuler 6 x S → g ≤ x) ∧ ((6 : Int) ≤ 6 → ∃ S, IsRuler 6 g S) :=
  g_min_span_small_entries 6 (by decide) (by decide)

/-- The entry for `j = 7` is not the minimal span: `g_min_span[7] = 9` in both
tables, no valid 7-element sequence from `0` ends at `9`, and the minimal span
is `10`, reached by `[0, 1, 2, 4, 5, 8, 10]`. -/
theorem g_min_span_seven_counterexample :
    rd SolverV2.g_min_span 7 = some 9 ∧ rd SolverV3.g_min_span 7 = some 9 ∧
    (¬ ∃ S, IsRuler 7 9 S) ∧ (∀ S x, IsRuler 7 x S → 10 ≤ x) ∧
    IsRuler 7 10 [0, 1, 2, 4, 5, 8, 10] :=
  ⟨rfl, rfl, fun ⟨S, hS⟩ => absurd (min_span_seven S 9 hS) (by decide), min_span_seven,
    isRuler_of_decide (by decide) (by decide) (by decide) (by decide) (by decide)⟩

/-! ## Outside the representable difference domain -/

theorem bitAt_none_of_ge (m : Nat) {d : Int} (hd : 128 ≤ d) : bitAt m d = none := by
  unfold bitAt
  rw [if_neg (by omega)]

theorem rd_none_of_ge {A : List Int} {i : Int} (hi : (A.length : Int) ≤ i) : rd A i = none := by
  unfold rd
  split
  · exact List.getElem?_eq_none (by omega)
  · rfl

/-- C12, amended (no fail-fast outside the difference domain).  Outside the
representable difference domain the solvers report no error: the run reaches an
out-of-range access and has no defined result (`none`).  For every `k ≥ 17`,
the read `g_min_span[k]` is outside the table of solverv2 and `solve(k)` has no
defined result.  For every `alpha ≥ 128`, the shift of a 128-bit mask by
`alpha - 0` is out of range, and `backtrack(A, 1, 0, 0, 0, 2, alpha)` of
solverv2 (with `A[0] = 0`) and the solverv3 worker for `a1 = 1`, `k = 3` have
no defined result.  For every `val ≥ MAX_DIFF`, the read `diff_counts[val - 0]`
is outside the vector of size `MAX_DIFF` and `try_add(val, B, diff_counts)` of
solverv1 with `B[0] = 0` has no defined result. -/
theorem domain_overflow_unchecked (fuel : Nat) (A L B dc : List Int) (k alpha val : Int)
    (hk : 17 ≤ k) (ha : 128 ≤ alpha) (hA : A[0]? = some 0) (hL : 2 ≤ L.length)
    (hB : B.head? = some 0) (hdc : dc.length = SolverV1.MAX_DIFF)
    (hval : (SolverV1.MAX_DIFF : Int) ≤ val) :
    (rd SolverV2.g_min_span k = none ∧ SolverV2.solve fuel A k = none) ∧
    (bitAt 0 (alpha - 0) = none ∧ SolverV2.backtrack A 1 0 0 0 2 alpha = none ∧
      SolverV3.workerSearch false L 1 3 alpha = none) ∧
    (rd dc (val - 0) = none ∧ SolverV1.try_add val B dc = none) := by
  have hrdk : rd SolverV2.g_min_span k = none :=
    rd_none_of_ge (by simp [SolverV2.g_min_span]; omega)
  have hrdv : rd dc (val - 0) = none := rd_none_of_ge (by rw [hdc]; omega)
  refine ⟨⟨hrdk, ?_⟩, ⟨bitAt_none_of_ge 0 (by omega), ?_, ?_⟩,
    ⟨hrdv, SolverV1.try_add_none_of_ge hB hdc hval⟩⟩
  · unfold SolverV2.solve
    rw [rd_none_of_ge (by simp [SolverV2.g_min_span]; omega)]
    rfl
  · have h0 : rd A (1 - 1) = some 0 := by
      unfold rd
      simpa using hA
    have hg : rd SolverV2.g_min_span (2 - 1 + 1) = some 1 := rfl
    have hcl : SolverV2.closeLoop A 0 alpha (1 : Int).toNat 0 = none := by
      show SolverV2.closeLoop A 0 alpha 1 0 = none
      rw [SolverV2.closeLoop, hA]
      simp only [Option.bind_eq_bind, Option.some_bind, sub_zero, bitAt_none_of_ge 0 ha,
        Option.none_bind]
    show SolverV2.backtrackAux ((2 - 1 : Int).toNat + 2) A 1 0 0 0 2 alpha = none
    rw [show (2 - 1 : Int).toNat + 2 = 2 + 1 from rfl, SolverV2.backtrackAux]
    simp only [Option.bind_eq_bind, h0, hg, Option.some_bind]
    rw [if_neg (by omega), if_pos (by norm_num), hcl]
    rfl
  · obtain ⟨x, L1, rfl⟩ : ∃ x L1, L = x :: L1 := by
      cases L with
      | nil => simp at hL
      | cons x L1 => exact ⟨x, L1, rfl⟩
    obtain ⟨y, L2, rfl⟩ : ∃ y L2, L1 = y :: L2 := by
      cases L1 with
      | nil => simp at hL
      | cons y L2 => exact ⟨y, L2, rfl⟩
    have hw0 : wr (x :: y :: L2) 0 0 = some (0 :: y :: L2) := by
      unfold wr
      rw [if_pos ⟨le_refl _, by simp only [List.length_cons]; omega⟩]
      rfl
    have hw1 : wr (0 :: y :: L2) 1 1 = some (0 :: 1 :: L2) := by
      unfold wr
      rw [if_pos ⟨by decide, by simp only [List.length_cons]; omega⟩]
      rfl
    have hb : bitOf 1 = some 2 := by decide
    have h1 : rd (0 :: 1 :: L2) (2 - 1) = some 1 := by
      unfold rd
      rw [if_pos (by decide)]
      simp
    have hg : rd SolverV3.g_min_span (3 - 2 + 1) = some 1 := rfl
    have hcl : SolverV2.closeLoop (0 :: 1 :: L2) 0 alpha (2 : Int).toNat 0 = none := by
      show SolverV2.closeLoop (0 :: 1 :: L2) 0 alpha 2 0 = none
      rw [SolverV2.closeLoop]
      simp only [List.getElem?_cons_zero, Option.bind_eq_bind, Option.some_bind, sub_zero,
        bitAt_none_of_ge 0 ha, Option.none_bind]
    unfold SolverV3.workerSearch
    simp only [Option.bind_eq_bind, hw0, hw1, hb, Option.some_bind]
    show SolverV3.backtrackAux false ((3 - 2 : Int).toNat + 2) (0 :: 1 :: L2) 2 2 0 0 3 alpha
      = none
    rw [show (3 - 2 : Int).toNat + 2 = 2 + 1 from rfl, SolverV3.backtrackAux]
    simp only [Bool.false_eq_true, if_false, Option.bind_eq_bind, h1, hg, Option.some_bind]
    rw [if_neg (by omega), if_pos (by norm_num), hcl]
    rfl

set_option maxRecDepth 100000 in
/-- Instance of `domain_overflow_unchecked`: `k = 17`, `alpha = 128`,
`val = 500`. -/
theorem domain_overflow_unchecked_witness :
    (rd SolverV2.g_min_span 17 = none ∧ SolverV2.solve 1 (List.replicate 32 0) 17 = none) ∧
    (bitAt 0 (128 - 0) = none ∧ SolverV2.backtrack (List.replicate 32 0) 1 0 0 0 2 128 = none ∧
      SolverV3.workerSearch false (List.replicate 64 0) 1 3 128 = none) ∧
    (rd (List.replicate 500 0) (500 - 0) = none ∧
      SolverV1.try_add 500 [0] (List.replicate 500 0) = none) :=
  domain_overflow_unchecked 1 (List.replicate 32 0) (List.replicate 64 0) [0]
    (List.replicate 500 0) 17 128 500 (by decide) (by decide) (by decide) (by decide)
    (by decide) (by decide) (by decide)

set_option maxRecDepth 100000 in
/-- With `alpha = 128`, one more than the largest difference a 128-bit mask can
hold, `backtrack(A, 1, 0, 0, 0, 2, 128)` of solverv2 reports no error: it
passes the pruning test and evaluates `m3 >> 128`, a shift by the full width of
the mask; `solve(17)` likewise reads `g_min_span[17]`, one past the end of the
table, and `try_add(500, [0], diff_counts)` reads `diff_counts[500]`. -/
theorem no_fail_fast_counterexample :
    rd SolverV2.g_min_span (2 - 1 + 1) = some 1 ∧ ¬ (0 + 1 > (128 : Int)) ∧
    bitAt 0 (128 - 0) = none ∧
    SolverV2.closeLoop (List.replicate 32 0) 0 128 1 0 = none ∧
    SolverV2.backtrack (List.replicate 32 0) 1 0 0 0 2 128 = none ∧
    rd SolverV2.g_min_span 17 = none ∧
    SolverV2.solve 1 (List.replicate 32 0) 17 = none ∧
    rd (List.replicate 500 0) (500 - 0) = none ∧
    SolverV1.try_add 500 [0] (List.replicate 500 0) = none := by
  decide

namespace SolverV3

/-! ## The solverv3 search returns inside its domain -/

theorem g_min_span_v3_rd (i : Int) (h0 : 0 ≤ i) (h19 : i ≤ 19) :
    ∃ g, rd g_min_span i = some g ∧ 0 ≤ g := by
  have h : ∀ n : Nat, n ≤ 19 → ∃ g, rd g_min_span (n : Int) = some g ∧ 0 ≤ g := by
    intro n hn
    interval_cases n <;> simp [rd, g_min_span]
  have := h i.toNat (by omega)
  rwa [Int.toNat_of_nonneg h0] at this

/-- The candidate loop returns, and leaves `A[0..size-1]` alone, when every
nested call does. -/
theorem candLoop_total (alpha : Int) (size : Int) (m1 m2 m3 : Nat)
    (rec : List Int → Nat → Nat → Nat → Option (Bool × List Int))
    (P : List Int) (L : Nat) (ha : alpha ≤ 127) (hs1 : 1 ≤ size) (hsL : size.toNat < L)
    (hP : P.Pairwise (fun a b => a < b)) (hhead : P.head? = some 0)
    (IH : ∀ (A : List Int) (n1 n2 n3 : Nat) (cand : Int), A.length = L →
      A.take (size.toNat + 1) = P ++ [cand] → (∀ a ∈ P, a < cand) → cand ≤ alpha →
      ∃ b A', rec A n1 n2 n3 = some (b, A') ∧ A'.length = L ∧
        A'.take (size.toNat + 1) = A.take (size.toNat + 1)) :
    ∀ (n : Nat) (cand : Int) (B : List Int), B.length = L → B.take size.toNat = P →
      (∀ a ∈ P, a < cand) → cand + n ≤ alpha + 1 →
      ∃ b A', SolverV2.candLoop rec size m1 m2 m3 n cand B = some (b, A') ∧ A'.length = L ∧
        A'.take size.toNat = P := by
  intro n
  induction n with
  | zero =>
    intro cand B hB hT _ _
    exact ⟨false, B, rfl, hB, hT⟩
  | succ n ih =>
    intro cand B hB hT hgt hn
    have hsz : size.toNat < B.length := by omega
    have hrange : ∀ a ∈ P, 0 ≤ cand - a ∧ cand - a < 128 := by
      intro a ha
      have h1 := hgt a ha
      have h2 := head_le_of_sorted hP hhead a ha
      push_cast at hn
      omega
    have hdl := SolverV2.diffLoop_spec B m3 cand size.toNat 0 0 (by omega)
      (by rw [List.drop_zero, hT]; exact hrange)
    obtain ⟨c, nd, hc, _, _⟩ := hdl
    cases c with
    | true =>
      obtain ⟨b, A', hr, hlen, htake⟩ := ih (cand + 1) B hB hT
        (fun a ha => by have := hgt a ha; omega) (by push_cast at hn ⊢; omega)
      refine ⟨b, A', ?_, hlen, htake⟩
      rw [SolverV2.candLoop, hc]
      simpa using hr
    | false =>
      have hwr : wr B size cand = some (B.set size.toNat cand) :=
        wr_eq cand (by omega) (by omega)
      have htk1 : (B.set size.toNat cand).take (size.toNat + 1) = P ++ [cand] := by
        rw [take_succ_set _ _ _ hsz, hT]
      obtain ⟨b1, A2, hr1, hlen1, htake1⟩ := IH (B.set size.toNat cand) (m1 ||| nd)
        (m2 ||| (m1 &&& nd)) (m3 ||| (m2 &&& nd)) cand (by rw [List.length_set]; exact hB)
        htk1 hgt (by push_cast at hn; omega)
      have hA2P : A2.take size.toNat = P := by
        rw [take_of_take_succ htake1, take_set_self, hT]
      cases b1 with
      | true =>
        refine ⟨true, A2, ?_, hlen1, hA2P⟩
        rw [SolverV2.candLoop, hc]
        simp [hwr, hr1]
      | false =>
        obtain ⟨b, A', hr, hlen, htake⟩ := ih (cand + 1) A2 hlen1 hA2P
          (fun a ha => by have := hgt a ha; omega) (by push_cast at hn ⊢; omega)
        refine ⟨b, A', ?_, hlen, htake⟩
        rw [SolverV2.candLoop, hc]
        simpa [hwr, hr1] using hr

/-- For `k ≤ 19` and `alpha ≤ 127` a call of the solverv3 `backtrack` on a
strictly increasing `A[0..size-1]` that starts at `0` returns, whatever the
value of `found_global`, and leaves `A[0..size-1]` alone. -/
theorem backtrackAux_total (k alpha : Int) (fg : Bool) (hk19 : k ≤ 19) (ha : alpha ≤ 127) :
    ∀ (fuel : Nat) (A : List Int) (size : Int) (m1 m2 m3 : Nat),
      1 ≤ size → size ≤ k - 1 → k ≤ A.length →
      (A.take size.toNat).Pairwise (fun a b => a < b) → A.head? = some 0 →
      (k - size).toNat ≤ fuel →
      ∃ b A', backtrackAux fg fuel A size m1 m2 m3 k alpha = some (b, A') ∧
        A'.length = A.length ∧ A'.take size.toNat = A.take size.toNat := by
  intro fuel
  induction fuel with
  | zero =>
    intro A size m1 m2 m3 hs1 hsk _ _ _ hf
    omega
  | succ fuel IH =>
    intro A size m1 m2 m3 hs1 hsk hlen hsorted hhead hf
    rw [backtrackAux]
    cases fg with
    | true => exact ⟨false, A, by simp, rfl, rfl⟩
    | false =>
      simp only [Bool.false_eq_true, if_false]
      have hidx : (size - 1).toNat < A.length := by omega
      have hrd : rd A (size - 1) = some A[(size - 1).toNat] := by
        unfold rd
        rw [if_pos (by omega), List.getElem?_eq_getElem hidx]
      have hPlast : (A.take size.toNat).getLast? = some A[(size - 1).toNat] := by
        rw [List.getLast?_take, if_neg (by omega)]
        have : size.toNat - 1 = (size - 1).toNat := by omega
        rw [this, List.getElem?_eq_getElem hidx]
        rfl
      have hPhead : (A.take size.toNat).head? = some 0 := by
        rw [head?_take_pos _ _ (by omega)]; exact hhead
      have hle := le_getLast_of_sorted hsorted hPlast
      have hge := head_le_of_sorted hsorted hPhead
      obtain ⟨g1, hg1, hg1nn⟩ := g_min_span_v3_rd (k - size + 1) (by omega) (by omega)
      simp only [Option.bind_eq_bind, hrd, Option.some_bind, hg1]
      by_cases hprune : A[(size - 1).toNat] + g1 > alpha
      · rw [if_pos hprune]
        exact ⟨false, A, rfl, rfl, rfl⟩
      · rw [if_neg hprune]
        by_cases hbase : size = k - 1
        · rw [if_pos hbase]
          have hrange : ∀ a ∈ A.take size.toNat, 0 ≤ alpha - a ∧ alpha - a < 128 := by
            intro a ha
            have h1 := hle a ha
            have h2 := hge a ha
            omega
          obtain ⟨ok, hok, _⟩ := SolverV2.closeLoop_spec A m3 alpha size.toNat 0 (by omega)
            (by rw [List.drop_zero]; exact hrange)
          rw [hok]
          cases ok with
          | true =>
            have hwr : wr A size alpha = some (A.set size.toNat alpha) :=
              wr_eq alpha (by omega) (by omega)
            simp only [Option.some_bind, if_true, hwr]
            exact ⟨true, _, rfl, by rw [List.length_set], take_set_self _ _ _⟩
          | false =>
            simp only [Option.some_bind]
            exact ⟨false, A, by simp, rfl, rfl⟩
        · rw [if_neg hbase]
          obtain ⟨g0, hg0, hg0nn⟩ := g_min_span_v3_rd (k - size) (by omega) (by omega)
          simp only [hg0, Option.some_bind]
          have hsz1 : (size + 1).toNat = size.toNat + 1 := by omega
          have hloop := candLoop_total alpha size m1 m2 m3
            (fun A1 n1 n2 n3 => backtrackAux false fuel A1 (size + 1) n1 n2 n3 k alpha)
            (A.take size.toNat) A.length ha hs1 (by omega) hsorted hPhead
            (by
              intro B n1 n2 n3 cand hB hT hgt _
              obtain ⟨b, A', h1, h2, h3⟩ := IH B (size + 1) n1 n2 n3 (by omega) (by omega)
                (by omega)
                (by rw [hsz1, hT]; exact sorted_concat hsorted hgt)
                (by
                  rw [← head?_take_pos B (size.toNat + 1) (by omega), hT, List.head?_append,
                    hPhead]
                  rfl)
                (by omega)
              rw [hsz1] at h3
              exact ⟨b, A', h1, by omega, h3⟩)
          exact hloop (alpha - g0 - A[(size - 1).toNat]).toNat (A[(size - 1).toNat] + 1) A rfl rfl
            (fun a ha => by have := hle a ha; omega) (by omega)

end SolverV3

namespace SolverV3

/-! ## Workers and the coordinator -/

theorem mem_partitions {alpha a : Int} :
    a ∈ partitions alpha ↔ 1 ≤ a ∧ a ≤ Int.tdiv alpha 2 := by
  unfold partitions
  simp only [List.mem_map, List.mem_range]
  constructor
  · rintro ⟨i, hi, rfl⟩
    show 1 ≤ (i : Int) + 1 ∧ (i : Int) + 1 ≤ Int.tdiv alpha 2
    omega
  · rintro ⟨h1, h2⟩
    have hlt : (a - 1).toNat < (Int.tdiv alpha 2).toNat := by omega
    refine ⟨(a - 1).toNat, hlt, ?_⟩
    show ((a - 1).toNat : Int) + 1 = a
    omega

theorem partitions_le {alpha a : Int} (ha : alpha ≤ 127) (h : a ∈ partitions alpha) :
    1 ≤ a ∧ a ≤ 63 := by
  rw [mem_partitions] at h
  have : Int.tdiv alpha 2 ≤ 63 := by
    by_cases h0 : 0 ≤ alpha
    · rw [Int.tdiv_eq_ediv h0 (by norm_num)]; omega
    · have := h.1
      have h2 := h.2
      have : Int.tdiv alpha 2 ≤ 0 := by
        have hneg : alpha = -(-alpha) := by omega
        rw [hneg, Int.neg_tdiv]
        have : 0 ≤ Int.tdiv (-alpha) 2 := Int.tdiv_nonneg (by omega) (by norm_num)
        omega
      omega
  omega

/-- A worker's search returns; with `found_global` set it returns false at
once. -/
theorem workerSearch_total (k alpha : Int) (fg : Bool) (hk3 : 3 ≤ k) (hk19 : k ≤ 19)
    (ha : alpha ≤ 127) (L : List Int) (a1 : Int) (hL : k ≤ L.length) (h1 : 1 ≤ a1)
    (h63 : a1 ≤ 63) :
    ∃ b W, workerSearch fg L a1 k alpha = some (b, W) ∧ W.length = L.length ∧
      (fg = true → b = false) := by
  have hw0 : wr L 0 0 = some (L.set 0 0) := wr_eq 0 (le_refl _) (by omega)
  have hw1 : wr (L.set 0 0) 1 a1 = some ((L.set 0 0).set 1 a1) :=
    wr_eq a1 (by decide) (by rw [List.length_set]; omega)
  have hb : bitOf a1 = some (2 ^ a1.toNat) := bitOf_eq (by omega) (by omega)
  have htake : ((L.set 0 0).set 1 a1).take 2 = [0, a1] := by
    cases L with
    | nil => simp at hL; omega
    | cons x t =>
      cases t with
      | nil => simp at hL; omega
      | cons y u => rfl
  obtain ⟨b, W, hr, hlen, _⟩ := backtrackAux_total k alpha fg hk19 ha ((k - 2).toNat + 2)
    ((L.set 0 0).set 1 a1) 2 (2 ^ a1.toNat) 0 0 (by decide) (by omega)
    (by rw [List.length_set, List.length_set]; exact hL)
    (by
      show (((L.set 0 0).set 1 a1).take 2).Pairwise (fun a b => a < b)
      rw [htake]
      simp only [List.pairwise_cons, List.mem_singleton, forall_eq, List.not_mem_nil,
        IsEmpty.forall_iff, implies_true, List.Pairwise.nil, and_true]
      omega)
    (by
      rw [← head?_take_pos _ 2 (by decide), htake]
      rfl)
    (by omega)
  refine ⟨b, W, ?_, by rw [hlen, List.length_set, List.length_set], ?_⟩
  · unfold workerSearch backtrack
    simp only [Option.bind_eq_bind, hw0, hw1, hb, Option.some_bind]
    exact hr
  · intro hfg
    subst hfg
    rw [show (k - 2).toNat + 2 = ((k - 2).toNat + 1) + 1 from rfl, backtrackAux] at hr
    simp only [if_true, Option.some.injEq, Prod.mk.injEq] at hr
    exact hr.1.symm

theorem copyLoop_spec (W : List Int) :
    ∀ (n i : Nat) (fs : List Int), i + n ≤ W.length → i + n ≤ fs.length →
      fs.take i = W.take i →
      ∃ fs', copyLoop W n i fs = some fs' ∧ fs'.length = fs.length ∧
        fs'.take (i + n) = W.take (i + n) := by
  intro n
  induction n with
  | zero =>
    intro i fs _ _ h
    exact ⟨fs, rfl, rfl, h⟩
  | succ n ih =>
    intro i fs hW hfs h
    have hi : i < W.length := by omega
    have hWi : W[i]? = some W[i] := List.getElem?_eq_getElem hi
    have hwr : wr fs (i : Int) W[i] = some (fs.set i W[i]) := by
      have := @wr_eq fs (i : Int) W[i] (by omega) (by omega)
      simpa using this
    obtain ⟨fs', h1, h2, h3⟩ := ih (i + 1) (fs.set i W[i]) (by omega)
      (by rw [List.length_set]; omega)
      (by rw [take_succ_set _ _ _ (by omega), take_succ_of_getElem? hWi, h])
    refine ⟨fs', ?_, by rw [h2, List.length_set], ?_⟩
    · rw [copyLoop]
      simp only [Option.bind_eq_bind, hWi, Option.some_bind, hwr]
      exact h1
    · rw [show i + (n + 1) = i + 1 + n by omega]
      exact h3

/-- Once `found_global` is set, the remaining workers change nothing. -/
theorem runWorkers_flag_set (locals : Int → List Int) (k alpha : Int) (hk3 : 3 ≤ k)
    (hk19 : k ≤ 19) (ha : alpha ≤ 127) (hloc : ∀ a, k ≤ (locals a).length) :
    ∀ (order : List Int) (sh : Shared), (∀ a ∈ order, 1 ≤ a ∧ a ≤ 63) →
      sh.found_global = true → runWorkers locals k alpha order sh = some sh := by
  intro order
  induction order with
  | nil => intro sh _ _; rfl
  | cons a rest ih =>
    intro sh hr hfg
    obtain ⟨h1, h63⟩ := hr a (List.mem_cons_self _ _)
    obtain ⟨b, W, hw, _, hb⟩ := workerSearch_total k alpha sh.found_global hk3 hk19 ha
      (locals a) a (hloc a) h1 h63
    have hbf := hb hfg
    subst hbf
    have hworker : worker (locals a) a k alpha sh = some sh := by
      unfold worker
      simp only [Option.bind_eq_bind, hw, Option.some_bind, Bool.false_eq_true, if_false]
    rw [runWorkers]
    simp only [Option.bind_eq_bind, hworker, Option.some_bind]
    exact ih sh (fun x hx => hr x (List.mem_cons_of_mem _ hx)) hfg

/-- The coordinator run from a clear flag: either every worker fails and
nothing is written, or the first worker that succeeds sets the flag and writes
its witness, which stays. -/
theorem runWorkers_clear (locals : Int → List Int) (k alpha : Int) (hk3 : 3 ≤ k)
    (hk19 : k ≤ 19) (ha : alpha ≤ 127) (hloc : ∀ a, k ≤ (locals a).length) :
    ∀ (order : List Int) (sh : Shared), (∀ a ∈ order, 1 ≤ a ∧ a ≤ 63) →
      sh.found_global = false → k ≤ sh.final_set.length →
      ∃ sh', runWorkers locals k alpha order sh = some sh' ∧
        ((sh'.found_global = false ∧ sh' = sh ∧
            ∀ a ∈ order, ∃ W, workerSearch false (locals a) a k alpha = some (false, W)) ∨
          (sh'.found_global = true ∧ ∃ pre a1 post W, order = pre ++ a1 :: post ∧
            (∀ a ∈ pre, ∃ W', workerSearch false (locals a) a k alpha = some (false, W')) ∧
            workerSearch false (locals a1) a1 k alpha = some (true, W) ∧
            sh'.final_set.take k.toNat = W.take k.toNat)) := by
  intro order
  induction order with
  | nil =>
    intro sh _ hfg _
    exact ⟨sh, rfl, Or.inl ⟨hfg, rfl, fun a ha => absurd ha (List.not_mem_nil a)⟩⟩
  | cons a rest ih =>
    intro sh hr hfg hfs
    obtain ⟨h1, h63⟩ := hr a (List.mem_cons_self _ _)
    have hrest : ∀ x ∈ rest, 1 ≤ x ∧ x ≤ 63 := fun x hx => hr x (List.mem_cons_of_mem _ hx)
    obtain ⟨b, W, hw, hWlen, _⟩ := workerSearch_total k alpha false hk3 hk19 ha
      (locals a) a (hloc a) h1 h63
    have hw' : workerSearch sh.found_global (locals a) a k alpha = some (b, W) := by
      rw [hfg]; exact hw
    cases b with
    | false =>
      have hworker : worker (locals a) a k alpha sh = some sh := by
        unfold worker
        simp only [Option.bind_eq_bind, hw', Option.some_bind, Bool.false_eq_true, if_false]
      obtain ⟨sh', hrun, hcase⟩ := ih sh hrest hfg hfs
      refine ⟨sh', ?_, ?_⟩
      · rw [runWorkers]
        simp only [Option.bind_eq_bind, hworker, Option.some_bind]
        exact hrun
      · rcases hcase with ⟨h1', h2', h3'⟩ | ⟨h1', pre, a1, post, W1, hord, hpre, hsucc, htk⟩
        · refine Or.inl ⟨h1', h2', ?_⟩
          intro x hx
          rcases List.mem_cons.mp hx with rfl | hx
          · exact ⟨W, hw⟩
          · exact h3' x hx
        · refine Or.inr ⟨h1', a :: pre, a1, post, W1, by rw [hord]; rfl, ?_, hsucc, htk⟩
          intro x hx
          rcases List.mem_cons.mp hx with rfl | hx
          · exact ⟨W, hw⟩
          · exact hpre x hx
    | true =>
      have hWk : k ≤ W.length := by rw [hWlen]; exact hloc a
      obtain ⟨fs, hcopy, _, hfstk⟩ := copyLoop_spec W k.toNat 0 sh.final_set (by omega)
        (by omega) rfl
      rw [Nat.zero_add] at hfstk
      have hworker : worker (locals a) a k alpha sh
          = some { found_global := true, final_set := fs } := by
        unfold worker
        simp only [Option.bind_eq_bind, hw', Option.some_bind, if_true, hfg, Bool.not_false,
          hcopy, hw]
      refine ⟨{ found_global := true, final_set := fs }, ?_, Or.inr ⟨rfl, [], a, rest, W, rfl,
        fun x hx => absurd hx (List.not_mem_nil x), hw, hfstk⟩⟩
      rw [runWorkers]
      simp only [Option.bind_eq_bind, hworker, Option.some_bind]
      exact runWorkers_flag_set locals k alpha hk3 hk19 ha hloc rest _ hrest rfl

/-- C15 (order independence of the solverv3 coordinator verdict).  For every
`k` with `3 ≤ k ≤ 19` and `alpha ≤ 127`, and for every order in which the
workers for `a1 = 1..alpha/2` are run one after another starting from
`found_global = false`: the run returns; the final `found_global` is true if
and only if the search `backtrack([0, a1], 2, 1<<a1, 0, 0, k, alpha)` of at
least one partition succeeds when run with the flag clear, so it is the same as
for the ascending order; when it is true, the order splits into workers that
all failed, the first worker that succeeded, and the later ones, and
`final_set[0..k-1]` holds the witness of that first worker; when it is false,
`final_set` is untouched. -/
theorem coordinator_order_independent (k alpha : Int) (locals : Int → List Int)
    (order : List Int) (sh0 : Shared) (hk3 : 3 ≤ k) (hk19 : k ≤ 19) (ha : alpha ≤ 127)
    (hloc : ∀ a, (locals a).length = 64) (hfs : sh0.final_set.length = 64)
    (hflag : sh0.found_global = false) (hperm : order.Perm (partitions alpha)) :
    ∃ sh shAsc, runWorkers locals k alpha order sh0 = some sh ∧
      runWorkers locals k alpha (partitions alpha) sh0 = some shAsc ∧
      sh.found_global = shAsc.found_global ∧
      (sh.found_global = true ↔ ∃ a1 ∈ partitions alpha, ∃ W,
        workerSearch false (locals a1) a1 k alpha = some (true, W)) ∧
      (sh.found_global = true → ∃ pre a1 post W, order = pre ++ a1 :: post ∧
        (∀ a ∈ pre, ∃ W', workerSearch false (locals a) a k alpha = some (false, W')) ∧
        workerSearch false (locals a1) a1 k alpha = some (true, W) ∧
        sh.final_set.take k.toNat = W.take k.toNat) ∧
      (sh.found_global = false → sh.final_set = sh0.final_set) := by
  have hloc' : ∀ a, k ≤ (locals a).length := fun a => by rw [hloc a]; omega
  have hiff : ∀ (ord : List Int), ord.Perm (partitions alpha) →
      ∃ sh, runWorkers locals k alpha ord sh0 = some sh ∧
        (sh.found_global = true ↔ ∃ a1 ∈ partitions alpha, ∃ W,
          workerSearch false (locals a1) a1 k alpha = some (true, W)) ∧
        (sh.found_global = true → ∃ pre a1 post W, ord = pre ++ a1 :: post ∧
          (∀ a ∈ pre, ∃ W', workerSearch false (locals a) a k alpha = some (false, W')) ∧
          workerSearch false (locals a1) a1 k alpha = some (true, W) ∧
          sh.final_set.take k.toNat = W.take k.toNat) ∧
        (sh.found_global = false → sh.final_set = sh0.final_set) := by
    intro ord hp
    have hrange : ∀ a ∈ ord, 1 ≤ a ∧ a ≤ 63 :=
      fun a h => partitions_le ha (hp.mem_iff.mp h)
    obtain ⟨sh, hrun, hcase⟩ := runWorkers_clear locals k alpha hk3 hk19 ha hloc' ord sh0
      hrange hflag (by rw [hfs]; omega)
    refine ⟨sh, hrun, ?_, ?_, ?_⟩
    · rcases hcase with ⟨h1, _, h3⟩ | ⟨h1, pre, a1, post, W, hord, _, hsucc, _⟩
      · constructor
        · intro h; rw [h1] at h; exact Bool.noConfusion h
        · rintro ⟨a1, ha1, W, hW⟩
          obtain ⟨W', hW'⟩ := h3 a1 (hp.mem_iff.mpr ha1)
          rw [hW] at hW'
          simp only [Option.some.injEq, Prod.mk.injEq] at hW'
          exact absurd hW'.1 (by decide)
      · constructor
        · intro _
          exact ⟨a1, hp.mem_iff.mp (by rw [hord]; simp), W, hsucc⟩
        · intro _; exact h1
    · intro h
      rcases hcase with ⟨h1, _, _⟩ | ⟨_, hex⟩
      · rw [h1] at h; exact Bool.noConfusion h
      · exact hex
    · intro h
      rcases hcase with ⟨_, h2, _⟩ | ⟨h1, _⟩
      · rw [h2]
      · rw [h1] at h; exact Bool.noConfusion h
  obtain ⟨sh, hrun, h1, h2, h3⟩ := hiff order hperm
  obtain ⟨shAsc, hrunA, h1A, _, _⟩ := hiff (partitions alpha) (List.Perm.refl _)
  refine ⟨sh, shAsc, hrun, hrunA, ?_, h1, h2, h3⟩
  have : sh.found_global = true ↔ shAsc.found_global = true := h1.trans h1A.symm
  cases hx : sh.found_global <;> cases hy : shAsc.found_global <;> simp_all

/-- Instance of `coordinator_order_independent`: `k = 7`, `alpha = 10`, the
workers run in the descending order `5, 4, 3, 2, 1`. -/
theorem coordinator_order_independent_witness :
    ∃ sh shAsc,
      runWorkers (fun _ => List.replicate 64 0) 7 10 (partitions 10).reverse
        { found_global := false, final_set := List.replicate 64 0 } = some sh ∧
      runWorkers (fun _ => List.replicate 64 0) 7 10 (partitions 10)
        { found_global := false, final_set := List.replicate 64 0 } = some shAsc ∧
      sh.found_global = shAsc.found_global ∧
      (sh.found_global = true ↔ ∃ a1 ∈ partitions 10, ∃ W,
        workerSearch false (List.replicate 64 0) a1 7 10 = some (true, W)) ∧
      (sh.found_global = true → ∃ pre a1 post W, (partitions 10).reverse = pre ++ a1 :: post ∧
        (∀ a ∈ pre, ∃ W', workerSearch false (List.replicate 64 0) a 7 10 = some (false, W')) ∧
        workerSearch false (List.replicate 64 0) a1 7 10 = some (true, W) ∧
        sh.final_set.take (7 : Int).toNat = W.take (7 : Int).toNat) ∧
      (sh.found_global = false → sh.final_set = List.replicate 64 0) :=
  coordinator_order_independent 7 10 (fun _ => List.replicate 64 0) (partitions 10).reverse
    { found_global := false, final_set := List.replicate 64 0 } (by decide) (by decide)
    (by decide) (fun _ => List.length_replicate 64 0) (List.length_replicate 64 0) rfl
    (List.reverse_perm _)

end SolverV3

namespace SolverV3

/-! ## solverv3 follows solverv2 from size 2 on -/

/-- The candidate loop over two nested calls that agree: any array of at least
`K` cells with the same entries below `size` gives the same answer and, on
success, the same first `K` cells. -/
theorem candLoop_xrel (K : Nat) (size : Int) (m1 m2 m3 : Nat)
    (recA recB : List Int → Nat → Nat → Nat → Option (Bool × List Int))
    (hsK : size.toNat < K)
    (frameA : ∀ (A : List Int) (n1 n2 n3 : Nat) (b : Bool) (A' : List Int),
      recA A n1 n2 n3 = some (b, A') →
      A'.take (size.toNat + 1) = A.take (size.toNat + 1))
    (IH : ∀ (A : List Int) (n1 n2 n3 : Nat) (b : Bool) (A' : List Int),
      recA A n1 n2 n3 = some (b, A') →
      ∀ B : List Int, K ≤ B.length → B.take (size.toNat + 1) = A.take (size.toNat + 1) →
        ∃ B', recB B n1 n2 n3 = some (b, B') ∧ B'.length = B.length ∧
          B'.take (size.toNat + 1) = B.take (size.toNat + 1) ∧
          (b = true → B'.take K = A'.take K)) :
    ∀ (n : Nat) (cand : Int) (A : List Int) (b : Bool) (A' : List Int),
      SolverV2.candLoop recA size m1 m2 m3 n cand A = some (b, A') →
      ∀ B : List Int, K ≤ B.length → B.take size.toNat = A.take size.toNat →
        ∃ B', SolverV2.candLoop recB size m1 m2 m3 n cand B = some (b, B') ∧
          B'.length = B.length ∧ B'.take size.toNat = B.take size.toNat ∧
          (b = true → B'.take K = A'.take K) := by
  intro n
  induction n with
  | zero =>
    intro cand A b A' h B _ _
    simp only [SolverV2.candLoop, Option.some.injEq, Prod.mk.injEq] at h
    obtain ⟨rfl, rfl⟩ := h
    exact ⟨B, rfl, rfl, rfl, by simp⟩
  | succ n ih =>
    intro cand A b A' h B hBl hBt
    rw [SolverV2.candLoop] at h
    simp only [Option.bind_eq_bind, Option.bind_eq_some] at h
    obtain ⟨⟨c, nd⟩, hdl, h⟩ := h
    have hdlB : SolverV2.diffLoop B m3 cand size.toNat 0 0 = some (c, nd) := by
      rw [← hdl]
      exact SolverV2.diffLoop_congr m3 cand size.toNat 0 0 (by simpa using hBt)
    cases c with
    | true =>
      simp only [if_true] at h
      obtain ⟨B', hB', h1, h2, h3⟩ := ih (cand + 1) A b A' h B hBl hBt
      refine ⟨B', ?_, h1, h2, h3⟩
      rw [SolverV2.candLoop, hdlB]
      simpa using hB'
    | false =>
      simp only [Bool.false_eq_true, if_false, Option.bind_eq_some] at h
      obtain ⟨A1, hwr, ⟨b1, A2⟩, hrec, h⟩ := h
      obtain ⟨hs0, hslt, rfl⟩ := wr_eq_some hwr
      have hwrB : wr B size cand = some (B.set size.toNat cand) :=
        wr_eq cand hs0 (by omega)
      have htk : (B.set size.toNat cand).take (size.toNat + 1)
          = (A.set size.toNat cand).take (size.toNat + 1) := by
        rw [take_succ_set _ _ _ (by omega), take_succ_set _ _ _ (by omega), hBt]
      obtain ⟨B2, hB2, hB2l, hB2t, hB2k⟩ := IH _ _ _ _ _ _ hrec (B.set size.toNat cand)
        (by rw [List.length_set]; exact hBl) htk
      rw [List.length_set] at hB2l
      have hB2t' : B2.take size.toNat = B.take size.toNat := by
        rw [take_of_take_succ hB2t, take_set_self]
      have hA2t : A2.take size.toNat = A.take size.toNat := by
        rw [take_of_take_succ (frameA _ _ _ _ _ _ hrec), take_set_self]
      cases b1 with
      | true =>
        simp only [if_true, Option.some.injEq, Prod.mk.injEq] at h
        obtain ⟨rfl, rfl⟩ := h
        refine ⟨B2, ?_, hB2l, hB2t', fun _ => hB2k rfl⟩
        rw [SolverV2.candLoop, hdlB]
        simp [hwrB, hB2]
      | false =>
        simp only [Bool.false_eq_true, if_false] at h
        obtain ⟨B', hB', h1, h2, h3⟩ := ih (cand + 1) A2 b A' h B2 (by omega)
          (by rw [hB2t', hBt, hA2t])
        refine ⟨B', ?_, by omega, by rw [h2, hB2t'], h3⟩
        rw [SolverV2.candLoop, hdlB]
        simpa [hwrB, hB2] using hB'

/-- From size 2 on and for `k ≤ 16`, the `backtrack` of solverv3 run with
`found_global` clear gives the answer of the `backtrack` of solverv2 and, on
success, the same `A[0..k-1]`, whatever the length of its array (at least `k`)
and its contents from `size` on. -/
theorem backtrackAux_of_v2 (k alpha : Int) (hk16 : k ≤ 16) :
    ∀ (fuel : Nat) (size : Int) (A : List Int) (m1 m2 m3 : Nat) (b : Bool) (A' : List Int),
      2 ≤ size → size ≤ k - 1 →
      SolverV2.backtrackAux fuel A size m1 m2 m3 k alpha = some (b, A') →
      ∀ B : List Int, k ≤ B.length → B.take size.toNat = A.take size.toNat →
        ∃ B', backtrackAux false fuel B size m1 m2 m3 k alpha = some (b, B') ∧
          B'.length = B.length ∧ B'.take size.toNat = B.take size.toNat ∧
          (b = true → B'.take k.toNat = A'.take k.toNat) := by
  intro fuel
  induction fuel with
  | zero =>
    intro size A m1 m2 m3 b A' _ _ h
    exact Option.noConfusion h
  | succ fuel IH =>
    intro size A m1 m2 m3 b A' hs2 hsk h B hBl hBt
    rw [SolverV2.backtrackAux] at h
    simp only [Option.bind_eq_bind, Option.bind_eq_some] at h
    obtain ⟨last_val, hrd, g1, hg1, h⟩ := h
    have hrdB : rd B (size - 1) = some last_val := by
      rw [← hrd]
      exact SolverV2.rd_congr hBt (by omega)
    have hg1' : rd g_min_span (k - size + 1) = some g1 := by
      rw [g_min_span_v3_v2 _ (by omega)]; exact hg1
    rw [backtrackAux]
    simp only [Bool.false_eq_true, if_false, Option.bind_eq_bind, hrdB, Option.some_bind, hg1']
    split at h
    · next hprune =>
      simp only [Option.some.injEq, Prod.mk.injEq] at h
      obtain ⟨rfl, rfl⟩ := h
      rw [if_pos hprune]
      exact ⟨B, rfl, rfl, rfl, by simp⟩
    · next hprune =>
      rw [if_neg hprune]
      split at h
      · next hbase =>
        rw [if_pos hbase]
        simp only [Option.bind_eq_some] at h
        obtain ⟨ok, hok, h⟩ := h
        have hokB : SolverV2.closeLoop B m3 alpha size.toNat 0 = some ok := by
          rw [← hok]
          exact SolverV2.closeLoop_congr m3 alpha size.toNat 0 (by simpa using hBt)
        rw [hokB]
        cases ok with
        | true =>
          simp only [if_true, Option.bind_eq_some, Option.some.injEq] at h
          obtain ⟨A1, hwr, h⟩ := h
          obtain ⟨hs0, hslt, rfl⟩ := wr_eq_some hwr
          obtain ⟨rfl, rfl⟩ := Prod.mk.inj h
          have hwrB : wr B size alpha = some (B.set size.toNat alpha) :=
            wr_eq alpha hs0 (by omega)
          simp only [Option.some_bind, if_true, hwrB]
          refine ⟨_, rfl, List.length_set _ _ _, take_set_self _ _ _, fun _ => ?_⟩
          have hk1 : k.toNat = size.toNat + 1 := by omega
          rw [hk1, take_succ_set _ _ _ (by omega), take_succ_set _ _ _ (by omega), hBt]
        | false =>
          simp only [Bool.false_eq_true, if_false, Option.some.injEq, Prod.mk.injEq] at h
          obtain ⟨rfl, rfl⟩ := h
          simp only [Option.some_bind, Bool.false_eq_true, if_false]
          exact ⟨B, rfl, rfl, rfl, by simp⟩
      · next hbase =>
        rw [if_neg hbase]
        simp only [Option.bind_eq_some] at h
        obtain ⟨g0, hg0, h⟩ := h
        have hg0' : rd g_min_span (k - size) = some g0 := by
          rw [g_min_span_v3_v2 _ (by omega)]; exact hg0
        have hne1 : ¬ size = 1 := by omega
        simp only [hne1, if_false] at h
        simp only [hg0', Option.some_bind]
        have hsz1 : (size + 1).toNat = size.toNat + 1 := by omega
        have hx := candLoop_xrel k.toNat size m1 m2 m3
          (fun A1 n1 n2 n3 => SolverV2.backtrackAux fuel A1 (size + 1) n1 n2 n3 k alpha)
          (fun A1 n1 n2 n3 => backtrackAux false fuel A1 (size + 1) n1 n2 n3 k alpha)
          (by omega)
          (by
            intro A1 n1 n2 n3 b1 A2 hr
            have := (SolverV2.backtrackAux_rel k alpha fuel (size + 1) A1 n1 n2 n3 b1 A2 hr).2.1
            rw [hsz1] at this
            exact this)
          (by
            intro A1 n1 n2 n3 b1 A2 hr B1 hB1l hB1t
            obtain ⟨B2, h1, h2, h3, h4⟩ := IH (size + 1) A1 n1 n2 n3 b1 A2 (by omega) (by omega)
              hr B1 (by omega) (by rw [hsz1]; exact hB1t)
            rw [hsz1] at h3
            exact ⟨B2, h1, h2, h3, h4⟩)
          _ _ _ _ _ h B (by omega) hBt
        exact hx

end SolverV3

namespace SolverV3

/-! ## solverv2 and solverv3 decide the same thing -/

/-- What `worker` passes to `backtrack`. -/
theorem workerSearch_eq (fg : Bool) (L : List Int) (a1 k alpha : Int) (hL : 2 ≤ L.length)
    (h0 : 0 ≤ a1) (h127 : a1 < 128) :
    workerSearch fg L a1 k alpha
      = backtrackAux fg ((k - 2).toNat + 2) ((L.set 0 0).set 1 a1) 2 (2 ^ a1.toNat) 0 0 k
          alpha := by
  have hw0 : wr L 0 0 = some (L.set 0 0) := wr_eq 0 (le_refl _) (by omega)
  have hw1 : wr (L.set 0 0) 1 a1 = some ((L.set 0 0).set 1 a1) :=
    wr_eq a1 (by decide) (by rw [List.length_set]; omega)
  unfold workerSearch backtrack
  simp only [Option.bind_eq_bind, hw0, hw1, bitOf_eq h0 h127, Option.some_bind]

theorem take_two_set (L : List Int) (a1 : Int) (hL : 2 ≤ L.length) :
    ((L.set 0 0).set 1 a1).take 2 = [0, a1] := by
  cases L with
  | nil => simp at hL
  | cons x t =>
    cases t with
    | nil => simp at hL
    | cons y u => rfl

theorem take_two_set_one (A : List Int) (cand : Int) (hA : A.take 1 = [0]) (hL : 2 ≤ A.length) :
    (A.set 1 cand).take 2 = [0, cand] := by
  cases A with
  | nil => simp at hL
  | cons x t =>
    cases t with
    | nil => simp at hL
    | cons y u =>
      simp only [List.take_succ_cons, List.take_zero, List.cons.injEq, and_true] at hA
      subst hA
      rfl

/-- The first step of the solverv2 search: with `A[0] = 0` and empty masks the
difference `cand - 0` raises no conflict and `new_diffs` is its single bit. -/
theorem diffLoop_first (A : List Int) (cand : Int) (hA : A.take 1 = [0]) (h0 : 0 ≤ cand)
    (h127 : cand < 128) :
    SolverV2.diffLoop A 0 cand (1 : Int).toNat 0 0 = some (false, 2 ^ cand.toNat) := by
  have hA0 : A[0]? = some 0 := by
    cases A with
    | nil => simp at hA
    | cons x t =>
      simp only [List.take_succ_cons, List.take_zero, List.cons.injEq, and_true] at hA
      subst hA
      simp
  show SolverV2.diffLoop A 0 cand 1 0 0 = some (false, 2 ^ cand.toNat)
  rw [SolverV2.diffLoop]
  simp only [Option.bind_eq_bind, hA0, Option.some_bind, sub_zero, bitAt_eq h0 h127,
    Nat.zero_testBit, Bool.false_eq_true, if_false, bitOf_eq h0 h127, SolverV2.diffLoop,
    Nat.zero_or]

/-- The candidate loop of solverv2 at size 1, candidate by candidate, against
the workers of solverv3. -/
theorem candLoop_first (k alpha : Int) (locals : Int → List Int) (hk3 : 3 ≤ k) (hk16 : k ≤ 16)
    (hloc : ∀ a, k ≤ (locals a).length) :
    ∀ (n : Nat) (cand : Int) (A : List Int) (b : Bool) (A' : List Int),
      SolverV2.candLoop
        (fun A1 n1 n2 n3 =>
          SolverV2.backtrackAux ((k - 2).toNat + 2) A1 (1 + 1) n1 n2 n3 k alpha)
        1 0 0 0 n cand A = some (b, A') →
      A.take 1 = [0] → 1 ≤ cand → cand + n ≤ 128 →
      (b = false → ∀ c, cand ≤ c → c < cand + n →
        ∃ W, workerSearch false (locals c) c k alpha = some (false, W)) ∧
      (b = true → ∃ a1 W, cand ≤ a1 ∧ a1 < cand + n ∧
        workerSearch false (locals a1) a1 k alpha = some (true, W) ∧
        A'.take k.toNat = W.take k.toNat ∧
        ∀ c, cand ≤ c → c < a1 →
          ∃ W', workerSearch false (locals c) c k alpha = some (false, W')) := by
  intro n
  induction n with
  | zero =>
    intro cand A b A' h _ _ _
    simp only [SolverV2.candLoop, Option.some.injEq, Prod.mk.injEq] at h
    obtain ⟨rfl, rfl⟩ := h
    refine ⟨fun _ c h1 h2 => ?_, fun h => Bool.noConfusion h⟩
    push_cast at h2
    omega
  | succ n ih =>
    intro cand A b A' h hA hc1 hcn
    push_cast at hcn
    rw [SolverV2.candLoop, diffLoop_first A cand hA (by omega) (by omega)] at h
    simp only [Option.bind_eq_bind, Option.some_bind, Bool.false_eq_true, if_false,
      Nat.zero_or, Nat.zero_and, Option.bind_eq_some] at h
    obtain ⟨A1, hwr, ⟨b1, A2⟩, hrec, h⟩ := h
    obtain ⟨_, hslt, rfl⟩ := wr_eq_some hwr
    have hAl : 2 ≤ A.length := by omega
    have hLl : 2 ≤ (locals cand).length := by have := hloc cand; omega
    obtain ⟨hfl, hft, _⟩ := SolverV2.backtrackAux_rel k alpha _ _ _ _ _ _ _ _ hrec
    rw [List.length_set] at hfl
    have hA2 : A2.take 1 = [0] := by
      have h2 : A2.take 1 = (A.set (1 : Int).toNat cand).take 1 := take_of_take_succ hft
      rw [h2]
      exact (take_set_self A 1 cand).trans hA
    obtain ⟨B', hB', _, _, hBk⟩ := backtrackAux_of_v2 k alpha hk16 _ (1 + 1) _ _ _ _ _ _
      (by decide) (by omega) hrec (((locals cand).set 0 0).set 1 cand)
      (by rw [List.length_set, List.length_set]; exact hloc cand)
      (by
        show (((locals cand).set 0 0).set 1 cand).take 2 = (A.set 1 cand).take 2
        rw [take_two_set _ _ hLl, take_two_set_one _ _ hA hAl])
    have hworker : workerSearch false (locals cand) cand k alpha = some (b1, B') := by
      rw [workerSearch_eq false _ _ _ _ hLl (by omega) (by omega)]
      exact hB'
    cases b1 with
    | true =>
      simp only [if_true, Option.some.injEq, Prod.mk.injEq] at h
      obtain ⟨rfl, rfl⟩ := h
      refine ⟨fun h => Bool.noConfusion h, fun _ => ⟨cand, B', le_refl _, by push_cast; omega,
        hworker, (hBk rfl).symm, fun c h1 h2 => by omega⟩⟩
    | false =>
      simp only [Bool.false_eq_true, if_false] at h
      obtain ⟨ihf, iht⟩ := ih (cand + 1) A2 b A' h hA2 (by omega) (by omega)
      constructor
      · intro hb c h1 h2
        by_cases hcc : c = cand
        · subst hcc; exact ⟨B', hworker⟩
        · exact ihf hb c (by omega) (by push_cast at h2; omega)
      · intro hb
        obtain ⟨a1, W, h1, h2, h3, h4, h5⟩ := iht hb
        refine ⟨a1, W, by omega, by push_cast; omega, h3, h4, fun c hc1' hc2 => ?_⟩
        by_cases hcc : c = cand
        · subst hcc; exact ⟨B', hworker⟩
        · exact h5 c (by omega) hc2

/-- A partition beyond `alpha - g_min_span[k-1]` is pruned at once. -/
theorem workerSearch_pruned (k alpha : Int) (L : List Int) (a1 g0 : Int)
    (hL : 2 ≤ L.length) (h1 : 1 ≤ a1) (h127 : a1 < 128)
    (hg0 : rd g_min_span (k - 1) = some g0) (hp : alpha - g0 < a1) :
    ∃ W, workerSearch false L a1 k alpha = some (false, W) := by
  rw [workerSearch_eq false L a1 k alpha hL (by omega) h127]
  have hrd : rd ((L.set 0 0).set 1 a1) (2 - 1) = some a1 := by
    cases L with
    | nil => simp at hL
    | cons x t =>
      cases t with
      | nil => simp at hL
      | cons y u =>
        unfold rd
        rw [if_pos (by decide)]
        simp
  have hg : rd g_min_span (k - 2 + 1) = some g0 := by
    rw [show k - 2 + 1 = k - 1 by omega]; exact hg0
  rw [show (k - 2).toNat + 2 = ((k - 2).toNat + 1) + 1 from rfl, backtrackAux]
  simp only [Bool.false_eq_true, if_false, Option.bind_eq_bind, hrd, Option.some_bind, hg]
  rw [if_pos (by omega)]
  exact ⟨_, rfl⟩

/-- C17 (solverv2 and solverv3 decide the same thing).  For every `k` with
`3 ≤ k ≤ 16` and every `alpha` with `g_min_span[k] ≤ alpha ≤ 127`, solverv2's
`backtrack(A, 1, 0, 0, 0, k, alpha)` with `A[0] = 0` (on its `int A[32]`)
returns, and it returns true if and only if, with `found_global` clear,
solverv3's `backtrack([0, a1], 2, 1<<a1, 0, 0, k, alpha)` returns true for some
`a1` in `1..alpha/2` (each worker on its own `int local_set[64]`); on success
solverv2's `A[0..k-1]` is the witness produced for the smallest such `a1`, all
smaller partitions returning false. -/
theorem solverv2_solverv3_agree (k alpha g : Int) (A : List Int) (locals : Int → List Int)
    (hk3 : 3 ≤ k) (hk16 : k ≤ 16) (hg : rd SolverV2.g_min_span k = some g) (hga : g ≤ alpha)
    (ha : alpha ≤ 127) (hA : A.length = 32) (hA0 : A[0]? = some 0)
    (hloc : ∀ a, (locals a).length = 64) :
    ∃ b A', SolverV2.backtrack A 1 0 0 0 k alpha = some (b, A') ∧
      (b = true ↔ ∃ a1 ∈ partitions alpha, ∃ W,
        workerSearch false (locals a1) a1 k alpha = some (true, W)) ∧
      (b = true → ∃ a1 ∈ partitions alpha, ∃ W,
        workerSearch false (locals a1) a1 k alpha = some (true, W) ∧
        (∀ c ∈ partitions alpha, c < a1 →
          ∃ W', workerSearch false (locals c) c k alpha = some (false, W')) ∧
        A'.take k.toNat = W.take k.toNat) := by
  have hloc' : ∀ a, k ≤ (locals a).length := fun a => by rw [hloc a]; omega
  obtain ⟨b, A', hr, _⟩ := SolverV2.backtrack_spec (by omega) hk16 ha
    (show k ≤ A.length by rw [hA]; omega) hA0
  have hA1 : A.take 1 = [0] := SolverV2.take_one_of_zero hA0
  have hrd : rd A (1 - 1) = some 0 := by
    unfold rd
    simpa using hA0
  have hg1 : rd SolverV2.g_min_span (k - 1 + 1) = some g := by
    rw [show k - 1 + 1 = k by omega]; exact hg
  obtain ⟨g0, hg0, hg0nn, _⟩ := SolverV2.g_min_span_rd (k - 1) (by omega) (by omega)
  obtain ⟨_, hgk, hgnn, _⟩ := SolverV2.g_min_span_rd k (by omega) (by omega)
  rw [hg] at hgk
  have hgeq := Option.some.inj hgk
  subst hgeq
  have ha0 : 0 ≤ alpha := by omega
  have htd : Int.tdiv alpha 2 = alpha / 2 := Int.tdiv_eq_ediv ha0 (by norm_num)
  have hrun := hr
  unfold SolverV2.backtrack at hrun
  rw [show (k - 1).toNat + 2 = ((k - 2).toNat + 2) + 1 by omega, SolverV2.backtrackAux] at hrun
  simp only [Option.bind_eq_bind, hrd, Option.some_bind, hg1, hg0] at hrun
  rw [if_neg (by omega), if_neg (by omega)] at hrun
  simp only [if_true, sub_zero] at hrun
  obtain ⟨hfalse, htrue⟩ := candLoop_first k alpha locals hk3 hk16 hloc' _ _ _ _ _ hrun hA1
    (by decide) (by rw [htd]; push_cast; omega)
  have hg0' : rd g_min_span (k - 1) = some g0 := by
    rw [g_min_span_v3_v2 _ (by omega)]; exact hg0
  have hall : b = false → ∀ c ∈ partitions alpha,
      ∃ W, workerSearch false (locals c) c k alpha = some (false, W) := by
    intro hb c hc
    rw [mem_partitions, htd] at hc
    by_cases hcm : c ≤ alpha - g0
    · exact hfalse hb c (by omega) (by rw [htd]; push_cast; omega)
    · exact workerSearch_pruned k alpha (locals c) c g0 (by have := hloc' c; omega)
        (by omega) (by omega) hg0' (by omega)
  have hsucc : b = true → ∃ a1 ∈ partitions alpha, ∃ W,
      workerSearch false (locals a1) a1 k alpha = some (true, W) ∧
      (∀ c ∈ partitions alpha, c < a1 →
        ∃ W', workerSearch false (locals c) c k alpha = some (false, W')) ∧
      A'.take k.toNat = W.take k.toNat := by
    intro hb
    obtain ⟨a1, W, h1, h2, h3, h4, h5⟩ := htrue hb
    rw [htd] at h2
    push_cast at h2
    refine ⟨a1, ?_, W, h3, ?_, h4⟩
    · rw [mem_partitions, htd]; omega
    · intro c hc hlt
      rw [mem_partitions] at hc
      exact h5 c (by omega) hlt
  refine ⟨b, A', hr, ⟨fun hb => ?_, ?_⟩, hsucc⟩
  · obtain ⟨a1, ha1, W, hW, _⟩ := hsucc hb
    exact ⟨a1, ha1, W, hW⟩
  · rintro ⟨a1, ha1, W, hW⟩
    cases hb : b with
    | true => rfl
    | false =>
      obtain ⟨W', hW'⟩ := hall hb a1 ha1
      rw [hW] at hW'
      simp only [Option.some.injEq, Prod.mk.injEq] at hW'
      exact absurd hW'.1 (by decide)

/-- Instance of `solverv2_solverv3_agree`: `k = 7`, `alpha = 10`, where
`g_min_span[7] = 9`. -/
theorem solverv2_solverv3_agree_witness :
    ∃ b A', SolverV2.backtrack (List.replicate 32 0) 1 0 0 0 7 10 = some (b, A') ∧
      (b = true ↔ ∃ a1 ∈ partitions 10, ∃ W,
        workerSearch false (List.replicate 64 0) a1 7 10 = some (true, W)) ∧
      (b = true → ∃ a1 ∈ partitions 10, ∃ W,
        workerSearch false (List.replicate 64 0) a1 7 10 = some (true, W) ∧
        (∀ c ∈ partitions 10, c < a1 →
          ∃ W', workerSearch false (List.replicate 64 0) c 7 10 = some (false, W')) ∧
        A'.take (7 : Int).toNat = W.take (7 : Int).toNat) :=
  solverv2_solverv3_agree 7 10 9 (List.replicate 32 0) (fun _ => List.replicate 64 0)
    (by decide) (by decide) (by decide) (by decide) (by decide) (List.length_replicate 32 0)
    (by decide) (fun _ => List.length_replicate 64 0)

end SolverV3

end GolombRuler
